import Mathlib

/-!
# nanonn: a shallow embedding of `nn.h`

The C program keeps every vector of a network inside one caller-owned span of
floats and reaches it through raw pointers.  The embedding keeps that shape:

* memory is a flat map from float-cell addresses to values (`Mem α`);
* a C pointer stored in a descriptor is `Option Nat` (`none` is `NULL`);
  pointers handed in by the caller (`mem`, `x`, `y`) are plain addresses;
* dereferencing `NULL` makes the embedded function return `none`;
* `float` arithmetic is read over an ordered field `α` (the reals in the
  statements that mention `exp` and `log`, the rationals when evaluating);
  `exp` and `log` of `<math.h>` are passed in a `libm` record;
* `size_t` arithmetic wraps: the sums and products `nn_init` and
  `NN_LAYER_EMPTY` compute are taken modulo `2 ^ w`, where `w`, the width of
  `size_t` in bits, is a parameter of the embedding (`size_t w n` is `n`
  converted to `size_t`); the `unsigned int` loop counters and weight indices
  are natural numbers (they wrap only for a layer of at least `2 ^ 32` cells);
* the `forward` / `backward` function pointers of a layer always hold
  `nn_dense_forward` / `nn_dense_backward` (the only layer kind `NN_DENSE`
  ever installs), so the indirect calls are embedded as direct calls;
* a `for` loop is embedded as the function giving the loop state after `k`
  iterations.
-/

namespace NanoNN

open Finset

/-! ## Data model -/

/-- Flat memory: the value held by every float cell. -/
abbrev Mem (α : Type) := Nat → α

/-- A C `float *`: `none` is `NULL`, `some a` the address of a float cell. -/
abbrev Ptr := Option Nat

/-- Pointer arithmetic `p + k` (stays `NULL` on `NULL`). -/
def Ptr.add (p : Ptr) (k : Nat) : Ptr := p.map (fun a => a + k)

/-- Read `p[i]`. -/
def load {α : Type} (m : Mem α) (p : Ptr) (i : Nat) : Option α :=
  p.map (fun a => m (a + i))

/-- Write `p[i] = v`. -/
def store {α : Type} (m : Mem α) (p : Ptr) (i : Nat) (v : α) : Option (Mem α) :=
  p.map (fun a => Function.update m (a + i) v)

/-- Conversion to `size_t`, `w` bits wide: the value modulo `2 ^ w`. -/
def size_t (w n : Nat) : Nat := n % 2 ^ w

/-- Mirror of `struct nn_vec`. -/
structure nn_vec where
  len : Nat
  data : Ptr
deriving DecidableEq

abbrev NN_FLAG_NO_BIAS : Nat := 1
abbrev NN_FLAG_LINEAR : Nat := 0 <<< 1
abbrev NN_FLAG_RELU : Nat := 1 <<< 1
abbrev NN_FLAG_LRELU : Nat := 2 <<< 1
abbrev NN_FLAG_SIGMOID : Nat := 3 <<< 1
abbrev NN_FLAG_SOFTPLUS : Nat := 4 <<< 1
abbrev NN_ACTFN : Nat := 3 <<< 1

/-- Mirror of `struct nn_layer` (without the two function pointers). -/
structure nn_layer where
  flags : Nat
  input : nn_vec
  output : nn_vec
  weights : nn_vec
  errors : nn_vec
  cache : nn_vec
deriving DecidableEq

/-- The two `<math.h>` functions the program calls. -/
structure libm (α : Type) where
  exp : α → α
  log : α → α

/-- Mirror of the macro `NN_LAYER_EMPTY`. -/
def NN_LAYER_EMPTY (w : Nat) (l : nn_layer) : Bool :=
  size_t w (l.input.len * l.output.len) == 0

/-- Mirror of the macro `NN_EMPTY()`: the all-zero descriptor. -/
def NN_EMPTY : nn_layer :=
  { flags := 0, input := ⟨0, none⟩, output := ⟨0, none⟩, weights := ⟨0, none⟩,
    errors := ⟨0, none⟩, cache := ⟨0, none⟩ }

/-- Mirror of the macro `NN_DENSE(out, in, flags)`: a positional initializer, so
its values land in the members in declaration order `flags, input, output,
weights, errors, cache`. -/
def NN_DENSE (out inp flags : Nat) : nn_layer :=
  { flags := flags, input := ⟨out, none⟩, output := ⟨inp, none⟩,
    weights := ⟨(out + 1) * inp, none⟩, errors := ⟨out, none⟩, cache := ⟨0, none⟩ }

/-! ## Activation functions -/

section Activations
variable {α : Type} [LinearOrderedField α]

def NN_ACT_LINEAR (x : α) : α := x
def NN_ACT_RELU (x : α) : α := x * (if x > 0 then 1 else 0)
def NN_ACT_LRELU (x : α) : α := if x > 0 then x else 0.01 * x
def NN_ACT_SIGMOID (L : libm α) (x : α) : α := 1.0 / (1.0 + L.exp (-x))
def NN_ACT_SOFTPLUS (L : libm α) (x : α) : α := L.log (1.0 + L.exp x)

/-- The macro `NN_DACT_LINEAR(x)` discards its argument without evaluating it. -/
def NN_DACT_LINEAR : α := 1.0
def NN_DACT_RELU (x : α) : α := 1.0 * (if x > 0 then 1 else 0)
def NN_DACT_LRELU (x : α) : α := if x > 0 then 1.0 else 0.01
def NN_DACT_SIGMOID (x : α) : α := x * (1 - x)
def NN_DACT_SOFTPLUS (L : libm α) (x : α) : α := 1.0 / (1.0 + L.exp (-x))

/-- Mirror of the macro `NN_ACT_LOOP`: memory after `k` iterations (the macro
runs `vec.len` of them). -/
def NN_ACT_LOOP (vec : nn_vec) (fn : α → α) : Nat → Mem α → Option (Mem α)
  | 0, m => some m
  | k + 1, m => do
    let m1 ← NN_ACT_LOOP vec fn k m
    let v ← load m1 vec.data k
    store m1 vec.data k (fn v)

end Activations

/-! ## Forward propagation of one layer -/

section Forward
variable {α : Type} [LinearOrderedField α]

/-- Inner `j` loop of `nn_dense_forward` for neuron `i`: `sum` after `k`
iterations. -/
def nn_dense_forward_sum (l : nn_layer) (m : Mem α) (i : Nat) : Nat → Option α
  | 0 => some 0
  | k + 1 => do
    let sum ← nn_dense_forward_sum l m i k
    let x ← load m l.input.data k
    let w ← load m l.weights.data (i * (l.input.len + 1) + k)
    pure (sum + x * w)

/-- Outer `i` loop of `nn_dense_forward`: memory after `k` iterations. -/
def nn_dense_forward_rows (l : nn_layer) : Nat → Mem α → Option (Mem α)
  | 0, m => some m
  | k + 1, m => do
    let m1 ← nn_dense_forward_rows l k m
    let sum ← nn_dense_forward_sum l m1 k l.input.len
    let sum ←
      if l.flags &&& NN_FLAG_NO_BIAS = 0 then do
        let b ← load m1 l.weights.data (k * (l.input.len + 1) + (l.input.len + 1) - 1)
        pure (sum + b)
      else pure sum
    store m1 l.output.data k sum

/-- Mirror of `nn_dense_forward`. -/
def nn_dense_forward (L : libm α) (l : nn_layer) (_training : Int) (m : Mem α) :
    Option (Mem α) := do
  let m1 ← nn_dense_forward_rows l l.output.len m
  if l.flags &&& NN_ACTFN = NN_FLAG_RELU then
    NN_ACT_LOOP l.output NN_ACT_RELU l.output.len m1
  else if l.flags &&& NN_ACTFN = NN_FLAG_LRELU then
    NN_ACT_LOOP l.output NN_ACT_LRELU l.output.len m1
  else if l.flags &&& NN_ACTFN = NN_FLAG_SIGMOID then
    NN_ACT_LOOP l.output (NN_ACT_SIGMOID L) l.output.len m1
  else if l.flags &&& NN_ACTFN = NN_FLAG_SOFTPLUS then
    NN_ACT_LOOP l.output (NN_ACT_SOFTPLUS L) l.output.len m1
  else
    some m1

end Forward

/-! ## Backward propagation of one layer -/

section Backward
variable {α : Type} [LinearOrderedField α]

/-- The `switch (l->flags & NN_ACTFN)` of `nn_dense_backward`: the expression
`NN_DACT_*(l->output.data[i])` of the selected case, evaluated in memory `m`
for neuron `i`; `none` when no case is selected. -/
def nn_dense_backward_dact (L : libm α) (l : nn_layer) :
    Option (Mem α → Nat → Option α) :=
  if l.flags &&& NN_ACTFN = NN_FLAG_LINEAR then
    some (fun _ _ => some NN_DACT_LINEAR)
  else if l.flags &&& NN_ACTFN = NN_FLAG_RELU then
    some (fun m i => (load m l.output.data i).map NN_DACT_RELU)
  else if l.flags &&& NN_ACTFN = NN_FLAG_LRELU then
    some (fun m i => (load m l.output.data i).map NN_DACT_LRELU)
  else if l.flags &&& NN_ACTFN = NN_FLAG_SIGMOID then
    some (fun m i => (load m l.output.data i).map NN_DACT_SIGMOID)
  else if l.flags &&& NN_ACTFN = NN_FLAG_SOFTPLUS then
    some (fun m i => (load m l.output.data i).map (NN_DACT_SOFTPLUS L))
  else
    none

/-- Inner `i` loop of the error pass for input neuron `j`: `sum_e` after `k`
iterations, with `dact` the derivative expression of the selected case. -/
def nn_dense_backward_sum (l : nn_layer) (e : Ptr) (dact : Mem α → Nat → Option α)
    (m : Mem α) (j : Nat) : Nat → Option α
  | 0 => some 0
  | k + 1 => do
    let sum_e ← nn_dense_backward_sum l e dact m j k
    let ei ← load m e k
    let d ← dact m k
    let w ← load m l.weights.data (k * (l.input.len + 1) + j)
    pure (sum_e + ei * d * w)

/-- The first `switch` of `nn_dense_backward`: the value `sum_e` has when it
is stored into `errors.data[j]` (it stays `0` when no case is selected). -/
def nn_dense_backward_sum_e (L : libm α) (l : nn_layer) (e : Ptr) (m : Mem α) (j : Nat) :
    Option α :=
  match nn_dense_backward_dact L l with
  | some dact => nn_dense_backward_sum l e dact m j l.output.len
  | none => some 0

/-- The second `switch` of `nn_dense_backward`: the value of `dsigm` for output
neuron `i` (it stays `0` when no case is selected). -/
def nn_dense_backward_dsigm (L : libm α) (l : nn_layer) (m : Mem α) (i : Nat) : Option α :=
  match nn_dense_backward_dact L l with
  | some dact => dact m i
  | none => some 0

/-- First loop of `nn_dense_backward` (error propagation): memory after `k`
iterations of the `j` loop. -/
def nn_dense_backward_errors (L : libm α) (l : nn_layer) (e : Ptr) :
    Nat → Mem α → Option (Mem α)
  | 0, m => some m
  | k + 1, m => do
    let m1 ← nn_dense_backward_errors L l e k m
    let sum_e ← nn_dense_backward_sum_e L l e m1 k
    store m1 l.errors.data k sum_e

/-- Inner `j` loop of the weight update for output neuron `i`: memory after
`k` iterations. -/
def nn_dense_backward_row (l : nn_layer) (e : Ptr) (rate dsigm : α) (i : Nat) :
    Nat → Mem α → Option (Mem α)
  | 0, m => some m
  | k + 1, m => do
    let m1 ← nn_dense_backward_row l e rate dsigm i k m
    let ei ← load m1 e i
    let x ← load m1 l.input.data k
    let w ← load m1 l.weights.data (i * (l.input.len + 1) + k)
    store m1 l.weights.data (i * (l.input.len + 1) + k) (w + rate * ei * dsigm * x)

/-- Second loop of `nn_dense_backward` (weight update): memory after `k`
iterations of the `i` loop. -/
def nn_dense_backward_update (L : libm α) (l : nn_layer) (e : Ptr) (rate : α) :
    Nat → Mem α → Option (Mem α)
  | 0, m => some m
  | k + 1, m => do
    let m1 ← nn_dense_backward_update L l e rate k m
    let dsigm ← nn_dense_backward_dsigm L l m1 k
    let m2 ← nn_dense_backward_row l e rate dsigm k l.input.len m1
    if l.flags &&& NN_FLAG_NO_BIAS = 0 then do
      let ei ← load m2 e k
      let w ← load m2 l.weights.data (k * (l.input.len + 1) + (l.input.len + 1) - 1)
      store m2 l.weights.data (k * (l.input.len + 1) + (l.input.len + 1) - 1)
        (w + rate * ei * dsigm)
    else
      some m2

/-- Mirror of `nn_dense_backward`. -/
def nn_dense_backward (L : libm α) (l : nn_layer) (e : Ptr) (rate : α) (m : Mem α) :
    Option (Mem α) := do
  let m1 ← nn_dense_backward_errors L l e l.input.len m
  nn_dense_backward_update L l e rate l.output.len m1

end Backward

/-! ## Layout -/

/-- The value of `sizeof(float)`. -/
abbrev sizeof_float : Nat := 4

/-- Body of the `for` loop of `nn_init` on one layer: the layer with its new
bindings, and the new values of `expected` and `prev_input`.  Every sum is a
`size_t` sum. -/
def nn_init_layer (w mem vec_len : Nat) (l : nn_layer) (expected : Nat) (prev_input : Ptr) :
    nn_layer × Nat × Ptr :=
  let l1 := { l with input := { l.input with data := prev_input } }
  let l2 := if size_t w (expected + l1.output.len) < vec_len then
      { l1 with output := { l1.output with data := some (mem + expected) } } else l1
  let prev_input :=
    if size_t w (expected + l1.output.len) < vec_len then l2.output.data else prev_input
  let expected := size_t w (expected + l2.output.len)
  let l3 := if size_t w (expected + l2.weights.len) < vec_len then
      { l2 with weights := { l2.weights with data := some (mem + expected) } } else l2
  let expected := size_t w (expected + l3.weights.len)
  let l4 := if size_t w (expected + l3.errors.len) < vec_len then
      { l3 with errors := { l3.errors with data := some (mem + expected) } } else l3
  let expected := size_t w (expected + l4.errors.len)
  let l5 := if size_t w (expected + l4.cache.len) < vec_len then
      { l4 with cache := { l4.cache with data := some (mem + expected) } } else l4
  let expected := size_t w (expected + l5.cache.len)
  (l5, expected, prev_input)

/-- The `for` loop of `nn_init`, started at a layer with the given values of
`expected`, `last_outputs` and `prev_input`; yields the descriptors as the
loop leaves them and the final `expected` and `last_outputs`.  Running off the
end of the array (no sentinel) is `none`. -/
def nn_init_loop (w mem vec_len : Nat) :
    List nn_layer → Nat → Nat → Ptr → Option (List nn_layer × Nat × Nat)
  | [], _, _, _ => none
  | l :: ls, expected, last_outputs, prev_input =>
    if NN_LAYER_EMPTY w l then some (l :: ls, expected, last_outputs)
    else
      let r := nn_init_layer w mem vec_len l expected prev_input
      match nn_init_loop w mem vec_len ls r.2.1 l.output.len r.2.2 with
      | none => none
      | some (ls1, expected1, last1) => some (r.1 :: ls1, expected1, last1)

/-- Mirror of `nn_init`: the descriptors after the call and the returned size,
`expected * sizeof(float)` computed in `size_t`. -/
def nn_init (w : Nat) (layers : List nn_layer) (mem memsz : Nat) :
    Option (List nn_layer × Nat) :=
  match nn_init_loop w mem (memsz / sizeof_float) layers 0 0 none with
  | none => none
  | some (ls, expected, last_outputs) =>
    some (ls, size_t w (size_t w (expected + last_outputs) * sizeof_float))

/-! ## Network driver -/

section Driver
variable {α : Type} [LinearOrderedField α]

/-- The forward `for` loop of `nn_predict` / `nn_train`, started at the head
of the list: how many layers it ran and the memory it leaves. -/
def nn_forward_loop (w : Nat) (L : libm α) : List nn_layer → Mem α → Option (Nat × Mem α)
  | [], _ => none
  | l :: ls, m =>
    if NN_LAYER_EMPTY w l then some (0, m)
    else do
      let m1 ← nn_dense_forward L l 0 m
      let r ← nn_forward_loop w L ls m1
      pure (r.1 + 1, r.2)

/-- The assignment `l->input.data = x` on the first descriptor. -/
def nn_bind_input (layers : List nn_layer) (x : Nat) : Option (List nn_layer) :=
  match layers with
  | [] => none
  | l0 :: rest => some ({ l0 with input := { l0.input with data := some x } } :: rest)

/-- Mirror of `nn_predict`: descriptors after the call, returned pointer,
memory after the call. -/
def nn_predict (w : Nat) (L : libm α) (layers : List nn_layer) (x : Nat) (m : Mem α) :
    Option (List nn_layer × Ptr × Mem α) := do
  let layers1 ← nn_bind_input layers x
  let r ← nn_forward_loop w L layers1 m
  match r.1 with
  | 0 => none
  | k + 1 => do
    let last ← layers1[k]?
    pure (layers1, last.output.data, r.2)

/-- The error `for` loop of `nn_train`: memory and `error` after `k`
iterations. -/
def nn_train_error (l : nn_layer) (e : Ptr) (y : Nat) : Nat → Mem α → Option (Mem α × α)
  | 0, m => some (m, 0)
  | k + 1, m => do
    let s ← nn_train_error l e y k m
    let yi ← load s.1 (some y) k
    let o ← load s.1 l.output.data k
    let m2 ← store s.1 e k (yi - o)
    let ei ← load m2 e k
    pure (m2, s.2 + (ei * ei) / (l.output.len : α))

/-- The `do ... while (l-- != layers)` loop of `nn_train`, entered with `l`
at index `k`. -/
def nn_backward_loop (L : libm α) (layers : List nn_layer) (rate : α) :
    Nat → Ptr → Mem α → Option (Mem α)
  | 0, e, m => do
    let l ← layers[0]?
    nn_dense_backward L l e rate m
  | k + 1, e, m => do
    let l ← layers[k + 1]?
    let m1 ← nn_dense_backward L l e rate m
    nn_backward_loop L layers rate k l.errors.data m1

/-- Mirror of `nn_train`: descriptors after the call, returned loss, memory
after the call. -/
def nn_train (w : Nat) (L : libm α) (layers : List nn_layer) (x y : Nat) (rate : α) (m : Mem α) :
    Option (List nn_layer × α × Mem α) := do
  let layers1 ← nn_bind_input layers x
  let r ← nn_forward_loop w L layers1 m
  match r.1 with
  | 0 => none
  | k + 1 => do
    let l ← layers1[k]?
    let e := l.cache.data.add l.cache.len
    let s ← nn_train_error l e y l.output.len r.2
    let m3 ← nn_backward_loop L layers1 rate k e s.1
    pure (layers1, s.2, m3)

end Driver

/-! ## Specification-level definitions

Plain mathematical counterparts of the loops above, used to state what the code
computes: regions of memory, the value of one neuron, the error and weight
formulas of one layer. -/

section Spec
variable {α : Type} [LinearOrderedField α]

/-- Regions `[p, p+n)` and `[q, q+k)` share no cell. -/
def disj (p n q k : Nat) : Prop := n = 0 ∨ k = 0 ∨ p + n ≤ q ∨ q + k ≤ p

instance (p n q k : Nat) : Decidable (disj p n q k) := by unfold disj; infer_instance

/-- Activation selected by the flag word in `nn_dense_forward`. -/
def act (L : libm α) (flags : Nat) (x : α) : α :=
  if flags &&& NN_ACTFN = NN_FLAG_RELU then NN_ACT_RELU x
  else if flags &&& NN_ACTFN = NN_FLAG_LRELU then NN_ACT_LRELU x
  else if flags &&& NN_ACTFN = NN_FLAG_SIGMOID then NN_ACT_SIGMOID L x
  else if flags &&& NN_ACTFN = NN_FLAG_SOFTPLUS then NN_ACT_SOFTPLUS L x
  else x

/-- Pre-activation sum of neuron `i`: the inputs `x` times row `i` of the weights
`w` (row stride `inlen + 1`), plus the trailing bias of the row unless
`NN_FLAG_NO_BIAS` is set. -/
def dense_presum (flags inlen : Nat) (w x : Nat → α) (i : Nat) : α :=
  (∑ j in range inlen, x j * w (i * (inlen + 1) + j)) +
    (if flags &&& NN_FLAG_NO_BIAS = 0 then w (i * (inlen + 1) + inlen) else 0)

/-- Output of neuron `i`: the selected activation of its pre-activation sum. -/
def dense_output (L : libm α) (flags inlen : Nat) (w x : Nat → α) (i : Nat) : α :=
  act L flags (dense_presum flags inlen w x i)

/-- The vector that starts at address `p`. -/
def vec (m : Mem α) (p : Nat) : Nat → α := fun i => m (p + i)

/-- Memory `m` with the `k` cells from `p` on replaced by `f 0 .. f (k-1)`. -/
def overlay (m : Mem α) (p k : Nat) (f : Nat → α) : Mem α :=
  fun a => if p ≤ a ∧ a < p + k then f (a - p) else m a

/-- Derivative factor by activation variant, computed from the output value:
linear `1`; relu `1` if the output is positive, else `0`; leaky-relu `1` if the
output is positive, else `0.01`; sigmoid `o * (1 - o)`. -/
def dact (flags : Nat) (o : α) : α :=
  if flags &&& NN_ACTFN = NN_FLAG_LINEAR then 1
  else if flags &&& NN_ACTFN = NN_FLAG_RELU then (if o > 0 then 1 else 0)
  else if flags &&& NN_ACTFN = NN_FLAG_LRELU then (if o > 0 then 1 else 0.01)
  else o * (1 - o)

/-- Error propagated to input neuron `j`. -/
def dense_errors (flags inlen outlen : Nat) (w e out : Nat → α) (j : Nat) : α :=
  ∑ i in range outlen, e i * dact flags (out i) * w (i * (inlen + 1) + j)

/-- New value of the weight cell `idx = i * (inlen + 1) + j`. -/
def dense_weight (flags inlen : Nat) (rate : α) (w e out x : Nat → α)
    (idx : Nat) : α :=
  if idx % (inlen + 1) < inlen then
    w idx + rate * e (idx / (inlen + 1)) * dact flags (out (idx / (inlen + 1)))
      * x (idx % (inlen + 1))
  else if flags &&& NN_FLAG_NO_BIAS = 0 then
    w idx + rate * e (idx / (inlen + 1)) * dact flags (out (idx / (inlen + 1)))
  else w idx

end Spec

/-- Number of buffer cells one layer declares: output, weights, errors, cache. -/
def layer_size (l : nn_layer) : Nat :=
  l.output.len + l.weights.len + l.errors.len + l.cache.len

/-- Total number of cells declared by a list of layers. -/
def total_size (ds : List nn_layer) : Nat := (ds.map layer_size).sum

/-- Output length of the last layer of `ds`, `n0` when `ds` is empty. -/
def last_output_len (n0 : Nat) : List nn_layer → Nat
  | [] => n0
  | l :: ls => last_output_len l.output.len ls

/-- The descriptors `nn_init`'s loop leaves for the non-sentinel layers `ds`. -/
def nn_init_layers (w mem vec_len : Nat) : List nn_layer → Nat → Ptr → List nn_layer
  | [], _, _ => []
  | l :: ls, expected, prev_input =>
    (nn_init_layer w mem vec_len l expected prev_input).1 ::
      nn_init_layers w mem vec_len ls (nn_init_layer w mem vec_len l expected prev_input).2.1
        (nn_init_layer w mem vec_len l expected prev_input).2.2


/-! ## Network-level specification -/

section NetSpec
variable {α : Type} [LinearOrderedField α]

/-- The weight vector of layer `l` as memory `m` holds it. -/
def layer_w (m : Mem α) (l : nn_layer) : Nat → α :=
  fun i => (load m l.weights.data i).getD 0

/-- Output vector of layer `l` on input vector `v`, weights read in `m`. -/
def layer_out (L : libm α) (m : Mem α) (l : nn_layer) (v : Nat → α) : Nat → α :=
  dense_output L l.flags l.input.len (layer_w m l) v

/-- Output of the last layer when the layers `ls` are run in order on input `v`
(`v` itself for no layer), weights read in `m`. -/
def net_forward (L : libm α) (m : Mem α) : List nn_layer → (Nat → α) → (Nat → α)
  | [], v => v
  | l :: ls, v => net_forward L m ls (layer_out L m l v)

/-- Error vector handed to the backward step of the layer that feeds `ls`, whose
output is `v`: target minus output when `ls` is empty, else the error vector the
first layer of `ls` propagates, all weights read in `m`. -/
def net_error (L : libm α) (m : Mem α) : List nn_layer → (Nat → α) → (Nat → α) → (Nat → α)
  | [], v, y => fun i => y i - v i
  | l :: ls, v, y =>
    dense_errors l.flags l.input.len l.output.len (layer_w m l)
      (net_error L m ls (layer_out L m l v) y) (layer_out L m l v)

/-- Memories `m` and `m'` hold the same weights for every layer of `ls`. -/
def same_weights (m m' : Mem α) (ls : List nn_layer) : Prop :=
  ∀ l ∈ ls, ∀ idx < l.output.len * (l.input.len + 1), layer_w m l idx = layer_w m' l idx

/-- One backpropagation step on the layers `ls` fed with `v`, target `y`: in
`m'` every layer holds the weights of `m` moved by
`rate * e[i] * d(out[i]) * in[j]` (bias: without the input factor), with
outputs and errors computed from the weights of `m`. -/
def backprop_step (L : libm α) (rate : α) (m m' : Mem α) :
    List nn_layer → (Nat → α) → (Nat → α) → Prop
  | [], _, _ => True
  | l :: ls, v, y =>
    (∀ idx < l.output.len * (l.input.len + 1),
      layer_w m' l idx = dense_weight l.flags l.input.len rate (layer_w m l)
        (net_error L m ls (layer_out L m l v) y) (layer_out L m l v) v idx) ∧
    backprop_step L rate m m' ls (layer_out L m l v) y

end NetSpec

/-! ## Layout predicates -/

/-- The layers `ls` are bound back to back from cell `off` of the buffer at `mem`
in the order output, weights, errors, cache, the first layer reading its input at
`prev` and every later one at its predecessor's output. -/
def Bound (mem : Nat) : List nn_layer → Nat → Ptr → Prop
  | [], _, _ => True
  | l :: ls, off, prev =>
    l.input.data = prev ∧ l.output.data = some (mem + off) ∧
    l.weights.data = some (mem + off + l.output.len) ∧
    l.errors.data = some (mem + off + l.output.len + l.weights.len) ∧
    l.cache.data = some (mem + off + l.output.len + l.weights.len + l.errors.len) ∧
    Bound mem ls (off + layer_size l) (some (mem + off))

/-- The layers `ls` form a dense network on `n0` inputs: every layer is non-empty,
declares `(input_len + 1) * output_len` weights and `input_len` errors (the lengths
`NN_DENSE` gives), and takes as many inputs as its predecessor has outputs. -/
def Shaped : Nat → List nn_layer → Prop
  | _, [] => True
  | n0, l :: ls =>
    l.input.len = n0 ∧ 0 < l.input.len ∧ 0 < l.output.len ∧
    l.weights.len = (l.input.len + 1) * l.output.len ∧ l.errors.len = l.input.len ∧
    Shaped l.output.len ls

/-- Output pointer of the last layer of `ls`, `p0` when `ls` is empty. -/
def last_output_ptr (p0 : Ptr) : List nn_layer → Ptr
  | [] => p0
  | l :: ls => last_output_ptr l.output.data ls

/-! ## The driver loops as recursions over the layer list -/

section DriverAux
variable {α : Type} [LinearOrderedField α]

/-- The `do ... while` loop of `nn_train` on the layers `ls`, from the last one down
to the first: the pointer `e` it would hand to the layer before `ls`, and the memory
it leaves. -/
def backward_list (L : libm α) (rate : α) : List nn_layer → Ptr → Mem α → Option (Ptr × Mem α)
  | [], e, m => some (e, m)
  | l :: rest, e, m => do
    let r ← backward_list L rate rest e m
    let m1 ← nn_dense_backward L l r.1 rate r.2
    pure (l.errors.data, m1)

/-- What `nn_train` does on the layers `rest` that follow the layer `lprev`: the
forward loop over `rest`, the error loop on the last layer, the backward loop down
to the first layer of `rest`.  Yields the pointer `e` for `lprev`, the loss and the
memory. -/
def train_from (L : libm α) (rate : α) (y : Nat) (lprev : nn_layer) :
    List nn_layer → Mem α → Option (Ptr × α × Mem α)
  | [], m => do
    let s ← nn_train_error lprev (lprev.cache.data.add lprev.cache.len) y lprev.output.len m
    pure (lprev.cache.data.add lprev.cache.len, s.2, s.1)
  | l :: rest, m => do
    let m1 ← nn_dense_forward L l 0 m
    let r ← train_from L rate y l rest m1
    let m3 ← nn_dense_backward L l r.1 rate r.2.2
    pure (l.errors.data, r.2.1, m3)

end DriverAux

/-- The last layer of `l0 :: ls`. -/
def last_layer (l0 : nn_layer) : List nn_layer → nn_layer
  | [] => l0
  | l :: ls => last_layer l ls

/-! ## The two-layer fixture of `test_network_backward` -/

/-- The declared layers: `NN_DENSE(2, 2, NN_FLAG_SIGMOID)` twice. -/
def fixture_decl : List nn_layer :=
  [NN_DENSE 2 2 NN_FLAG_SIGMOID, NN_DENSE 2 2 NN_FLAG_SIGMOID]

/-- The descriptors `nn_init` leaves for `fixture_decl` followed by `NN_EMPTY()`, in
a buffer of 1024 floats at address 100. -/
def fixture_laid : List nn_layer :=
  [{ flags := NN_FLAG_SIGMOID, input := ⟨2, none⟩, output := ⟨2, some 100⟩,
     weights := ⟨6, some 102⟩, errors := ⟨2, some 108⟩, cache := ⟨0, some 110⟩ },
   { flags := NN_FLAG_SIGMOID, input := ⟨2, some 100⟩, output := ⟨2, some 110⟩,
     weights := ⟨6, some 112⟩, errors := ⟨2, some 118⟩, cache := ⟨0, some 120⟩ },
   NN_EMPTY]

/-- Memory of the test before training: the input `x` in cells 0 and 1, the target
`y` in cells 10 and 11, the weights the test stores in the two layers, zero
elsewhere. -/
def fixture_mem {α : Type} [LinearOrderedField α] : Mem α := fun a =>
  if a = 0 then 0.05 else if a = 1 then 0.1
  else if a = 10 then 0.01 else if a = 11 then 0.99
  else if a = 102 then 0.15 else if a = 103 then 0.2 else if a = 104 then 0.35
  else if a = 105 then 0.25 else if a = 106 then 0.3 else if a = 107 then 0.35
  else if a = 112 then 0.4 else if a = 113 then 0.45 else if a = 114 then 0.6
  else if a = 115 then 0.5 else if a = 116 then 0.55 else if a = 117 then 0.6
  else 0

/-- First layer of the fixture once `nn_train` has bound the input `x` at cell 0. -/
def fixture_layer0 : nn_layer :=
  { flags := NN_FLAG_SIGMOID, input := ⟨2, some 0⟩, output := ⟨2, some 100⟩,
    weights := ⟨6, some 102⟩, errors := ⟨2, some 108⟩, cache := ⟨0, some 110⟩ }

/-- Second layer of the fixture as `nn_init` leaves it. -/
def fixture_layer1 : nn_layer :=
  { flags := NN_FLAG_SIGMOID, input := ⟨2, some 100⟩, output := ⟨2, some 110⟩,
    weights := ⟨6, some 112⟩, errors := ⟨2, some 118⟩, cache := ⟨0, some 120⟩ }

/-! ## Layout regions -/

/-- The buffer regions of the layers `ls` in the order `nn_init` visits them:
output, weights, errors, cache of each layer in turn. -/
def regions : List nn_layer → List nn_vec
  | [] => []
  | l :: ls => l.output :: l.weights :: l.errors :: l.cache :: regions ls

/-- Offset of region `k` of `rs`: the sum of the lengths of the regions before it. -/
def region_offset (rs : List nn_vec) (k : Nat) : Nat := ((rs.take k).map nn_vec.len).sum

/-- What the guarded assignment
`if (expected + v.len < vec.len) v.data = vec.data + expected` of `nn_init` leaves
in the vectors `vs`, visited in order with `expected` advanced by every length, all
sums being `size_t` sums. -/
def bind_regions (w mem vec_len : Nat) : List nn_vec → Nat → List nn_vec
  | [], _ => []
  | v :: vs, expected =>
    (if size_t w (expected + v.len) < vec_len then { v with data := some (mem + expected) }
      else v) ::
      bind_regions w mem vec_len vs (size_t w (expected + v.len))

/-- Two descriptors declare the same layer: same flags and same vector lengths
(their bindings may differ). -/
def same_decl (l l' : nn_layer) : Prop :=
  l.flags = l'.flags ∧ l.input.len = l'.input.len ∧ l.output.len = l'.output.len ∧
  l.weights.len = l'.weights.len ∧ l.errors.len = l'.errors.len ∧
  l.cache.len = l'.cache.len

instance (l l' : nn_layer) : Decidable (same_decl l l') := by unfold same_decl; infer_instance

/-- A freshly declared descriptor: every pointer is `NULL`. -/
def unbound (l : nn_layer) : Prop :=
  l.input.data = none ∧ l.output.data = none ∧ l.weights.data = none ∧
  l.errors.data = none ∧ l.cache.data = none

instance (l : nn_layer) : Decidable (unbound l) := by unfold unbound; infer_instance

/-- Some region pointer of `l` (output, weights, errors or cache) is `NULL`. -/
def has_unbound_region (l : nn_layer) : Prop :=
  l.output.data = none ∨ l.weights.data = none ∨ l.errors.data = none ∨
  l.cache.data = none

instance (l : nn_layer) : Decidable (has_unbound_region l) := by
  unfold has_unbound_region; infer_instance

/-- No pointer of the descriptor `l` is `NULL`. -/
def wired (l : nn_layer) : Prop :=
  (∃ p, l.input.data = some p) ∧ (∃ p, l.output.data = some p) ∧
  (∃ p, l.weights.data = some p) ∧ (∃ p, l.errors.data = some p) ∧
  (∃ p, l.cache.data = some p)

/-! ## The one-layer fixture of `test_network_forward` -/

/-- The declared layer: `NN_DENSE(3, 1, NN_FLAG_SIGMOID)`. -/
def forward_decl : List nn_layer := [NN_DENSE 3 1 NN_FLAG_SIGMOID]

/-- The descriptors `nn_init` leaves for `forward_decl` followed by `NN_EMPTY()`, in
a buffer of 64 floats at address 100. -/
def forward_laid : List nn_layer :=
  [{ flags := NN_FLAG_SIGMOID, input := ⟨3, none⟩, output := ⟨1, some 100⟩,
     weights := ⟨4, some 101⟩, errors := ⟨3, some 105⟩, cache := ⟨0, some 108⟩ },
   NN_EMPTY]

/-- Memory of the test at its first `nn_predict`: the input `x` in cells 0 to 2,
the four weights the test stores in cells 101 to 104, zero elsewhere. -/
def forward_mem {α : Type} [LinearOrderedField α] : Mem α := fun a =>
  if a = 0 then 1.62434536 else if a = 1 then -0.52817175 else if a = 2 then 0.86540763
  else if a = 101 then 1.74481176 else if a = 102 then -0.7612069
  else if a = 103 then 0.3190391 else if a = 104 then -0.24937038
  else 0

/-- The layer of `forward_laid` once `nn_predict` has bound the input `x` at cell 0. -/
def forward_layer0 : nn_layer :=
  { flags := NN_FLAG_SIGMOID, input := ⟨3, some 0⟩, output := ⟨1, some 100⟩,
    weights := ⟨4, some 101⟩, errors := ⟨3, some 105⟩, cache := ⟨0, some 108⟩ }

/-! ## Lemmas and theorems -/

section Proofs
variable {α : Type} [LinearOrderedField α] {w : Nat}
set_option linter.unusedSectionVars false
set_option linter.unusedVariables false

theorem idx_lt {i j n k : Nat} (hi : i < k) (hj : j < n) : i * n + j < k * n := by
  have : (i + 1) * n ≤ k * n := Nat.mul_le_mul_right n hi
  have h2 : (i + 1) * n = i * n + n := by ring
  omega

theorem forward_sum_eq (l : nn_layer) (m : Mem α) (pin pw i : Nat)
    (hin : l.input.data = some pin) (hw : l.weights.data = some pw) (k : Nat) :
    nn_dense_forward_sum l m i k
      = some (∑ j in range k, m (pin + j) * m (pw + (i * (l.input.len + 1) + j))) := by
  induction k with
  | zero => simp [nn_dense_forward_sum]
  | succ k ih => simp [nn_dense_forward_sum, ih, load, hin, hw, Finset.sum_range_succ]

theorem overlay_zero (m : Mem α) (p : Nat) (f : Nat → α) : overlay m p 0 f = m := by
  funext a
  have : ¬ (p ≤ a ∧ a < p + 0) := by omega
  simp only [overlay, this, if_false]

theorem overlay_succ (m : Mem α) (p k : Nat) (f : Nat → α) :
    Function.update (overlay m p k f) (p + k) (f k) = overlay m p (k + 1) f := by
  funext a
  by_cases ha : a = p + k
  · subst ha
    have : p ≤ p + k ∧ p + k < p + (k + 1) := by omega
    simp only [Function.update_same, overlay, this, and_self, if_true, Nat.add_sub_cancel_left]
  · rw [Function.update_noteq ha]
    have : (p ≤ a ∧ a < p + (k + 1)) ↔ (p ≤ a ∧ a < p + k) := by omega
    simp only [overlay, this]

theorem overlay_out (m : Mem α) (p k : Nat) (f : Nat → α) (a : Nat)
    (ha : a < p ∨ p + k ≤ a) : overlay m p k f a = m a := by
  have : ¬ (p ≤ a ∧ a < p + k) := by omega
  simp only [overlay, this, if_false]

theorem overlay_in (m : Mem α) (p k : Nat) (f : Nat → α) (i : Nat) (hi : i < k) :
    overlay m p k f (p + i) = f i := by
  have : p ≤ p + i ∧ p + i < p + k := by omega
  simp only [overlay, this, and_self, if_true, Nat.add_sub_cancel_left]

theorem forward_rows_eq (l : nn_layer) (m : Mem α) (pin pout pw : Nat)
    (hin : l.input.data = some pin) (hout : l.output.data = some pout)
    (hw : l.weights.data = some pw)
    (h1 : disj pout l.output.len pin l.input.len)
    (h2 : disj pout l.output.len pw (l.output.len * (l.input.len + 1)))
    (k : Nat) (hk : k ≤ l.output.len) :
    nn_dense_forward_rows l k m = some (overlay m pout k
      (dense_presum l.flags l.input.len (vec m pw) (vec m pin))) := by
  induction k with
  | zero => simp only [nn_dense_forward_rows, overlay_zero]
  | succ k ih =>
    have ih := ih (by omega)
    simp only [nn_dense_forward_rows, ih, Option.bind_eq_bind, Option.some_bind,
      forward_sum_eq l _ pin pw k hin hw]
    have hsum : (∑ j in range l.input.len,
        overlay m pout k (dense_presum l.flags l.input.len (vec m pw) (vec m pin)) (pin + j) *
        overlay m pout k (dense_presum l.flags l.input.len (vec m pw) (vec m pin))
            (pw + (k * (l.input.len + 1) + j)))
        = ∑ j in range l.input.len, m (pin + j) * m (pw + (k * (l.input.len + 1) + j)) := by
      apply Finset.sum_congr rfl
      intro j hj
      have hj := Finset.mem_range.mp hj
      have hidx := idx_lt (n := l.input.len + 1) (k := l.output.len) (i := k) (j := j)
        (by omega) (by omega)
      rw [overlay_out _ _ _ _ _ (by unfold disj at h1; omega),
        overlay_out _ _ _ _ _ (by unfold disj at h2; omega)]
    have hidx := idx_lt (n := l.input.len + 1) (k := l.output.len) (i := k) (j := l.input.len)
      (by omega) (by omega)
    have hb : k * (l.input.len + 1) + (l.input.len + 1) - 1 = k * (l.input.len + 1) + l.input.len := by
      omega
    rw [hsum, ← overlay_succ]
    by_cases hf : l.flags &&& NN_FLAG_NO_BIAS = 0
    · simp only [hf, if_true, load, hw, hout, store, Option.map_some', Option.bind_eq_bind,
        Option.some_bind, hb, Option.pure_def, dense_presum, vec]
      rw [overlay_out _ _ _ _ _ (by unfold disj at h2; omega)]
    · simp only [hf, if_false, load, hw, hout, store, Option.map_some', Option.bind_eq_bind,
        Option.some_bind, Option.pure_def, dense_presum, vec, add_zero]

theorem act_loop_eq (vec : nn_vec) (fn : α → α) (p : Nat) (hp : vec.data = some p)
    (m : Mem α) (k : Nat) :
    NN_ACT_LOOP vec fn k m = some (overlay m p k (fun i => fn (m (p + i)))) := by
  induction k with
  | zero => simp only [NN_ACT_LOOP, overlay_zero]
  | succ k ih =>
    simp only [NN_ACT_LOOP, ih, Option.bind_eq_bind, Option.some_bind, load, store, hp,
      Option.map_some', ← overlay_succ]
    rw [overlay_out _ _ _ _ _ (by omega)]

theorem overlay_overlay (m : Mem α) (p k : Nat) (f g : Nat → α) :
    overlay (overlay m p k f) p k g = overlay m p k g := by
  funext a
  by_cases h : p ≤ a ∧ a < p + k
  · simp only [overlay, h, and_self, if_true]
  · simp only [overlay, h, if_false]

theorem dense_forward_eq (L : libm α) (l : nn_layer) (t : Int) (m : Mem α) (pin pout pw : Nat)
    (hin : l.input.data = some pin) (hout : l.output.data = some pout)
    (hw : l.weights.data = some pw)
    (h1 : disj pout l.output.len pin l.input.len)
    (h2 : disj pout l.output.len pw (l.output.len * (l.input.len + 1))) :
    nn_dense_forward L l t m = some (overlay m pout l.output.len
      (dense_output L l.flags l.input.len (vec m pw) (vec m pin))) := by
  simp only [nn_dense_forward, forward_rows_eq l m pin pout pw hin hout hw h1 h2 _ le_rfl,
    Option.bind_eq_bind, Option.some_bind, act_loop_eq l.output _ pout hout, overlay_overlay]
  have key : ∀ fn : α → α, overlay m pout l.output.len (fun i => fn (overlay m pout l.output.len
      (dense_presum l.flags l.input.len (vec m pw) (vec m pin)) (pout + i)))
      = overlay m pout l.output.len
        (fun i => fn (dense_presum l.flags l.input.len (vec m pw) (vec m pin) i)) := by
    intro fn
    funext a
    by_cases h : pout ≤ a ∧ a < pout + l.output.len
    · have h3 : pout + (a - pout) = a := by omega
      simp only [overlay, h, and_self, if_true, h3]
    · simp only [overlay, h, if_false]
  simp only [key]
  unfold dense_output act
  split_ifs <;> rfl

theorem and_actfn_cases (f : Nat) :
    f &&& NN_ACTFN = 0 ∨ f &&& NN_ACTFN = 2 ∨ f &&& NN_ACTFN = 4 ∨ f &&& NN_ACTFN = 6 := by
  have h1 : f &&& NN_ACTFN = (f % 8) &&& 6 := by
    have h7 : f % 8 = f &&& 7 := (Nat.and_pow_two_sub_one_eq_mod f 3).symm
    rw [h7, Nat.and_assoc]
    rfl
  have h2 : f % 8 < 8 := Nat.mod_lt _ (by decide)
  rw [h1]
  interval_cases (f % 8) <;> decide

theorem overlay_congr (m : Mem α) (p k : Nat) (f g : Nat → α) (h : ∀ i < k, f i = g i) :
    overlay m p k f = overlay m p k g := by
  funext a
  by_cases ha : p ≤ a ∧ a < p + k
  · simp only [overlay, ha, and_self, if_true]
    exact h _ (by omega)
  · simp only [overlay, ha, if_false]

theorem overlay_same (m : Mem α) (p k : Nat) (f : Nat → α) (h : f k = m (p + k)) :
    overlay m p (k + 1) f = overlay m p k f := by
  rw [← overlay_succ, h]
  funext a
  by_cases ha : a = p + k
  · subst ha
    rw [Function.update_same, overlay_out _ _ _ _ _ (by omega)]
  · rw [Function.update_noteq ha]

theorem backward_dact_eq (L : libm α) (l : nn_layer) (pout : Nat)
    (hout : l.output.data = some pout) (m : Mem α) (i : Nat) :
    nn_dense_backward_dsigm L l m i = some (dact l.flags (m (pout + i))) := by
  have c0 : NN_FLAG_LINEAR = 0 := rfl
  have c1 : NN_FLAG_RELU = 2 := rfl
  have c2 : NN_FLAG_LRELU = 4 := rfl
  have c3 : NN_FLAG_SIGMOID = 6 := rfl
  have c4 : NN_FLAG_SOFTPLUS = 8 := rfl
  have one : (1.0 : α) = 1 := by norm_num
  unfold nn_dense_backward_dsigm nn_dense_backward_dact dact
  rw [c0, c1, c2, c3, c4]
  rcases and_actfn_cases l.flags with h | h | h | h <;>
    simp [h, load, hout, NN_DACT_LINEAR, NN_DACT_RELU, NN_DACT_LRELU, NN_DACT_SIGMOID, one]

theorem backward_sum_eq (l : nn_layer) (m : Mem α) (pe pw j : Nat) (D : Nat → α)
    (d : Mem α → Nat → Option α) (hd : ∀ i, d m i = some (D i))
    (hw : l.weights.data = some pw) (k : Nat) :
    nn_dense_backward_sum l (some pe) d m j k
      = some (∑ i in range k, m (pe + i) * D i * m (pw + (i * (l.input.len + 1) + j))) := by
  induction k with
  | zero => simp [nn_dense_backward_sum]
  | succ k ih => simp [nn_dense_backward_sum, ih, load, hd, hw, Finset.sum_range_succ]

theorem backward_errsum_eq (L : libm α) (l : nn_layer) (m : Mem α) (pe pout pw j : Nat)
    (hout : l.output.data = some pout) (hw : l.weights.data = some pw) :
    nn_dense_backward_sum_e L l (some pe) m j
    = some (dense_errors l.flags l.input.len l.output.len (vec m pw) (vec m pe) (vec m pout) j) := by
  have h := fun i => backward_dact_eq L l pout hout m i
  unfold nn_dense_backward_dsigm at h
  unfold nn_dense_backward_sum_e
  cases hc : nn_dense_backward_dact L l with
  | none =>
    simp only [hc] at h
    have h0 : ∀ i, dact l.flags (m (pout + i)) = 0 := fun i => (Option.some.inj (h i)).symm
    simp [dense_errors, vec, h0]
  | some d =>
    simp only [hc] at h
    simp only [backward_sum_eq l m pe pw j _ d h hw, dense_errors, vec]

theorem backward_errors_eq (L : libm α) (l : nn_layer) (m : Mem α) (pe pout pw perr : Nat)
    (hout : l.output.data = some pout) (hw : l.weights.data = some pw)
    (herr : l.errors.data = some perr)
    (h1 : disj perr l.input.len pe l.output.len)
    (h2 : disj perr l.input.len pout l.output.len)
    (h3 : disj perr l.input.len pw (l.output.len * (l.input.len + 1)))
    (k : Nat) (hk : k ≤ l.input.len) :
    nn_dense_backward_errors L l (some pe) k m = some (overlay m perr k
      (dense_errors l.flags l.input.len l.output.len (vec m pw) (vec m pe) (vec m pout))) := by
  induction k with
  | zero => simp only [nn_dense_backward_errors, overlay_zero]
  | succ k ih =>
    have ih := ih (by omega)
    have hv : dense_errors l.flags l.input.len l.output.len
        (vec (overlay m perr k
          (dense_errors l.flags l.input.len l.output.len (vec m pw) (vec m pe) (vec m pout))) pw)
        (vec (overlay m perr k
          (dense_errors l.flags l.input.len l.output.len (vec m pw) (vec m pe) (vec m pout))) pe)
        (vec (overlay m perr k
          (dense_errors l.flags l.input.len l.output.len (vec m pw) (vec m pe) (vec m pout))) pout)
        k
        = dense_errors l.flags l.input.len l.output.len (vec m pw) (vec m pe) (vec m pout) k := by
      unfold dense_errors
      apply Finset.sum_congr rfl
      intro i hi
      have hi := Finset.mem_range.mp hi
      have hidx := idx_lt (n := l.input.len + 1) (k := l.output.len) (i := i) (j := k)
        hi (by omega)
      simp only [vec]
      rw [overlay_out _ _ _ _ (pe + i) (by unfold disj at h1; omega),
        overlay_out _ _ _ _ (pout + i) (by unfold disj at h2; omega),
        overlay_out _ _ _ _ (pw + (i * (l.input.len + 1) + k)) (by unfold disj at h3; omega)]
    rw [nn_dense_backward_errors, ih]
    simp only [Option.bind_eq_bind, Option.some_bind,
      backward_errsum_eq L l _ pe pout pw k hout hw, store, herr, Option.map_some']
    rw [hv, overlay_succ]

theorem idx_div (i j n : Nat) (hj : j < n) : (i * n + j) / n = i := by
  rw [Nat.add_comm, Nat.add_mul_div_right _ _ (by omega), Nat.div_eq_of_lt hj, Nat.zero_add]

theorem idx_mod (i j n : Nat) (hj : j < n) : (i * n + j) % n = j := by
  rw [Nat.add_comm, Nat.add_mul_mod_self_right, Nat.mod_eq_of_lt hj]

theorem backward_row_eq (L : libm α) (l : nn_layer) (m : Mem α) (rate : α)
    (pe pin pout pw : Nat)
    (hin : l.input.data = some pin) (hw : l.weights.data = some pw)
    (h1 : disj pw (l.output.len * (l.input.len + 1)) pe l.output.len)
    (h3 : disj pw (l.output.len * (l.input.len + 1)) pin l.input.len)
    (i : Nat) (hi : i < l.output.len) (k : Nat) (hk : k ≤ l.input.len) :
    nn_dense_backward_row l (some pe) rate (dact l.flags (m (pout + i))) i k
        (overlay m pw (i * (l.input.len + 1))
          (dense_weight l.flags l.input.len rate (vec m pw) (vec m pe) (vec m pout) (vec m pin)))
      = some (overlay m pw (i * (l.input.len + 1) + k)
          (dense_weight l.flags l.input.len rate (vec m pw) (vec m pe) (vec m pout) (vec m pin))) := by
  induction k with
  | zero => simp only [nn_dense_backward_row, Nat.add_zero]
  | succ k ih =>
    have ih := ih (by omega)
    have hidx := idx_lt (n := l.input.len + 1) (k := l.output.len) (i := i) (j := k)
      hi (by omega)
    simp only [nn_dense_backward_row, ih, Option.bind_eq_bind, Option.some_bind, load, store,
      hin, hw, Option.map_some']
    rw [show i * (l.input.len + 1) + (k + 1) = (i * (l.input.len + 1) + k) + 1 from rfl,
      ← overlay_succ]
    rw [overlay_out _ _ _ _ (pe + i) (by unfold disj at h1; omega),
      overlay_out _ _ _ _ (pin + k) (by unfold disj at h3; omega),
      overlay_out _ _ _ _ (pw + (i * (l.input.len + 1) + k)) (by omega)]
    congr 2
    simp only [dense_weight, idx_div i k _ (show k < l.input.len + 1 by omega),
      idx_mod i k _ (show k < l.input.len + 1 by omega), vec]
    rw [if_pos (by omega)]

theorem backward_update_eq (L : libm α) (l : nn_layer) (m : Mem α) (rate : α)
    (pe pin pout pw : Nat)
    (hin : l.input.data = some pin) (hout : l.output.data = some pout)
    (hw : l.weights.data = some pw)
    (h1 : disj pw (l.output.len * (l.input.len + 1)) pe l.output.len)
    (h2 : disj pw (l.output.len * (l.input.len + 1)) pout l.output.len)
    (h3 : disj pw (l.output.len * (l.input.len + 1)) pin l.input.len)
    (k : Nat) (hk : k ≤ l.output.len) :
    nn_dense_backward_update L l (some pe) rate k m
      = some (overlay m pw (k * (l.input.len + 1))
          (dense_weight l.flags l.input.len rate (vec m pw) (vec m pe) (vec m pout) (vec m pin))) := by
  induction k with
  | zero => simp only [nn_dense_backward_update, Nat.zero_mul, overlay_zero]
  | succ k ih =>
    have ih := ih (by omega)
    have hidx := idx_lt (n := l.input.len + 1) (k := l.output.len) (i := k) (j := l.input.len)
      (by omega) (by omega)
    have hb : k * (l.input.len + 1) + (l.input.len + 1) - 1 = k * (l.input.len + 1) + l.input.len := by
      omega
    have hs : (k + 1) * (l.input.len + 1) = k * (l.input.len + 1) + l.input.len + 1 := by ring
    simp only [nn_dense_backward_update, ih, Option.bind_eq_bind, Option.some_bind,
      backward_dact_eq L l pout hout]
    rw [overlay_out _ _ _ _ (pout + k) (by unfold disj at h2; omega),
      backward_row_eq L l m rate pe pin pout pw hin hw h1 h3 k (by omega) _ le_rfl, hs]
    simp only [Option.some_bind]
    by_cases hf : l.flags &&& NN_FLAG_NO_BIAS = 0
    · simp only [hf, if_true, load, store, hw, Option.map_some', Option.bind_eq_bind,
        Option.some_bind, hb]
      rw [← overlay_succ,
        overlay_out _ _ _ _ (pe + k) (by unfold disj at h1; omega),
        overlay_out _ _ _ _ (pw + (k * (l.input.len + 1) + l.input.len)) (by omega)]
      congr 2
      simp only [dense_weight, idx_div k l.input.len _ (show l.input.len < l.input.len + 1 by omega),
        idx_mod k l.input.len _ (show l.input.len < l.input.len + 1 by omega), vec]
      rw [if_neg (by omega), if_pos hf]
    · simp only [hf, if_false]
      rw [overlay_same]
      simp only [dense_weight, idx_div k l.input.len _ (show l.input.len < l.input.len + 1 by omega),
        idx_mod k l.input.len _ (show l.input.len < l.input.len + 1 by omega), vec]
      rw [if_neg (by omega), if_neg hf]

theorem dense_weight_congr (flags inlen outlen : Nat) (rate : α) (w e out x w' e' out' x' : Nat → α)
    (hw : ∀ k < outlen * (inlen + 1), w k = w' k) (he : ∀ i < outlen, e i = e' i)
    (ho : ∀ i < outlen, out i = out' i) (hx : ∀ j < inlen, x j = x' j)
    (idx : Nat) (hidx : idx < outlen * (inlen + 1)) :
    dense_weight flags inlen rate w e out x idx = dense_weight flags inlen rate w' e' out' x' idx := by
  have hd : idx / (inlen + 1) < outlen := by
    apply Nat.div_lt_of_lt_mul
    rw [Nat.mul_comm]; exact hidx
  unfold dense_weight
  rw [hw idx hidx, he _ hd, ho _ hd]
  by_cases hj : idx % (inlen + 1) < inlen
  · simp only [hj, if_true, hx _ hj]
  · simp only [hj, if_false]

theorem dense_backward_eq (L : libm α) (l : nn_layer) (m : Mem α) (rate : α)
    (pe pin pout pw perr : Nat)
    (hin : l.input.data = some pin) (hout : l.output.data = some pout)
    (hw : l.weights.data = some pw) (herr : l.errors.data = some perr)
    (e1 : disj perr l.input.len pe l.output.len)
    (e2 : disj perr l.input.len pout l.output.len)
    (e3 : disj perr l.input.len pw (l.output.len * (l.input.len + 1)))
    (e4 : disj perr l.input.len pin l.input.len)
    (w1 : disj pw (l.output.len * (l.input.len + 1)) pe l.output.len)
    (w2 : disj pw (l.output.len * (l.input.len + 1)) pout l.output.len)
    (w3 : disj pw (l.output.len * (l.input.len + 1)) pin l.input.len) :
    nn_dense_backward L l (some pe) rate m = some
      (overlay
        (overlay m perr l.input.len
          (dense_errors l.flags l.input.len l.output.len (vec m pw) (vec m pe) (vec m pout)))
        pw (l.output.len * (l.input.len + 1))
        (dense_weight l.flags l.input.len rate (vec m pw) (vec m pe) (vec m pout) (vec m pin))) := by
  unfold nn_dense_backward
  rw [backward_errors_eq L l m pe pout pw perr hout hw herr e1 e2 e3 _ le_rfl]
  simp only [Option.bind_eq_bind, Option.some_bind]
  rw [backward_update_eq L l _ rate pe pin pout pw hin hout hw w1 w2 w3 _ le_rfl]
  congr 1
  apply overlay_congr
  intro idx hidx
  apply dense_weight_congr l.flags l.input.len l.output.len rate _ _ _ _ _ _ _ _ _ _ _ _ idx hidx
  · intro k hk
    exact overlay_out _ _ _ _ (pw + k) (by unfold disj at e3; omega)
  · intro i hi
    exact overlay_out _ _ _ _ (pe + i) (by unfold disj at e1; omega)
  · intro i hi
    exact overlay_out _ _ _ _ (pout + i) (by unfold disj at e2; omega)
  · intro j hj
    exact overlay_out _ _ _ _ (pin + j) (by unfold disj at e4; omega)

theorem act_linear (L : libm α) (flags : Nat) (h : flags &&& NN_ACTFN = NN_FLAG_LINEAR) (x : α) :
    act L flags x = x := by
  have c0 : NN_FLAG_LINEAR = 0 := rfl
  rw [c0] at h
  unfold act
  rw [h]
  simp

/-- C1: for a layer with bound input, output and weights whose output region
overlaps neither the input nor the weights, and whose flag word selects the linear
activation, `nn_dense_forward` succeeds and leaves in `output[i]` the sum of
`input[j] * weights[i*(input_len+1)+j]` over `j < input_len`, plus the bias
`weights[i*(input_len+1)+input_len]` unless `NN_FLAG_NO_BIAS` is set; the input, the
weights and every other cell outside the output region are unchanged. -/
theorem nn_dense_forward_linear (L : libm α) (l : nn_layer) (t : Int) (m : Mem α)
    (pin pout pw : Nat)
    (hin : l.input.data = some pin) (hout : l.output.data = some pout)
    (hw : l.weights.data = some pw)
    (hlin : l.flags &&& NN_ACTFN = NN_FLAG_LINEAR)
    (h1 : disj pout l.output.len pin l.input.len)
    (h2 : disj pout l.output.len pw (l.output.len * (l.input.len + 1))) :
    ∃ m', nn_dense_forward L l t m = some m' ∧
      (∀ i < l.output.len, m' (pout + i) =
        (∑ j in range l.input.len, m (pin + j) * m (pw + (i * (l.input.len + 1) + j))) +
          (if l.flags &&& NN_FLAG_NO_BIAS = 0
            then m (pw + (i * (l.input.len + 1) + l.input.len)) else 0)) ∧
      (∀ j < l.input.len, m' (pin + j) = m (pin + j)) ∧
      (∀ k < l.output.len * (l.input.len + 1), m' (pw + k) = m (pw + k)) ∧
      (∀ a, (a < pout ∨ pout + l.output.len ≤ a) → m' a = m a) := by
  refine ⟨_, dense_forward_eq L l t m pin pout pw hin hout hw h1 h2, ?_, ?_, ?_, ?_⟩
  · intro i hi
    rw [overlay_in _ _ _ _ i hi]
    simp only [dense_output, act_linear L l.flags hlin, dense_presum, vec]
  · intro j hj
    exact overlay_out _ _ _ _ _ (by unfold disj at h1; omega)
  · intro k hk
    exact overlay_out _ _ _ _ _ (by unfold disj at h2; omega)
  · intro a ha
    exact overlay_out _ _ _ _ _ ha

theorem nn_dense_forward_linear_witness :
    disj 3 1 0 1 ∧ disj 3 1 1 (1 * (1 + 1)) ∧
    ∃ m', nn_dense_forward (⟨id, id⟩ : libm ℚ)
        { flags := NN_FLAG_LINEAR, input := ⟨1, some 0⟩, output := ⟨1, some 3⟩,
          weights := ⟨2, some 1⟩, errors := ⟨1, some 4⟩, cache := ⟨0, some 5⟩ } 0
        (fun a => (a : ℚ) + 1) = some m' ∧
      (∀ i < 1, m' (3 + i) =
        (∑ j in range 1, ((0 + j : Nat) + 1 : ℚ) * ((1 + (i * (1 + 1) + j) : Nat) + 1 : ℚ)) +
          (if NN_FLAG_LINEAR &&& NN_FLAG_NO_BIAS = 0
            then ((1 + (i * (1 + 1) + 1) : Nat) + 1 : ℚ) else 0)) ∧
      (∀ j < 1, m' (0 + j) = ((0 + j : Nat) + 1 : ℚ)) ∧
      (∀ k < 1 * (1 + 1), m' (1 + k) = ((1 + k : Nat) + 1 : ℚ)) ∧
      (∀ a, (a < 3 ∨ 3 + 1 ≤ a) → m' a = ((a : Nat) + 1 : ℚ)) :=
  ⟨by decide, by decide,
   nn_dense_forward_linear (⟨id, id⟩ : libm ℚ)
    { flags := NN_FLAG_LINEAR, input := ⟨1, some 0⟩, output := ⟨1, some 3⟩,
      weights := ⟨2, some 1⟩, errors := ⟨1, some 4⟩, cache := ⟨0, some 5⟩ } 0
    (fun a => (a : ℚ) + 1) 0 3 1 rfl rfl rfl (by decide) (by decide) (by decide)⟩

theorem act_relu (L : libm α) (flags : Nat) (h : flags &&& NN_ACTFN = NN_FLAG_RELU) (x : α) :
    act L flags x = NN_ACT_RELU x := by
  unfold act
  rw [if_pos h]

theorem act_lrelu (L : libm α) (flags : Nat) (h : flags &&& NN_ACTFN = NN_FLAG_LRELU) (x : α) :
    act L flags x = NN_ACT_LRELU x := by
  have c : NN_FLAG_LRELU ≠ NN_FLAG_RELU := by decide
  unfold act
  rw [h, if_neg c, if_pos rfl]

theorem act_sigmoid (L : libm α) (flags : Nat) (h : flags &&& NN_ACTFN = NN_FLAG_SIGMOID) (x : α) :
    act L flags x = NN_ACT_SIGMOID L x := by
  have c1 : NN_FLAG_SIGMOID ≠ NN_FLAG_RELU := by decide
  have c2 : NN_FLAG_SIGMOID ≠ NN_FLAG_LRELU := by decide
  unfold act
  rw [h, if_neg c1, if_neg c2, if_pos rfl]

theorem relu_eq_max (x : α) : NN_ACT_RELU x = max 0 x := by
  unfold NN_ACT_RELU
  by_cases h : x > 0
  · rw [if_pos h, mul_one, max_eq_right (le_of_lt h)]
  · rw [if_neg h, mul_zero, max_eq_left (not_lt.mp h)]

/-- C2: for a layer with bound input, output and weights whose output region
overlaps neither the input nor the weights, and whose flag word selects relu,
leaky-relu or sigmoid, `nn_dense_forward` succeeds and leaves `output[i] = act(s_i)`,
`s_i` the weighted sum plus bias: relu gives `max 0 s_i` (exactly `0` when
`s_i ≤ 0`, `s_i` otherwise), leaky-relu gives `s_i` when `s_i > 0` and `0.01 * s_i`
otherwise, sigmoid gives `1 / (1 + exp (-s_i))`. -/
theorem nn_dense_forward_activation (l : nn_layer) (t : Int) (m : Mem ℝ)
    (pin pout pw : Nat)
    (hin : l.input.data = some pin) (hout : l.output.data = some pout)
    (hw : l.weights.data = some pw)
    (hsel : l.flags &&& NN_ACTFN = NN_FLAG_RELU ∨ l.flags &&& NN_ACTFN = NN_FLAG_LRELU ∨
      l.flags &&& NN_ACTFN = NN_FLAG_SIGMOID)
    (h1 : disj pout l.output.len pin l.input.len)
    (h2 : disj pout l.output.len pw (l.output.len * (l.input.len + 1))) :
    ∃ m', nn_dense_forward ⟨Real.exp, Real.log⟩ l t m = some m' ∧
      ∀ i < l.output.len,
        (l.flags &&& NN_ACTFN = NN_FLAG_RELU →
          m' (pout + i) = max 0 (dense_presum l.flags l.input.len (vec m pw) (vec m pin) i) ∧
          (dense_presum l.flags l.input.len (vec m pw) (vec m pin) i ≤ 0 → m' (pout + i) = 0) ∧
          (0 < dense_presum l.flags l.input.len (vec m pw) (vec m pin) i →
            m' (pout + i) = dense_presum l.flags l.input.len (vec m pw) (vec m pin) i)) ∧
        (l.flags &&& NN_ACTFN = NN_FLAG_LRELU →
          m' (pout + i) =
            if dense_presum l.flags l.input.len (vec m pw) (vec m pin) i > 0
            then dense_presum l.flags l.input.len (vec m pw) (vec m pin) i
            else 0.01 * dense_presum l.flags l.input.len (vec m pw) (vec m pin) i) ∧
        (l.flags &&& NN_ACTFN = NN_FLAG_SIGMOID →
          m' (pout + i) =
            1 / (1 + Real.exp (-(dense_presum l.flags l.input.len (vec m pw) (vec m pin) i)))) := by
  refine ⟨_, dense_forward_eq _ l t m pin pout pw hin hout hw h1 h2, ?_⟩
  intro i hi
  rw [overlay_in _ _ _ _ i hi]
  refine ⟨?_, ?_, ?_⟩
  · intro h
    simp only [dense_output, act_relu _ l.flags h, relu_eq_max]
    refine ⟨trivial, ?_, ?_⟩
    · intro hs; exact max_eq_left hs
    · intro hs; exact max_eq_right (le_of_lt hs)
  · intro h
    simp only [dense_output, act_lrelu _ l.flags h, NN_ACT_LRELU]
  · intro h
    simp only [dense_output, act_sigmoid _ l.flags h, NN_ACT_SIGMOID]
    norm_num

theorem nn_dense_forward_activation_witness :
    (NN_FLAG_RELU &&& NN_ACTFN = NN_FLAG_RELU ∨ NN_FLAG_RELU &&& NN_ACTFN = NN_FLAG_LRELU ∨
      NN_FLAG_RELU &&& NN_ACTFN = NN_FLAG_SIGMOID) ∧
    disj 3 1 0 1 ∧ disj 3 1 1 (1 * (1 + 1)) ∧
    ∃ m', nn_dense_forward ⟨Real.exp, Real.log⟩
        { flags := NN_FLAG_RELU, input := ⟨1, some 0⟩, output := ⟨1, some 3⟩,
          weights := ⟨2, some 1⟩, errors := ⟨1, some 4⟩, cache := ⟨0, some 5⟩ } 0
        (fun a => (a : ℝ) - 3) = some m' ∧
      ∀ i < 1,
        (NN_FLAG_RELU &&& NN_ACTFN = NN_FLAG_RELU →
          m' (3 + i) = max 0 (dense_presum NN_FLAG_RELU 1
            (vec (fun a => (a : ℝ) - 3) 1) (vec (fun a => (a : ℝ) - 3) 0) i) ∧
          (dense_presum NN_FLAG_RELU 1
            (vec (fun a => (a : ℝ) - 3) 1) (vec (fun a => (a : ℝ) - 3) 0) i ≤ 0 → m' (3 + i) = 0) ∧
          (0 < dense_presum NN_FLAG_RELU 1
            (vec (fun a => (a : ℝ) - 3) 1) (vec (fun a => (a : ℝ) - 3) 0) i →
            m' (3 + i) = dense_presum NN_FLAG_RELU 1
              (vec (fun a => (a : ℝ) - 3) 1) (vec (fun a => (a : ℝ) - 3) 0) i)) ∧
        (NN_FLAG_RELU &&& NN_ACTFN = NN_FLAG_LRELU →
          m' (3 + i) =
            if dense_presum NN_FLAG_RELU 1
              (vec (fun a => (a : ℝ) - 3) 1) (vec (fun a => (a : ℝ) - 3) 0) i > 0
            then dense_presum NN_FLAG_RELU 1
              (vec (fun a => (a : ℝ) - 3) 1) (vec (fun a => (a : ℝ) - 3) 0) i
            else 0.01 * dense_presum NN_FLAG_RELU 1
              (vec (fun a => (a : ℝ) - 3) 1) (vec (fun a => (a : ℝ) - 3) 0) i) ∧
        (NN_FLAG_RELU &&& NN_ACTFN = NN_FLAG_SIGMOID →
          m' (3 + i) =
            1 / (1 + Real.exp (-(dense_presum NN_FLAG_RELU 1
              (vec (fun a => (a : ℝ) - 3) 1) (vec (fun a => (a : ℝ) - 3) 0) i)))) :=
  ⟨by decide, by decide, by decide,
   nn_dense_forward_activation
    { flags := NN_FLAG_RELU, input := ⟨1, some 0⟩, output := ⟨1, some 3⟩,
      weights := ⟨2, some 1⟩, errors := ⟨1, some 4⟩, cache := ⟨0, some 5⟩ } 0
    (fun a => (a : ℝ) - 3) 0 3 1 rfl rfl rfl (by decide) (by decide) (by decide)⟩

theorem dense_forward_linear_out (L : libm α) (l : nn_layer) (t : Int) (m : Mem α)
    (pin pout pw : Nat)
    (hin : l.input.data = some pin) (hout : l.output.data = some pout)
    (hw : l.weights.data = some pw)
    (hlin : l.flags &&& NN_ACTFN = NN_FLAG_LINEAR)
    (h1 : disj pout l.output.len pin l.input.len)
    (h2 : disj pout l.output.len pw (l.output.len * (l.input.len + 1))) :
    ∃ m', nn_dense_forward L l t m = some m' ∧
      ∀ i < l.output.len, m' (pout + i) =
        dense_presum l.flags l.input.len (vec m pw) (vec m pin) i := by
  refine ⟨_, dense_forward_eq L l t m pin pout pw hin hout hw h1 h2, ?_⟩
  intro i hi
  rw [overlay_in _ _ _ _ i hi]
  simp only [dense_output, act_linear L l.flags hlin]

/-- C3 (the code departs from the claim): on the layer with flag word
`NN_FLAG_SOFTPLUS`, one input `1`, weight `2` and bias `3`, `nn_dense_forward`
leaves the pre-activation sum `5` in the output, which is not
`ln (1 + e^5)`: the selector mask `NN_ACTFN` drops the softplus bit, so the
`switch` takes no case and the layer runs as linear. -/
theorem nn_dense_forward_softplus_flag_runs_linear :
    NN_FLAG_SOFTPLUS &&& NN_ACTFN = NN_FLAG_LINEAR ∧
    ∃ m', nn_dense_forward ⟨Real.exp, Real.log⟩
        { flags := NN_FLAG_SOFTPLUS, input := ⟨1, some 0⟩, output := ⟨1, some 3⟩,
          weights := ⟨2, some 1⟩, errors := ⟨1, some 4⟩, cache := ⟨0, some 5⟩ } 0
        (fun a => (a : ℝ) + 1) = some m' ∧
      m' 3 = 5 ∧ m' 3 ≠ Real.log (1 + Real.exp 5) := by
  obtain ⟨m', hm, hv⟩ := dense_forward_linear_out ⟨Real.exp, Real.log⟩
    { flags := NN_FLAG_SOFTPLUS, input := ⟨1, some 0⟩, output := ⟨1, some 3⟩,
      weights := ⟨2, some 1⟩, errors := ⟨1, some 4⟩, cache := ⟨0, some 5⟩ } 0
    (fun a => (a : ℝ) + 1) 0 3 1 rfl rfl rfl (by decide) (by decide) (by decide)
  have h3 : m' 3 = 5 := by
    have h := hv 0 (by decide)
    simp only [dense_presum, vec] at h
    have h' : m' 3 = _ := h
    have hb : NN_FLAG_SOFTPLUS &&& NN_FLAG_NO_BIAS = 0 := by decide
    rw [h', if_pos hb]
    norm_num
  refine ⟨by decide, m', hm, h3, ?_⟩
  rw [h3]
  have h5 : Real.log (Real.exp 5) = 5 := Real.log_exp 5
  have hlt : Real.log (Real.exp 5) < Real.log (1 + Real.exp 5) :=
    Real.log_lt_log (Real.exp_pos 5) (by linarith)
  intro heq
  linarith

/-- C4: for a layer whose regions are bound and whose error and weight regions
overlap no other region of the call, `nn_dense_backward` succeeds and leaves
`errors[j]`, for every `j < input_len`, equal to the sum over `i < output_len` of
`e[i] * d(output[i]) * W_old[i*(input_len+1)+j]`, all values read in the memory
as it was before the call. -/
theorem nn_dense_backward_error_vector (L : libm α) (l : nn_layer) (m : Mem α) (rate : α)
    (pe pin pout pw perr : Nat)
    (hin : l.input.data = some pin) (hout : l.output.data = some pout)
    (hw : l.weights.data = some pw) (herr : l.errors.data = some perr)
    (e1 : disj perr l.input.len pe l.output.len)
    (e2 : disj perr l.input.len pout l.output.len)
    (e3 : disj perr l.input.len pw (l.output.len * (l.input.len + 1)))
    (e4 : disj perr l.input.len pin l.input.len)
    (w1 : disj pw (l.output.len * (l.input.len + 1)) pe l.output.len)
    (w2 : disj pw (l.output.len * (l.input.len + 1)) pout l.output.len)
    (w3 : disj pw (l.output.len * (l.input.len + 1)) pin l.input.len) :
    ∃ m', nn_dense_backward L l (some pe) rate m = some m' ∧
      ∀ j < l.input.len, m' (perr + j) =
        ∑ i in range l.output.len,
          m (pe + i) * dact l.flags (m (pout + i)) * m (pw + (i * (l.input.len + 1) + j)) := by
  refine ⟨_, dense_backward_eq L l m rate pe pin pout pw perr hin hout hw herr
    e1 e2 e3 e4 w1 w2 w3, ?_⟩
  intro j hj
  rw [overlay_out _ _ _ _ (perr + j) (by unfold disj at e3; omega), overlay_in _ _ _ _ j hj]
  rfl

/-- C5: for a layer whose regions are bound and whose error and weight regions
overlap no other region of the call, `nn_dense_backward` succeeds and changes the
weights to `W_old[i,j] + rate * e[i] * d(output[i]) * input[j]`, the bias to
`W_old[i,input_len] + rate * e[i] * d(output[i])` unless `NN_FLAG_NO_BIAS` is set
(then the slot keeps its value); input, output, `e` and every cell outside the error
and weight regions are unchanged. -/
theorem nn_dense_backward_weight_update (L : libm α) (l : nn_layer) (m : Mem α) (rate : α)
    (pe pin pout pw perr : Nat)
    (hin : l.input.data = some pin) (hout : l.output.data = some pout)
    (hw : l.weights.data = some pw) (herr : l.errors.data = some perr)
    (e1 : disj perr l.input.len pe l.output.len)
    (e2 : disj perr l.input.len pout l.output.len)
    (e3 : disj perr l.input.len pw (l.output.len * (l.input.len + 1)))
    (e4 : disj perr l.input.len pin l.input.len)
    (w1 : disj pw (l.output.len * (l.input.len + 1)) pe l.output.len)
    (w2 : disj pw (l.output.len * (l.input.len + 1)) pout l.output.len)
    (w3 : disj pw (l.output.len * (l.input.len + 1)) pin l.input.len) :
    ∃ m', nn_dense_backward L l (some pe) rate m = some m' ∧
      (∀ i < l.output.len, ∀ j < l.input.len,
        m' (pw + (i * (l.input.len + 1) + j)) = m (pw + (i * (l.input.len + 1) + j)) +
          rate * m (pe + i) * dact l.flags (m (pout + i)) * m (pin + j)) ∧
      (∀ i < l.output.len,
        m' (pw + (i * (l.input.len + 1) + l.input.len)) =
          if l.flags &&& NN_FLAG_NO_BIAS = 0 then
            m (pw + (i * (l.input.len + 1) + l.input.len)) +
              rate * m (pe + i) * dact l.flags (m (pout + i))
          else m (pw + (i * (l.input.len + 1) + l.input.len))) ∧
      (∀ j < l.input.len, m' (pin + j) = m (pin + j)) ∧
      (∀ i < l.output.len, m' (pout + i) = m (pout + i)) ∧
      (∀ i < l.output.len, m' (pe + i) = m (pe + i)) ∧
      (∀ a, (a < perr ∨ perr + l.input.len ≤ a) →
        (a < pw ∨ pw + l.output.len * (l.input.len + 1) ≤ a) → m' a = m a) := by
  refine ⟨_, dense_backward_eq L l m rate pe pin pout pw perr hin hout hw herr
    e1 e2 e3 e4 w1 w2 w3, ?_, ?_, ?_, ?_, ?_, ?_⟩
  · intro i hi j hj
    have hidx := idx_lt (n := l.input.len + 1) (k := l.output.len) (i := i) (j := j)
      hi (by omega)
    rw [overlay_in _ _ _ _ _ hidx]
    simp only [dense_weight, idx_div i j _ (show j < l.input.len + 1 by omega),
      idx_mod i j _ (show j < l.input.len + 1 by omega), vec]
    rw [if_pos hj]
  · intro i hi
    have hidx := idx_lt (n := l.input.len + 1) (k := l.output.len) (i := i) (j := l.input.len)
      hi (by omega)
    rw [overlay_in _ _ _ _ _ hidx]
    simp only [dense_weight, idx_div i l.input.len _ (show l.input.len < l.input.len + 1 by omega),
      idx_mod i l.input.len _ (show l.input.len < l.input.len + 1 by omega), vec]
    rw [if_neg (by omega)]
  · intro j hj
    rw [overlay_out _ _ _ _ (pin + j) (by unfold disj at w3; omega),
      overlay_out _ _ _ _ (pin + j) (by unfold disj at e4; omega)]
  · intro i hi
    rw [overlay_out _ _ _ _ (pout + i) (by unfold disj at w2; omega),
      overlay_out _ _ _ _ (pout + i) (by unfold disj at e2; omega)]
  · intro i hi
    rw [overlay_out _ _ _ _ (pe + i) (by unfold disj at w1; omega),
      overlay_out _ _ _ _ (pe + i) (by unfold disj at e1; omega)]
  · intro a ha hb
    rw [overlay_out _ _ _ _ a hb, overlay_out _ _ _ _ a ha]

theorem nn_dense_backward_error_vector_witness :
    disj 4 1 6 1 ∧ disj 4 1 3 1 ∧ disj 4 1 1 (1 * (1 + 1)) ∧ disj 4 1 0 1 ∧
    disj 1 (1 * (1 + 1)) 6 1 ∧ disj 1 (1 * (1 + 1)) 3 1 ∧ disj 1 (1 * (1 + 1)) 0 1 ∧
    ∃ m', nn_dense_backward (⟨id, id⟩ : libm ℚ)
        { flags := NN_FLAG_LRELU, input := ⟨1, some 0⟩, output := ⟨1, some 3⟩,
          weights := ⟨2, some 1⟩, errors := ⟨1, some 4⟩, cache := ⟨0, some 5⟩ }
        (some 6) (1 / 2) (fun a => (a : ℚ) - 2) = some m' ∧
      ∀ j < 1, m' (4 + j) =
        ∑ i in range 1,
          ((6 + i : Nat) - 2 : ℚ) * dact NN_FLAG_LRELU ((3 + i : Nat) - 2 : ℚ) *
            ((1 + (i * (1 + 1) + j) : Nat) - 2 : ℚ) :=
  ⟨by decide, by decide, by decide, by decide, by decide, by decide, by decide,
   nn_dense_backward_error_vector (⟨id, id⟩ : libm ℚ)
        { flags := NN_FLAG_LRELU, input := ⟨1, some 0⟩, output := ⟨1, some 3⟩,
          weights := ⟨2, some 1⟩, errors := ⟨1, some 4⟩, cache := ⟨0, some 5⟩ }
    (fun a => (a : ℚ) - 2) (1 / 2) 6 0 3 1 4 rfl rfl rfl rfl
    (by decide) (by decide) (by decide) (by decide) (by decide) (by decide) (by decide)⟩

theorem nn_dense_backward_weight_update_witness :
    disj 4 1 6 1 ∧ disj 4 1 3 1 ∧ disj 4 1 1 (1 * (1 + 1)) ∧ disj 4 1 0 1 ∧
    disj 1 (1 * (1 + 1)) 6 1 ∧ disj 1 (1 * (1 + 1)) 3 1 ∧ disj 1 (1 * (1 + 1)) 0 1 ∧
    ∃ m', nn_dense_backward (⟨id, id⟩ : libm ℚ)
        { flags := NN_FLAG_LRELU, input := ⟨1, some 0⟩, output := ⟨1, some 3⟩,
          weights := ⟨2, some 1⟩, errors := ⟨1, some 4⟩, cache := ⟨0, some 5⟩ }
        (some 6) (1 / 2) (fun a => (a : ℚ) - 2) = some m' ∧
      (∀ i < 1, ∀ j < 1,
        m' (1 + (i * (1 + 1) + j)) = ((1 + (i * (1 + 1) + j) : Nat) - 2 : ℚ) +
          1 / 2 * ((6 + i : Nat) - 2 : ℚ) * dact NN_FLAG_LRELU ((3 + i : Nat) - 2 : ℚ) *
            ((0 + j : Nat) - 2 : ℚ)) ∧
      (∀ i < 1,
        m' (1 + (i * (1 + 1) + 1)) =
          if NN_FLAG_LRELU &&& NN_FLAG_NO_BIAS = 0 then
            ((1 + (i * (1 + 1) + 1) : Nat) - 2 : ℚ) +
              1 / 2 * ((6 + i : Nat) - 2 : ℚ) * dact NN_FLAG_LRELU ((3 + i : Nat) - 2 : ℚ)
          else ((1 + (i * (1 + 1) + 1) : Nat) - 2 : ℚ)) ∧
      (∀ j < 1, m' (0 + j) = ((0 + j : Nat) - 2 : ℚ)) ∧
      (∀ i < 1, m' (3 + i) = ((3 + i : Nat) - 2 : ℚ)) ∧
      (∀ i < 1, m' (6 + i) = ((6 + i : Nat) - 2 : ℚ)) ∧
      (∀ a, (a < 4 ∨ 4 + 1 ≤ a) →
        (a < 1 ∨ 1 + 1 * (1 + 1) ≤ a) → m' a = ((a : Nat) - 2 : ℚ)) :=
  ⟨by decide, by decide, by decide, by decide, by decide, by decide, by decide,
   nn_dense_backward_weight_update (⟨id, id⟩ : libm ℚ)
        { flags := NN_FLAG_LRELU, input := ⟨1, some 0⟩, output := ⟨1, some 3⟩,
          weights := ⟨2, some 1⟩, errors := ⟨1, some 4⟩, cache := ⟨0, some 5⟩ }
    (fun a => (a : ℚ) - 2) (1 / 2) 6 0 3 1 4 rfl rfl rfl rfl
    (by decide) (by decide) (by decide) (by decide) (by decide) (by decide) (by decide)⟩

theorem size_t_lt (w n : Nat) : size_t w n < 2 ^ w :=
  Nat.mod_lt _ (Nat.two_pow_pos w)

theorem size_t_of_lt (w n : Nat) (h : n < 2 ^ w) : size_t w n = n :=
  Nat.mod_eq_of_lt h

theorem size_t_add_left (w a b : Nat) : size_t w (size_t w a + b) = size_t w (a + b) := by
  unfold size_t
  exact Nat.mod_add_mod a (2 ^ w) b

theorem size_t_mul_left (w a b : Nat) : size_t w (size_t w a * b) = size_t w (a * b) := by
  unfold size_t
  rw [Nat.mul_mod, Nat.mod_mod, ← Nat.mul_mod]

theorem nn_init_layer_expected (mem vec_len : Nat) (l : nn_layer) (e : Nat) (p : Ptr) :
    (nn_init_layer w mem vec_len l e p).2.1 = size_t w (e + layer_size l) := by
  unfold nn_init_layer layer_size
  simp only []
  split_ifs <;> simp only [size_t_add_left, Nat.add_assoc]

theorem nn_init_loop_eq (mem vec_len : Nat) (s : nn_layer) (tl : List nn_layer)
    (hs : NN_LAYER_EMPTY w s = true) (ds : List nn_layer) :
    (∀ d ∈ ds, NN_LAYER_EMPTY w d = false) → ∀ (e lo : Nat) (p : Ptr), e < 2 ^ w →
    nn_init_loop w mem vec_len (ds ++ s :: tl) e lo p
      = some (nn_init_layers w mem vec_len ds e p ++ s :: tl, size_t w (e + total_size ds),
          last_output_len lo ds) := by
  induction ds with
  | nil =>
    intro _ e lo p he
    simp [nn_init_loop, hs, nn_init_layers, total_size, last_output_len, size_t_of_lt w e he]
  | cons d ds ih =>
    intro hds e lo p he
    have hd : NN_LAYER_EMPTY w d = false := hds d (List.mem_cons_self _ _)
    have ih' := ih (fun d' hd' => hds d' (List.mem_cons_of_mem _ hd'))
    show nn_init_loop w mem vec_len (d :: (ds ++ s :: tl)) e lo p = _
    rw [nn_init_loop]
    simp only [hd, Bool.false_eq_true, if_false]
    rw [ih' _ _ _ (by rw [nn_init_layer_expected]; exact size_t_lt _ _)]
    simp only [nn_init_layers, nn_init_layer_expected, total_size, List.map_cons, List.sum_cons,
      last_output_len, Nat.add_assoc, List.cons_append, size_t_add_left]

theorem last_output_len_getLast : ∀ (ds : List nn_layer) (n0 : Nat), last_output_len n0 ds =
    (match ds.getLast? with
      | some l => l.output.len
      | none => n0) := by
  intro ds
  induction ds with
  | nil => intro n0; rfl
  | cons d ds ih =>
    intro n0
    rw [last_output_len, ih]
    cases ds with
    | nil => rfl
    | cons d' ds' =>
      rw [List.getLast?_cons_cons]
      cases h : (d' :: ds').getLast? with
      | none => simp at h
      | some l => rfl

theorem nn_init_eq (ds : List nn_layer) (s : nn_layer) (tl : List nn_layer) (mem memsz : Nat)
    (hds : ∀ d ∈ ds, NN_LAYER_EMPTY w d = false) (hs : NN_LAYER_EMPTY w s = true) :
    nn_init w (ds ++ s :: tl) mem memsz =
      some (nn_init_layers w mem (memsz / sizeof_float) ds 0 none ++ s :: tl,
        size_t w ((total_size ds + last_output_len 0 ds) * sizeof_float)) := by
  unfold nn_init
  rw [nn_init_loop_eq mem _ s tl hs ds hds 0 0 none (Nat.two_pow_pos w)]
  simp only [Nat.zero_add, size_t_add_left, size_t_mul_left]

/-- C10, as the code has it: for a layer sequence whose first empty descriptor is
`s` (the layers `ds` before it being non-empty), every buffer address and every
capacity, `nn_init` returns `sizeof(float) * E` converted to `size_t`, that is,
reduced modulo `2 ^ w`, where `E` is the sum over the layers of `ds` of their
output, weights, errors and cache lengths plus the output length of the last layer
of `ds` (`E = 0` when `ds` is empty); it returns `sizeof(float) * E` itself when
that is below `2 ^ w`; the returned size is the same for every buffer and
capacity. -/
theorem nn_init_required_size (w : Nat) (ds : List nn_layer) (s : nn_layer)
    (tl : List nn_layer) (mem memsz : Nat)
    (hds : ∀ d ∈ ds, NN_LAYER_EMPTY w d = false) (hs : NN_LAYER_EMPTY w s = true) :
    (∃ layers, nn_init w (ds ++ s :: tl) mem memsz = some (layers,
      size_t w (sizeof_float * ((ds.map (fun l =>
          l.output.len + l.weights.len + l.errors.len + l.cache.len)).sum +
        (match ds.getLast? with
          | some l => l.output.len
          | none => 0))))) ∧
    (sizeof_float * ((ds.map (fun l =>
          l.output.len + l.weights.len + l.errors.len + l.cache.len)).sum +
        (match ds.getLast? with
          | some l => l.output.len
          | none => 0)) < 2 ^ w →
      ∃ layers, nn_init w (ds ++ s :: tl) mem memsz = some (layers,
        sizeof_float * ((ds.map (fun l =>
            l.output.len + l.weights.len + l.errors.len + l.cache.len)).sum +
          (match ds.getLast? with
            | some l => l.output.len
            | none => 0)))) ∧
    (∀ mem' memsz', (nn_init w (ds ++ s :: tl) mem' memsz').map Prod.snd
      = (nn_init w (ds ++ s :: tl) mem memsz).map Prod.snd) := by
  have key : ∀ mem memsz, nn_init w (ds ++ s :: tl) mem memsz =
      some (nn_init_layers w mem (memsz / sizeof_float) ds 0 none ++ s :: tl,
        size_t w (sizeof_float * ((ds.map (fun l =>
          l.output.len + l.weights.len + l.errors.len + l.cache.len)).sum +
        (match ds.getLast? with
          | some l => l.output.len
          | none => 0)))) := by
    intro mem memsz
    rw [nn_init_eq ds s tl mem memsz hds hs, last_output_len_getLast, Nat.mul_comm]
    rfl
  refine ⟨⟨_, key mem memsz⟩, ?_, ?_⟩
  · intro hfit
    refine ⟨nn_init_layers w mem (memsz / sizeof_float) ds 0 none ++ s :: tl, ?_⟩
    rw [key mem memsz, size_t_of_lt w _ hfit]
  · intro mem' memsz'
    rw [key, key]
    rfl

/-- Witness of C10 as amended: the two layers of `test_network_backward` with a
64-bit `size_t`. -/
theorem nn_init_required_size_witness :
    (∀ d ∈ fixture_decl, NN_LAYER_EMPTY 64 d = false) ∧ NN_LAYER_EMPTY 64 NN_EMPTY = true ∧
    (∃ layers, nn_init 64 (fixture_decl ++ NN_EMPTY :: []) 100 4096 = some (layers,
      size_t 64 (sizeof_float * ((fixture_decl.map (fun l =>
          l.output.len + l.weights.len + l.errors.len + l.cache.len)).sum +
        (match fixture_decl.getLast? with
          | some l => l.output.len
          | none => 0))))) ∧
    (sizeof_float * ((fixture_decl.map (fun l =>
          l.output.len + l.weights.len + l.errors.len + l.cache.len)).sum +
        (match fixture_decl.getLast? with
          | some l => l.output.len
          | none => 0)) < 2 ^ 64 →
      ∃ layers, nn_init 64 (fixture_decl ++ NN_EMPTY :: []) 100 4096 = some (layers,
        sizeof_float * ((fixture_decl.map (fun l =>
            l.output.len + l.weights.len + l.errors.len + l.cache.len)).sum +
          (match fixture_decl.getLast? with
            | some l => l.output.len
            | none => 0)))) ∧
    (∀ mem' memsz', (nn_init 64 (fixture_decl ++ NN_EMPTY :: []) mem' memsz').map Prod.snd
      = (nn_init 64 (fixture_decl ++ NN_EMPTY :: []) 100 4096).map Prod.snd) :=
  ⟨by decide, by decide,
    nn_init_required_size 64 fixture_decl NN_EMPTY [] 100 4096 (by decide) (by decide)⟩

/-- Counterexample to C10 as stated: with a 16-bit `size_t`, the layer
`NN_DENSE(127, 128, 0)` declares `128 + 16384 + 127 + 0` cells, so `E = 16767` and
`sizeof(float) * E = 67068`, but `nn_init` returns `67068 - 65536 = 1532`. -/
theorem nn_init_required_size_wraps :
    (∀ d ∈ [NN_DENSE 127 128 NN_FLAG_LINEAR], NN_LAYER_EMPTY 16 d = false) ∧
    NN_LAYER_EMPTY 16 NN_EMPTY = true ∧
    (nn_init 16 ([NN_DENSE 127 128 NN_FLAG_LINEAR] ++ NN_EMPTY :: []) 0 2000).map Prod.snd
      = some 1532 ∧
    sizeof_float * (([NN_DENSE 127 128 NN_FLAG_LINEAR].map (fun l =>
          l.output.len + l.weights.len + l.errors.len + l.cache.len)).sum +
        (match [NN_DENSE 127 128 NN_FLAG_LINEAR].getLast? with
          | some l => l.output.len
          | none => 0)) = 67068 := by
  decide

theorem layer_w_eq (m : Mem α) (l : nn_layer) (pw : Nat) (hw : l.weights.data = some pw) :
    layer_w m l = vec m pw := by
  funext i
  simp only [layer_w, load, hw, Option.map_some', Option.getD_some, vec]

theorem dense_presum_congr (flags inlen outlen : Nat) (w x w' x' : Nat → α)
    (hw : ∀ k < outlen * (inlen + 1), w k = w' k) (hx : ∀ j < inlen, x j = x' j)
    (i : Nat) (hi : i < outlen) :
    dense_presum flags inlen w x i = dense_presum flags inlen w' x' i := by
  unfold dense_presum
  have hs : ∑ j in range inlen, x j * w (i * (inlen + 1) + j)
      = ∑ j in range inlen, x' j * w' (i * (inlen + 1) + j) := by
    apply Finset.sum_congr rfl
    intro j hj
    have hj := Finset.mem_range.mp hj
    rw [hx j hj, hw _ (idx_lt hi (by omega))]
  rw [hs, hw _ (idx_lt hi (by omega))]

theorem dense_output_congr (L : libm α) (flags inlen outlen : Nat) (w x w' x' : Nat → α)
    (hw : ∀ k < outlen * (inlen + 1), w k = w' k) (hx : ∀ j < inlen, x j = x' j)
    (i : Nat) (hi : i < outlen) :
    dense_output L flags inlen w x i = dense_output L flags inlen w' x' i := by
  unfold dense_output
  rw [dense_presum_congr flags inlen outlen w x w' x' hw hx i hi]

theorem dense_errors_congr (flags inlen outlen : Nat) (w e out w' e' out' : Nat → α)
    (hw : ∀ k < outlen * (inlen + 1), w k = w' k) (he : ∀ i < outlen, e i = e' i)
    (ho : ∀ i < outlen, out i = out' i) (j : Nat) (hj : j < inlen) :
    dense_errors flags inlen outlen w e out j = dense_errors flags inlen outlen w' e' out' j := by
  unfold dense_errors
  apply Finset.sum_congr rfl
  intro i hi
  have hi := Finset.mem_range.mp hi
  rw [he i hi, ho i hi, hw _ (idx_lt hi (by omega))]

theorem same_weights_symm (m m' : Mem α) (ls : List nn_layer) (h : same_weights m m' ls) :
    same_weights m' m ls := fun l hl idx hidx => (h l hl idx hidx).symm

theorem same_weights_tail (m m' : Mem α) (l : nn_layer) (ls : List nn_layer)
    (h : same_weights m m' (l :: ls)) : same_weights m m' ls :=
  fun l' hl' idx hidx => h l' (List.mem_cons_of_mem _ hl') idx hidx

theorem layer_out_congr (L : libm α) (m m' : Mem α) (l : nn_layer) (v v' : Nat → α)
    (hw : ∀ idx < l.output.len * (l.input.len + 1), layer_w m l idx = layer_w m' l idx)
    (hv : ∀ j < l.input.len, v j = v' j) (i : Nat) (hi : i < l.output.len) :
    layer_out L m l v i = layer_out L m' l v' i :=
  dense_output_congr L l.flags l.input.len l.output.len _ _ _ _ hw hv i hi

theorem net_forward_congr (L : libm α) (m m' : Mem α) (ls : List nn_layer) :
    ∀ (n0 : Nat) (v v' : Nat → α), Shaped n0 ls → same_weights m m' ls →
      (∀ j < n0, v j = v' j) →
      ∀ i < last_output_len n0 ls, net_forward L m ls v i = net_forward L m' ls v' i := by
  induction ls with
  | nil =>
    intro n0 v v' _ _ hv i hi
    exact hv i hi
  | cons l ls ih =>
    intro n0 v v' hs hw hv i hi
    obtain ⟨h0, _, _, _, _, hs'⟩ := hs
    simp only [net_forward]
    apply ih l.output.len _ _ hs' (same_weights_tail m m' l ls hw) _ i hi
    intro j hj
    exact layer_out_congr L m m' l v v' (hw l (List.mem_cons_self _ _))
      (fun j hj => hv j (by omega)) j hj

theorem net_error_congr (L : libm α) (m m' : Mem α) (ls : List nn_layer) :
    ∀ (n0 : Nat) (v v' y y' : Nat → α), Shaped n0 ls → same_weights m m' ls →
      (∀ j < n0, v j = v' j) → (∀ i < last_output_len n0 ls, y i = y' i) →
      ∀ j < n0, net_error L m ls v y j = net_error L m' ls v' y' j := by
  induction ls with
  | nil =>
    intro n0 v v' y y' _ _ hv hy j hj
    simp only [net_error]
    rw [hv j hj, hy j hj]
  | cons l ls ih =>
    intro n0 v v' y y' hs hw hv hy j hj
    obtain ⟨h0, _, _, _, _, hs'⟩ := hs
    simp only [net_error]
    have hout : ∀ i < l.output.len, layer_out L m l v i = layer_out L m' l v' i :=
      fun i hi => layer_out_congr L m m' l v v' (hw l (List.mem_cons_self _ _))
        (fun j hj => hv j (by omega)) i hi
    apply dense_errors_congr l.flags l.input.len l.output.len _ _ _ _ _ _
      (hw l (List.mem_cons_self _ _)) _ hout j (by omega)
    intro i hi
    exact ih l.output.len _ _ _ _ hs' (same_weights_tail m m' l ls hw) hout hy i hi

theorem backprop_step_congr (L : libm α) (rate : α) (m m' n n' : Mem α) (ls : List nn_layer) :
    ∀ (n0 : Nat) (v v' y y' : Nat → α), Shaped n0 ls → same_weights m n ls →
      same_weights m' n' ls →
      (∀ j < n0, v j = v' j) → (∀ i < last_output_len n0 ls, y i = y' i) →
      backprop_step L rate m m' ls v y → backprop_step L rate n n' ls v' y' := by
  induction ls with
  | nil =>
    intro n0 v v' y y' _ _ _ _ _ _
    trivial
  | cons l ls ih =>
    intro n0 v v' y y' hs hw hw' hv hy hstep
    obtain ⟨h0, _, _, _, _, hs'⟩ := hs
    obtain ⟨hhead, htail⟩ := hstep
    have hout : ∀ i < l.output.len, layer_out L m l v i = layer_out L n l v' i :=
      fun i hi => layer_out_congr L m n l v v' (hw l (List.mem_cons_self _ _))
        (fun j hj => hv j (by omega)) i hi
    refine ⟨?_, ?_⟩
    · intro idx hidx
      rw [← hw' l (List.mem_cons_self _ _) idx hidx, hhead idx hidx]
      apply dense_weight_congr l.flags l.input.len l.output.len rate _ _ _ _ _ _ _ _
        (hw l (List.mem_cons_self _ _)) _ hout (fun j hj => hv j (by omega)) idx hidx
      intro i hi
      exact net_error_congr L m n ls l.output.len _ _ _ _ hs' (same_weights_tail m n l ls hw)
        hout hy i hi
    · exact ih l.output.len _ _ _ _ hs' (same_weights_tail m n l ls hw)
        (same_weights_tail m' n' l ls hw') hout hy htail

theorem total_size_cons (l : nn_layer) (ls : List nn_layer) :
    total_size (l :: ls) = layer_size l + total_size ls := by
  simp only [total_size, List.map_cons, List.sum_cons]

theorem not_empty_of_pos (l : nn_layer) (h1 : 0 < l.input.len) (h2 : 0 < l.output.len)
    (h3 : l.input.len * l.output.len < 2 ^ w) : NN_LAYER_EMPTY w l = false := by
  have : l.input.len * l.output.len ≠ 0 := Nat.mul_ne_zero (by omega) (by omega)
  simp [NN_LAYER_EMPTY, size_t_of_lt w _ h3, this]

theorem bound_weights_range (mem : Nat) (ls : List nn_layer) :
    ∀ (off : Nat) (prev : Ptr), Bound mem ls off prev → ∀ l ∈ ls,
      ∃ pw, l.weights.data = some pw ∧ mem + off ≤ pw ∧
        pw + l.weights.len ≤ mem + off + total_size ls := by
  induction ls with
  | nil => intro off prev _ l hl; cases hl
  | cons d ds ih =>
    intro off prev hb l hl
    obtain ⟨_, _, hw, _, _, hb'⟩ := hb
    rw [total_size_cons]
    rcases List.mem_cons.mp hl with h | h
    · subst h
      exact ⟨_, hw, by omega, by unfold layer_size; omega⟩
    · obtain ⟨pw, h1, h2, h3⟩ := ih _ _ hb' l h
      exact ⟨pw, h1, by omega, by omega⟩

theorem same_weights_of_frame (mem : Nat) (m m' : Mem α) (ls : List nn_layer) (n0 off : Nat)
    (prev : Ptr) (hb : Bound mem ls off prev) :
    Shaped n0 ls →
    (∀ a, mem + off ≤ a → a < mem + off + total_size ls → m a = m' a) →
    same_weights m m' ls := by
  intro hs hf l hl idx hidx
  obtain ⟨pw, h1, h2, h3⟩ := bound_weights_range mem ls off prev hb l hl
  have hwl : l.output.len * (l.input.len + 1) ≤ l.weights.len := by
    have : ∀ (ls : List nn_layer) (n0 : Nat), Shaped n0 ls → ∀ l ∈ ls,
        l.weights.len = (l.input.len + 1) * l.output.len := by
      intro ls
      induction ls with
      | nil => intro n0 _ l hl; cases hl
      | cons d ds ih =>
        intro n0 hs l hl
        obtain ⟨_, _, _, hw, _, hs'⟩ := hs
        rcases List.mem_cons.mp hl with h | h
        · subst h; exact hw
        · exact ih _ hs' l h
    have := this ls n0 hs l hl
    rw [Nat.mul_comm]; exact le_of_eq this.symm
  rw [layer_w_eq m l pw h1, layer_w_eq m' l pw h1]
  exact hf _ (by omega) (by omega)

theorem forward_loop_spec (L : libm α) (mem : Nat) (s : nn_layer) (tl : List nn_layer)
    (hs : NN_LAYER_EMPTY w s = true) (rest : List nn_layer) :
    ∀ (off pin n0 : Nat) (m : Mem α), Bound mem rest off (some pin) → Shaped n0 rest →
      (∀ l ∈ rest, NN_LAYER_EMPTY w l = false) →
      (pin + n0 ≤ mem + off ∨ mem + off + total_size rest ≤ pin) →
      ∃ mf plast, nn_forward_loop w L (rest ++ s :: tl) m = some (rest.length, mf) ∧
        (∀ a, (a < mem + off ∨ mem + off + total_size rest ≤ a) → mf a = m a) ∧
        (∀ l ∈ rest, ∀ pw, l.weights.data = some pw →
          ∀ k < l.weights.len, mf (pw + k) = m (pw + k)) ∧
        last_output_ptr (some pin) rest = some plast ∧
        (∀ i < last_output_len n0 rest,
          mf (plast + i) = net_forward L m rest (vec m pin) i) := by
  induction rest with
  | nil =>
    intro off pin n0 m _ _ _ _
    refine ⟨m, pin, ?_, fun _ _ => rfl, ?_, rfl, fun _ _ => rfl⟩
    · simp [nn_forward_loop, hs]
    · intro l hl; cases hl
  | cons l rest ih =>
    intro off pin n0 m hb hsh hnz hpin
    obtain ⟨hin, hout, hw, herr, hcache, hb'⟩ := hb
    obtain ⟨hn0, hipos, hopos, hwl, hel, hsh'⟩ := hsh
    rw [total_size_cons] at hpin
    have hsz : layer_size l = l.output.len + l.weights.len + l.errors.len + l.cache.len := rfl
    have hwl' : l.output.len * (l.input.len + 1) = l.weights.len := by
      rw [Nat.mul_comm]; exact hwl.symm
    have hfwd := dense_forward_eq L l 0 m pin (mem + off) (mem + off + l.output.len) hin hout hw
      (by unfold disj; omega) (by unfold disj; omega)
    obtain ⟨mf, plast, hloop, hframe, hweights, hlast, hval⟩ :=
      ih (off + layer_size l) (mem + off) l.output.len
        (overlay m (mem + off) l.output.len
          (dense_output L l.flags l.input.len (vec m (mem + off + l.output.len)) (vec m pin)))
        hb' hsh' (fun l' hl' => hnz l' (List.mem_cons_of_mem _ hl')) (Or.inl (by omega))
    have hm1 : ∀ a, (a < mem + off ∨ mem + off + l.output.len ≤ a) →
        overlay m (mem + off) l.output.len
          (dense_output L l.flags l.input.len (vec m (mem + off + l.output.len)) (vec m pin)) a
          = m a := fun a ha => overlay_out _ _ _ _ a ha
    refine ⟨mf, plast, ?_, ?_, ?_, by rw [last_output_ptr, hout]; exact hlast, ?_⟩
    · show nn_forward_loop w L (l :: (rest ++ s :: tl)) m = _
      rw [nn_forward_loop]
      simp only [hnz l (List.mem_cons_self _ _), Bool.false_eq_true, if_false, hfwd,
        Option.bind_eq_bind, Option.some_bind, hloop, Option.pure_def, List.length_cons]
    · intro a ha
      rw [total_size_cons] at ha
      rw [hframe a (by omega), hm1 a (by omega)]
    · intro l' hl' pw hpw k hk
      rcases List.mem_cons.mp hl' with h | h
      · subst h
        rw [hw] at hpw
        have hpw' : mem + off + l'.output.len = pw := Option.some.inj hpw
        rw [hframe _ (by omega), hm1 _ (by omega)]
      · obtain ⟨pw', h1, h2, h3⟩ := bound_weights_range mem rest _ _ hb' l' h
        rw [hpw] at h1
        have hpw' : pw = pw' := Option.some.inj h1
        rw [hweights l' h pw hpw k hk, hm1 _ (by omega)]
    · intro i hi
      rw [hval i hi]
      simp only [net_forward]
      apply net_forward_congr L _ m rest l.output.len _ _ hsh' _ _ i hi
      · apply same_weights_of_frame mem _ m rest l.output.len _ _ hb' hsh'
        intro a h1 h2
        exact hm1 a (by omega)
      · intro j hj
        simp only [vec, overlay_in _ _ _ _ j hj, layer_out, layer_w_eq m l _ hw]

theorem train_error_eq (l : nn_layer) (m : Mem α) (pe y po : Nat)
    (hout : l.output.data = some po)
    (h1 : disj pe l.output.len y l.output.len)
    (h2 : disj pe l.output.len po l.output.len)
    (k : Nat) (hk : k ≤ l.output.len) :
    nn_train_error l (some pe) y k m = some
      (overlay m pe k (fun i => m (y + i) - m (po + i)),
        ∑ i in range k, ((m (y + i) - m (po + i)) * (m (y + i) - m (po + i)))
          / (l.output.len : α)) := by
  induction k with
  | zero => simp only [nn_train_error, overlay_zero, Finset.range_zero, Finset.sum_empty]
  | succ k ih =>
    have ih := ih (by omega)
    rw [nn_train_error, ih]
    simp only [Option.bind_eq_bind, Option.some_bind, load, store, hout, Option.map_some',
      Option.pure_def, Function.update_same, Finset.sum_range_succ]
    rw [overlay_out _ _ _ _ (y + k) (by unfold disj at h1; omega),
      overlay_out _ _ _ _ (po + k) (by unfold disj at h2; omega), overlay_succ]

theorem train_from_spec (L : libm α) (rate : α) (mem y : Nat) (rest : List nn_layer) :
    ∀ (lprev : nn_layer) (off pin n0 : Nat) (m : Mem α),
      Bound mem rest off (some pin) → Shaped n0 rest → 0 < n0 →
      (rest = [] → lprev.output.data = some pin ∧ lprev.output.len = n0 ∧
        lprev.cache.data.add lprev.cache.len = some (mem + off)) →
      (pin + n0 ≤ mem + off ∨
        mem + off + total_size rest + last_output_len n0 rest ≤ pin) →
      (y + last_output_len n0 rest ≤ mem + off ∨
        mem + off + total_size rest + last_output_len n0 rest ≤ y) →
      ∃ pe loss m', train_from L rate y lprev rest m = some (some pe, loss, m') ∧
        mem + off ≤ pe ∧ pe + n0 ≤ mem + off + total_size rest + last_output_len n0 rest ∧
        (∀ j < n0, m' (pe + j) = net_error L m rest (vec m pin) (vec m y) j) ∧
        loss = ∑ i in range (last_output_len n0 rest),
          ((vec m y i - net_forward L m rest (vec m pin) i) *
            (vec m y i - net_forward L m rest (vec m pin) i))
              / (last_output_len n0 rest : α) ∧
        backprop_step L rate m m' rest (vec m pin) (vec m y) ∧
        (∀ a, (a < mem + off ∨
          mem + off + total_size rest + last_output_len n0 rest ≤ a) → m' a = m a) := by
  induction rest with
  | nil =>
    intro lprev off pin n0 m _ _ hn0 hprev hpin hy
    obtain ⟨hout, hlen, hcache⟩ := hprev rfl
    simp only [last_output_len, total_size, List.map_nil, List.sum_nil, Nat.add_zero] at hpin hy ⊢
    have herr := train_error_eq lprev m (mem + off) y pin hout
      (by unfold disj; omega) (by unfold disj; omega) lprev.output.len le_rfl
    refine ⟨mem + off,
      ∑ i in range lprev.output.len, ((m (y + i) - m (pin + i)) * (m (y + i) - m (pin + i)))
          / (lprev.output.len : α),
      overlay m (mem + off) lprev.output.len (fun i => m (y + i) - m (pin + i)),
      ?_, le_rfl, le_rfl, ?_, ?_, trivial, ?_⟩
    · simp only [train_from, hcache, herr, Option.bind_eq_bind, Option.some_bind,
        Option.pure_def]
    · intro j hj
      rw [overlay_in _ _ _ _ j (by omega)]
      rfl
    · rw [hlen]
      rfl
    · intro a ha
      exact overlay_out _ _ _ _ a (by omega)
  | cons l rest ih =>
    intro lprev off pin n0 m hb hsh hn0 _ hpin hy
    obtain ⟨hin, hout, hw, herr, hcache, hb'⟩ := hb
    obtain ⟨hlen0, hipos, hopos, hwl, hel, hsh'⟩ := hsh
    have hlast : last_output_len n0 (l :: rest) = last_output_len l.output.len rest := rfl
    rw [hlast, total_size_cons] at hpin hy
    rw [hlast, total_size_cons]
    have hsz : layer_size l = l.output.len + l.weights.len + l.errors.len + l.cache.len := rfl
    have hwl' : l.output.len * (l.input.len + 1) = l.weights.len := by
      rw [Nat.mul_comm]; exact hwl.symm
    -- forward step of the head layer
    have hfwd := dense_forward_eq L l 0 m pin (mem + off) (mem + off + l.output.len) hin hout hw
      (by unfold disj; omega) (by unfold disj; omega)
    have hm1 : ∀ a, (a < mem + off ∨ mem + off + l.output.len ≤ a) →
        overlay m (mem + off) l.output.len
          (dense_output L l.flags l.input.len (vec m (mem + off + l.output.len)) (vec m pin)) a
          = m a := fun a ha => overlay_out _ _ _ _ a ha
    have hm1o : ∀ j < l.output.len,
        overlay m (mem + off) l.output.len
          (dense_output L l.flags l.input.len (vec m (mem + off + l.output.len)) (vec m pin))
          (mem + off + j) = layer_out L m l (vec m pin) j := by
      intro j hj
      simp only [overlay_in _ _ _ _ j hj, layer_out, layer_w_eq m l _ hw]
    -- the layers after the head
    obtain ⟨pe, loss, m2, htrain, hpe1, hpe2, he, hloss, hstep, hframe⟩ :=
      ih l (off + layer_size l) (mem + off) l.output.len
        (overlay m (mem + off) l.output.len
          (dense_output L l.flags l.input.len (vec m (mem + off + l.output.len)) (vec m pin)))
        hb' hsh' hopos
        (fun _ => ⟨hout, rfl, by simp only [Ptr.add, hcache, Option.map_some']; congr 1; omega⟩)
        (Or.inl (by omega)) (by omega)
    have hsw1 : same_weights
        (overlay m (mem + off) l.output.len
          (dense_output L l.flags l.input.len (vec m (mem + off + l.output.len)) (vec m pin)))
        m rest := by
      apply same_weights_of_frame mem _ m rest l.output.len _ _ hb' hsh'
      intro a h1 h2
      exact hm1 a (by omega)
    have hv1 : ∀ j < l.output.len,
        vec (overlay m (mem + off) l.output.len
          (dense_output L l.flags l.input.len (vec m (mem + off + l.output.len)) (vec m pin)))
          (mem + off) j = layer_out L m l (vec m pin) j := fun j hj => hm1o j hj
    have hy1 : ∀ i < last_output_len l.output.len rest,
        vec (overlay m (mem + off) l.output.len
          (dense_output L l.flags l.input.len (vec m (mem + off + l.output.len)) (vec m pin)))
          y i = vec m y i := fun i hi => hm1 (y + i) (by omega)
    -- backward step of the head layer
    have hbwd := dense_backward_eq L l m2 rate pe pin (mem + off) (mem + off + l.output.len)
      (mem + off + l.output.len + l.weights.len) hin hout hw herr
      (by unfold disj; omega) (by unfold disj; omega) (by unfold disj; omega)
      (by unfold disj; omega) (by unfold disj; omega) (by unfold disj; omega)
      (by unfold disj; omega)
    -- what the backward step reads
    have rw_ : ∀ k < l.output.len * (l.input.len + 1),
        vec m2 (mem + off + l.output.len) k = layer_w m l k := by
      intro k hk
      simp only [vec, layer_w_eq m l _ hw]
      rw [hframe _ (by omega), hm1 _ (by omega)]
    have re_ : ∀ i < l.output.len,
        vec m2 pe i = net_error L m rest (layer_out L m l (vec m pin)) (vec m y) i := by
      intro i hi
      simp only [vec]
      rw [he i hi]
      exact net_error_congr L _ m rest l.output.len _ _ _ _ hsh' hsw1 hv1 hy1 i hi
    have ro_ : ∀ i < l.output.len, vec m2 (mem + off) i = layer_out L m l (vec m pin) i := by
      intro i hi
      simp only [vec]
      rw [hframe _ (by omega), hm1o i hi]
    have rx_ : ∀ j < l.input.len, vec m2 pin j = vec m pin j := by
      intro j hj
      simp only [vec]
      rw [hframe _ (by omega), hm1 _ (by omega)]
    obtain ⟨m3, hm3⟩ : ∃ m3, m3 = overlay
        (overlay m2 (mem + off + l.output.len + l.weights.len) l.input.len
          (dense_errors l.flags l.input.len l.output.len (vec m2 (mem + off + l.output.len))
            (vec m2 pe) (vec m2 (mem + off))))
        (mem + off + l.output.len) (l.output.len * (l.input.len + 1))
        (dense_weight l.flags l.input.len rate (vec m2 (mem + off + l.output.len)) (vec m2 pe)
          (vec m2 (mem + off)) (vec m2 pin)) := ⟨_, rfl⟩
    rw [← hm3] at hbwd
    refine ⟨mem + off + l.output.len + l.weights.len, loss, m3, ?_, by omega, by omega,
      ?_, ?_, ⟨?_, ?_⟩, ?_⟩
    · simp only [train_from, hfwd, htrain, hbwd, herr, Option.bind_eq_bind, Option.some_bind,
        Option.pure_def]
    · intro j hj
      rw [hm3, overlay_out _ _ _ _ _ (by omega), overlay_in _ _ _ _ j (by omega)]
      simp only [net_error]
      exact dense_errors_congr l.flags l.input.len l.output.len _ _ _ _ _ _ rw_ re_ ro_ j
        (by omega)
    · rw [hloss]
      apply Finset.sum_congr rfl
      intro i hi
      have hi := Finset.mem_range.mp hi
      simp only [net_forward]
      rw [hy1 i hi, net_forward_congr L _ m rest l.output.len _ _ hsh' hsw1 hv1 i hi]
    · intro idx hidx
      rw [layer_w_eq _ l _ hw]
      simp only [vec]
      rw [hm3, overlay_in _ _ _ _ idx hidx]
      exact dense_weight_congr l.flags l.input.len l.output.len rate _ _ _ _ _ _ _ _
        rw_ re_ ro_ rx_ idx hidx
    · apply backprop_step_congr L rate _ _ m _ rest l.output.len _ _ _ _ hsh' hsw1 _ hv1 hy1 hstep
      apply same_weights_of_frame mem _ _ rest l.output.len _ _ hb' hsh'
      intro a h1 h2
      rw [hm3, overlay_out _ _ _ _ a (by omega), overlay_out _ _ _ _ a (by omega)]
    · intro a ha
      rw [hm3, overlay_out _ _ _ _ a (by omega), overlay_out _ _ _ _ a (by omega),
        hframe a (by omega), hm1 a (by omega)]

theorem last_layer_getElem (l0 : nn_layer) (rest tl : List nn_layer) :
    (l0 :: (rest ++ tl))[rest.length]? = some (last_layer l0 rest) := by
  induction rest generalizing l0 with
  | nil => simp [last_layer]
  | cons l rest ih =>
    simp only [List.length_cons, List.cons_append, List.getElem?_cons_succ, last_layer]
    exact ih l

theorem last_layer_output_ptr (l0 : nn_layer) (rest : List nn_layer) :
    (last_layer l0 rest).output.data = last_output_ptr l0.output.data rest := by
  induction rest generalizing l0 with
  | nil => rfl
  | cons l rest ih => exact ih l

theorem last_layer_output_len (l0 : nn_layer) (rest : List nn_layer) :
    (last_layer l0 rest).output.len = last_output_len l0.output.len rest := by
  induction rest generalizing l0 with
  | nil => rfl
  | cons l rest ih => exact ih l

theorem last_layer_getLast (l0 : nn_layer) (rest : List nn_layer) :
    (l0 :: rest).getLast? = some (last_layer l0 rest) := by
  induction rest generalizing l0 with
  | nil => rfl
  | cons l rest ih =>
    rw [List.getLast?_cons_cons]
    exact ih l

theorem backward_list_snoc (L : libm α) (rate : α) (l : nn_layer) (xs : List nn_layer) :
    ∀ (e : Ptr) (m : Mem α), backward_list L rate (xs ++ [l]) e m =
      (nn_dense_backward L l e rate m).bind
        (fun m1 => backward_list L rate xs l.errors.data m1) := by
  induction xs with
  | nil =>
    intro e m
    simp only [List.nil_append, backward_list, Option.bind_eq_bind, Option.some_bind,
      Option.pure_def]
  | cons x xs ih =>
    intro e m
    show backward_list L rate (x :: (xs ++ [l])) e m = _
    rw [backward_list, ih]
    cases h : nn_dense_backward L l e rate m with
    | none => rfl
    | some m1 =>
      simp only [Option.bind_eq_bind, Option.some_bind, backward_list]

theorem backward_loop_eq (L : libm α) (rate : α) (layers : List nn_layer) (k : Nat) :
    ∀ (e : Ptr) (m : Mem α), k < layers.length →
      nn_backward_loop L layers rate k e m
        = (backward_list L rate (layers.take (k + 1)) e m).map Prod.snd := by
  induction k with
  | zero =>
    intro e m hk
    cases layers with
    | nil => simp at hk
    | cons l ls =>
      simp only [nn_backward_loop, List.getElem?_cons_zero, Option.bind_eq_bind,
        Option.some_bind, Nat.zero_add, List.take_succ_cons, List.take_zero, backward_list,
        Option.pure_def]
      cases nn_dense_backward L l e rate m <;> rfl
  | succ k ih =>
    intro e m hk
    have hget : layers[k + 1]? = some layers[k + 1] := List.getElem?_eq_getElem hk
    have htake : layers.take (k + 1 + 1) = layers.take (k + 1) ++ [layers[k + 1]] := by
      rw [List.take_succ, hget]
      rfl
    rw [nn_backward_loop, htake, backward_list_snoc, hget]
    simp only [Option.bind_eq_bind, Option.some_bind]
    cases h : nn_dense_backward L layers[k + 1] e rate m with
    | none => rfl
    | some m1 =>
      simp only [Option.some_bind]
      exact ih _ m1 (by omega)

theorem train_from_unfold (L : libm α) (rate : α) (y : Nat) (s : nn_layer) (tl : List nn_layer)
    (hs : NN_LAYER_EMPTY w s = true) (rest : List nn_layer) :
    ∀ (lprev : nn_layer) (m : Mem α) (pe : Ptr) (loss : α) (m' : Mem α),
      (∀ l ∈ rest, NN_LAYER_EMPTY w l = false) →
      train_from L rate y lprev rest m = some (pe, loss, m') →
      ∃ mf me, nn_forward_loop w L (rest ++ s :: tl) m = some (rest.length, mf) ∧
        nn_train_error (last_layer lprev rest)
          ((last_layer lprev rest).cache.data.add (last_layer lprev rest).cache.len) y
          (last_layer lprev rest).output.len mf = some (me, loss) ∧
        backward_list L rate rest
          ((last_layer lprev rest).cache.data.add (last_layer lprev rest).cache.len) me
          = some (pe, m') := by
  induction rest with
  | nil =>
    intro lprev m pe loss m' _ h
    simp only [train_from, Option.bind_eq_bind, Option.pure_def, Option.bind_eq_some] at h
    obtain ⟨sres, h1, h2⟩ := h
    simp only [Option.some.injEq, Prod.mk.injEq] at h2
    obtain ⟨hpe, hl, hm⟩ := h2
    refine ⟨m, m', ?_, ?_, ?_⟩
    · simp [nn_forward_loop, hs]
    · simp only [last_layer]
      rw [h1, ← hl, ← hm]
    · simp only [last_layer, backward_list, hpe]
  | cons l rest ih =>
    intro lprev m pe loss m' hne h
    simp only [train_from, Option.bind_eq_bind, Option.pure_def, Option.bind_eq_some] at h
    obtain ⟨m1, h1, r, h2, m3, h3, h4⟩ := h
    simp only [Option.some.injEq, Prod.mk.injEq] at h4
    obtain ⟨hpe, hl, hm⟩ := h4
    obtain ⟨mf, me, hf, he, hb⟩ := ih l m1 r.1 r.2.1 r.2.2
      (fun l' hl' => hne l' (List.mem_cons_of_mem _ hl')) h2
    refine ⟨mf, me, ?_, ?_, ?_⟩
    · show nn_forward_loop w L (l :: (rest ++ s :: tl)) m = _
      rw [nn_forward_loop]
      simp only [hne l (List.mem_cons_self _ _), Bool.false_eq_true, if_false, h1,
        Option.bind_eq_bind, Option.some_bind, hf, Option.pure_def, List.length_cons]
    · simp only [last_layer]
      rw [he, hl]
    · simp only [last_layer, backward_list, hb, Option.bind_eq_bind, Option.some_bind, h3,
        Option.pure_def, hpe, hm]

theorem nn_init_layer_fit (mem vec_len : Nat) (l : nn_layer) (e : Nat) (p : Ptr)
    (h : e + layer_size l < vec_len) (hw : e + layer_size l < 2 ^ w) :
    nn_init_layer w mem vec_len l e p =
      ({ flags := l.flags, input := ⟨l.input.len, p⟩,
         output := ⟨l.output.len, some (mem + e)⟩,
         weights := ⟨l.weights.len, some (mem + (e + l.output.len))⟩,
         errors := ⟨l.errors.len, some (mem + (e + l.output.len + l.weights.len))⟩,
         cache := ⟨l.cache.len, some (mem + (e + l.output.len + l.weights.len + l.errors.len))⟩ },
       e + layer_size l, some (mem + e)) := by
  unfold layer_size at h hw
  have h1 : e + l.output.len < vec_len := by omega
  have h2 : e + l.output.len + l.weights.len < vec_len := by omega
  have h3 : e + l.output.len + l.weights.len + l.errors.len < vec_len := by omega
  have h4 : e + l.output.len + l.weights.len + l.errors.len + l.cache.len < vec_len := by omega
  have s1 : size_t w (e + l.output.len) = e + l.output.len := size_t_of_lt w _ (by omega)
  have s2 : size_t w (e + l.output.len + l.weights.len) = e + l.output.len + l.weights.len :=
    size_t_of_lt w _ (by omega)
  have s3 : size_t w (e + l.output.len + l.weights.len + l.errors.len)
      = e + l.output.len + l.weights.len + l.errors.len := size_t_of_lt w _ (by omega)
  have s4 : size_t w (e + l.output.len + l.weights.len + l.errors.len + l.cache.len)
      = e + l.output.len + l.weights.len + l.errors.len + l.cache.len :=
    size_t_of_lt w _ (by omega)
  simp only [nn_init_layer, s1, s2, s3, s4, h1, h2, h3, h4, if_true]
  refine Prod.ext rfl (Prod.ext ?_ rfl)
  simp only [layer_size]
  omega

theorem shaped_last_pos : ∀ (ds : List nn_layer) (n0 : Nat), Shaped n0 ds → 0 < n0 →
    0 < last_output_len n0 ds := by
  intro ds
  induction ds with
  | nil => intro n0 _ h; exact h
  | cons d ds ih =>
    intro n0 hs _
    obtain ⟨_, _, hopos, _, _, hs'⟩ := hs
    exact ih _ hs' hopos

theorem shaped_nonempty : ∀ (ds : List nn_layer) (n0 : Nat), Shaped n0 ds →
    total_size ds < 2 ^ w → ∀ d ∈ ds, NN_LAYER_EMPTY w d = false := by
  intro ds
  induction ds with
  | nil => intro n0 _ _ d hd; cases hd
  | cons d ds ih =>
    intro n0 hs hfit d' hd'
    obtain ⟨_, hipos, hopos, hwl, _, hs'⟩ := hs
    rw [total_size_cons] at hfit
    rcases List.mem_cons.mp hd' with h | h
    · subst h
      refine not_empty_of_pos _ hipos hopos ?_
      have h1 : d'.input.len * d'.output.len ≤ (d'.input.len + 1) * d'.output.len :=
        Nat.mul_le_mul_right _ (Nat.le_succ _)
      unfold layer_size at hfit
      omega
    · exact ih _ hs' (by omega) d' h

theorem nn_init_layers_bound (mem vec_len : Nat) (ds : List nn_layer) :
    ∀ (e : Nat) (p : Ptr) (n0 : Nat), e + total_size ds < vec_len →
      e + total_size ds < 2 ^ w →
      Bound mem (nn_init_layers w mem vec_len ds e p) e p ∧
      (Shaped n0 ds → Shaped n0 (nn_init_layers w mem vec_len ds e p)) ∧
      total_size (nn_init_layers w mem vec_len ds e p) = total_size ds ∧
      last_output_len n0 (nn_init_layers w mem vec_len ds e p) = last_output_len n0 ds ∧
      (nn_init_layers w mem vec_len ds e p).length = ds.length := by
  induction ds with
  | nil =>
    intro e p n0 _ _
    exact ⟨trivial, fun h => h, rfl, rfl, rfl⟩
  | cons d ds ih =>
    intro e p n0 h hw
    rw [total_size_cons] at h hw
    have hfit := @nn_init_layer_fit w mem vec_len d e p (by omega) (by omega)
    obtain ⟨hb, hsh, htot, hlast, hlen⟩ := ih (e + layer_size d) (some (mem + e)) d.output.len
      (by omega) (by omega)
    simp only [nn_init_layers, hfit]
    refine ⟨?_, ?_, ?_, ?_, ?_⟩
    · refine ⟨rfl, rfl, ?_, ?_, ?_, ?_⟩
      · simp only [Nat.add_assoc]
      · simp only [Nat.add_assoc]
      · simp only [Nat.add_assoc]
      · exact hb
    · intro hs
      obtain ⟨h0, h1, h2, h3, h4, hs'⟩ := hs
      exact ⟨h0, h1, h2, h3, h4, hsh hs'⟩
    · rw [total_size_cons, total_size_cons, htot]
      rfl
    · exact hlast
    · simp only [List.length_cons, hlen]

/-- Everything the network-level proofs use about a network laid out by `nn_init`
in a large enough buffer and bound to the input `x`. -/
theorem laid_out_facts (ds : List nn_layer) (s : nn_layer) (tl : List nn_layer)
    (mem memsz x n0 : Nat) (layers : List nn_layer) (sz : Nat)
    (hsh : Shaped n0 ds) (hne : ds ≠ []) (hs : NN_LAYER_EMPTY w s = true)
    (hinit : nn_init w (ds ++ s :: tl) mem memsz = some (layers, sz)) (hsz : sz ≤ memsz)
    (hfit : (total_size ds + last_output_len n0 ds) * sizeof_float < 2 ^ w) :
    ∃ l0 rest, nn_bind_input layers x = some ((l0 :: rest) ++ s :: tl) ∧
      nn_bind_input ((l0 :: rest) ++ s :: tl) x = some ((l0 :: rest) ++ s :: tl) ∧
      Bound mem (l0 :: rest) 0 (some x) ∧ Shaped n0 (l0 :: rest) ∧
      total_size (l0 :: rest) = total_size ds ∧
      last_output_len n0 (l0 :: rest) = last_output_len n0 ds ∧
      (l0 :: rest).length = ds.length ∧
      ((l0 :: rest) ++ s :: tl).take ds.length = l0 :: rest ∧
      0 < last_output_len n0 ds ∧
      total_size ds + last_output_len n0 ds ≤ memsz / sizeof_float ∧
      sz = (total_size ds + last_output_len n0 ds) * sizeof_float ∧
      total_size ds < 2 ^ w ∧ (∀ d ∈ ds, NN_LAYER_EMPTY w d = false) := by
  have htw : total_size ds < 2 ^ w := by
    simp only [sizeof_float] at hfit
    omega
  have hnz := shaped_nonempty ds n0 hsh htw
  rw [nn_init_eq ds s tl mem memsz hnz hs] at hinit
  simp only [Option.some.injEq, Prod.mk.injEq] at hinit
  obtain ⟨hlayers, hszeq⟩ := hinit
  cases ds with
  | nil => exact absurd rfl hne
  | cons d ds' =>
    have hlast0 : last_output_len 0 (d :: ds') = last_output_len n0 (d :: ds') := rfl
    rw [hlast0, size_t_of_lt w _ hfit] at hszeq
    have hpos : 0 < last_output_len n0 (d :: ds') := by
      obtain ⟨_, _, hopos, _, _, hs'⟩ := hsh
      exact shaped_last_pos ds' _ hs' hopos
    have hcap : total_size (d :: ds') + last_output_len n0 (d :: ds') ≤ memsz / sizeof_float := by
      rw [Nat.le_div_iff_mul_le (by decide)]
      omega
    obtain ⟨hb, hshp, htot, hlast, hlen⟩ :=
      @nn_init_layers_bound w mem (memsz / sizeof_float) (d :: ds') 0 none n0 (by omega)
        (by omega)
    have hshp' := hshp hsh
    cases hl : nn_init_layers w mem (memsz / sizeof_float) (d :: ds') 0 none with
    | nil => rw [hl] at hlen; simp at hlen
    | cons l0 rest =>
      rw [hl] at hb hshp' htot hlast hlen hlayers
      obtain ⟨hin, hout, hw, herr, hcache, hb'⟩ := hb
      obtain ⟨h0, h1, h2, h3, h4, hs'⟩ := hshp'
      refine ⟨{ l0 with input := { l0.input with data := some x } }, rest, ?_, rfl,
        ⟨rfl, hout, hw, herr, hcache, hb'⟩, ⟨h0, h1, h2, h3, h4, hs'⟩, ?_, hlast, ?_, ?_,
        hpos, hcap, hszeq.symm, htw, hnz⟩
      · rw [← hlayers]
        rfl
      · rw [← htot, total_size_cons, total_size_cons]
        rfl
      · simpa using hlen
      · have hlen' : (d :: ds').length = rest.length + 1 := by simpa using hlen.symm
        rw [hlen']
        simp [List.take_append_eq_append_take]

theorem bound_last (mem : Nat) (rest : List nn_layer) :
    ∀ (l0 : nn_layer) (off : Nat) (prev : Ptr), Bound mem (l0 :: rest) off prev →
      (last_layer l0 rest).cache.data.add (last_layer l0 rest).cache.len
        = some (mem + off + total_size (l0 :: rest)) ∧
      ∃ p, (last_layer l0 rest).output.data = some p ∧ mem + off ≤ p ∧
        p + (last_layer l0 rest).output.len ≤ mem + off + total_size (l0 :: rest) := by
  induction rest with
  | nil =>
    intro l0 off prev hb
    obtain ⟨_, hout, _, _, hcache, _⟩ := hb
    have ht : total_size [l0] = layer_size l0 := by simp [total_size]
    rw [ht]
    simp only [last_layer, layer_size]
    refine ⟨?_, mem + off, hout, le_rfl, by omega⟩
    simp only [Ptr.add, hcache, Option.map_some']
    congr 1
    omega
  | cons l rest ih =>
    intro l0 off prev hb
    obtain ⟨_, _, _, _, _, hb'⟩ := hb
    obtain ⟨h1, p, h2, h3, h4⟩ := ih l _ _ hb'
    rw [total_size_cons]
    simp only [last_layer]
    refine ⟨?_, p, h2, by omega, by omega⟩
    rw [h1]
    congr 1
    omega

theorem predict_core (L : libm α) (mem x n0 : Nat) (s : nn_layer) (tl layers : List nn_layer)
    (l0 : nn_layer) (rest : List nn_layer) (m : Mem α)
    (hs : NN_LAYER_EMPTY w s = true)
    (hbind : nn_bind_input layers x = some ((l0 :: rest) ++ s :: tl))
    (hb : Bound mem (l0 :: rest) 0 (some x)) (hsh : Shaped n0 (l0 :: rest))
    (hnz : ∀ l ∈ l0 :: rest, NN_LAYER_EMPTY w l = false)
    (hx : x + n0 ≤ mem ∨ mem + total_size (l0 :: rest) ≤ x) :
    ∃ mf p, nn_forward_loop w L ((l0 :: rest) ++ s :: tl) m = some (rest.length + 1, mf) ∧
      nn_predict w L layers x m = some ((l0 :: rest) ++ s :: tl, some p, mf) ∧
      (last_layer l0 rest).output.data = some p ∧
      (∀ a, (a < mem ∨ mem + total_size (l0 :: rest) ≤ a) → mf a = m a) ∧
      (∀ l ∈ l0 :: rest, ∀ pw, l.weights.data = some pw →
        ∀ k < l.weights.len, mf (pw + k) = m (pw + k)) ∧
      (∀ i < last_output_len n0 (l0 :: rest),
        mf (p + i) = net_forward L m (l0 :: rest) (vec m x) i) := by
  obtain ⟨mf, p, hloop, hframe, hweights, hlast, hval⟩ :=
    forward_loop_spec L mem s tl hs (l0 :: rest) 0 x n0 m hb hsh hnz (by omega)
  have hlastp : (last_layer l0 rest).output.data = some p := by
    rw [last_layer_output_ptr]
    exact hlast
  refine ⟨mf, p, hloop, ?_, hlastp, ?_, hweights, hval⟩
  · unfold nn_predict
    rw [hbind]
    simp only [Option.bind_eq_bind, Option.some_bind, hloop, List.length_cons]
    have hget := last_layer_getElem l0 rest (s :: tl)
    rw [show (l0 :: rest) ++ s :: tl = l0 :: (rest ++ s :: tl) from rfl, hget]
    simp only [Option.some_bind, Option.pure_def, hlastp]
  · intro a ha
    exact hframe a (by omega)

theorem train_core (L : libm α) (rate : α) (mem x y n0 : Nat) (s : nn_layer)
    (tl layers : List nn_layer) (l0 : nn_layer) (rest : List nn_layer) (m : Mem α)
    (hs : NN_LAYER_EMPTY w s = true)
    (hbind : nn_bind_input layers x = some ((l0 :: rest) ++ s :: tl))
    (hb : Bound mem (l0 :: rest) 0 (some x)) (hsh : Shaped n0 (l0 :: rest)) (hn0 : 0 < n0)
    (hnz : ∀ l ∈ l0 :: rest, NN_LAYER_EMPTY w l = false)
    (hx : x + n0 ≤ mem ∨
      mem + total_size (l0 :: rest) + last_output_len n0 (l0 :: rest) ≤ x)
    (hy : y + last_output_len n0 (l0 :: rest) ≤ mem ∨
      mem + total_size (l0 :: rest) + last_output_len n0 (l0 :: rest) ≤ y) :
    ∃ loss m' mf me p,
      nn_train w L layers x y rate m = some ((l0 :: rest) ++ s :: tl, loss, m') ∧
      nn_forward_loop w L ((l0 :: rest) ++ s :: tl) m = some (rest.length + 1, mf) ∧
      (last_layer l0 rest).output.data = some p ∧
      (last_layer l0 rest).cache.data.add (last_layer l0 rest).cache.len
        = some (mem + total_size (l0 :: rest)) ∧
      nn_train_error (last_layer l0 rest) (some (mem + total_size (l0 :: rest))) y
        (last_layer l0 rest).output.len mf = some (me, loss) ∧
      nn_backward_loop L ((l0 :: rest) ++ s :: tl) rate rest.length
        (some (mem + total_size (l0 :: rest))) me = some m' ∧
      (∀ i < last_output_len n0 (l0 :: rest),
        me (mem + total_size (l0 :: rest) + i) = m (y + i) - mf (p + i)) ∧
      loss = ∑ i in range (last_output_len n0 (l0 :: rest)),
          ((vec m y i - net_forward L m (l0 :: rest) (vec m x) i) *
            (vec m y i - net_forward L m (l0 :: rest) (vec m x) i))
              / (last_output_len n0 (l0 :: rest) : α) ∧
      backprop_step L rate m m' (l0 :: rest) (vec m x) (vec m y) ∧
      (∀ a, (a < mem ∨
        mem + total_size (l0 :: rest) + last_output_len n0 (l0 :: rest) ≤ a) → m' a = m a) := by
  obtain ⟨pe, loss, m', htrain, _, _, _, hloss, hstep, hframe⟩ :=
    train_from_spec L rate mem y (l0 :: rest) l0 0 x n0 m hb hsh hn0
      (fun h => absurd h (List.cons_ne_nil _ _)) (by omega) (by omega)
  obtain ⟨mf, me, hloop, herr, hback⟩ :=
    train_from_unfold L rate y s tl hs (l0 :: rest) l0 m (some pe) loss m'
      hnz htrain
  obtain ⟨mf', p, hloop', _, hlastp, hfr, _, hval⟩ :=
    predict_core L mem x n0 s tl layers l0 rest m hs hbind hb hsh hnz (by omega)
  have hmf : mf' = mf := by
    rw [hloop] at hloop'
    simp only [List.length_cons, Option.some.injEq, Prod.mk.injEq, true_and] at hloop'
    exact hloop'.symm
  subst hmf
  obtain ⟨hcache, p', hp', hp1, hp2⟩ := bound_last mem rest l0 0 (some x) hb
  rw [hlastp] at hp'
  have hpp : p = p' := Option.some.inj hp'
  subst hpp
  simp only [Nat.add_zero] at hcache hp1 hp2
  simp only [last_layer] at herr hback
  rw [hcache] at herr hback
  have hlen := last_layer_output_len l0 rest
  have hlen' : last_output_len n0 (l0 :: rest) = (last_layer l0 rest).output.len := hlen.symm
  have hclosed := train_error_eq (last_layer l0 rest) mf' (mem + total_size (l0 :: rest)) y p
    hlastp (by unfold disj; omega) (by unfold disj; omega) _ le_rfl
  have hpair := hclosed.symm.trans herr
  simp only [Option.some.injEq, Prod.mk.injEq] at hpair
  obtain ⟨hme, _⟩ := hpair
  have hbl : nn_backward_loop L ((l0 :: rest) ++ s :: tl) rate rest.length
      (some (mem + total_size (l0 :: rest))) me = some m' := by
    rw [backward_loop_eq L rate _ rest.length _ _
      (by simp only [List.length_append, List.length_cons]; omega)]
    have htake : ((l0 :: rest) ++ s :: tl).take (rest.length + 1) = l0 :: rest := by
      simp [List.take_append_eq_append_take]
    rw [htake, hback]
    rfl
  refine ⟨loss, m', mf', me, p, ?_, hloop, hlastp, hcache, herr, hbl, ?_, hloss, hstep, ?_⟩
  · unfold nn_train
    rw [hbind]
    simp only [Option.bind_eq_bind, Option.some_bind, hloop, List.length_cons]
    have hget := last_layer_getElem l0 rest (s :: tl)
    rw [show (l0 :: rest) ++ s :: tl = l0 :: (rest ++ s :: tl) from rfl, hget]
    simp only [Option.some_bind, Option.pure_def, hcache, herr]
    rw [show l0 :: (rest ++ s :: tl) = (l0 :: rest) ++ s :: tl from rfl, hbl]
    simp only [Option.some_bind]
  · intro i hi
    rw [← hme, overlay_in _ _ _ _ i (by omega), hfr _ (by omega)]
  · intro a ha
    exact hframe a (by omega)

theorem shaped_weights_len : ∀ (ls : List nn_layer) (n0 : Nat), Shaped n0 ls → ∀ l ∈ ls,
    l.output.len * (l.input.len + 1) = l.weights.len := by
  intro ls
  induction ls with
  | nil => intro n0 _ l hl; cases hl
  | cons d ds ih =>
    intro n0 hs l hl
    obtain ⟨_, _, _, hw, _, hs'⟩ := hs
    rcases List.mem_cons.mp hl with h | h
    · subst h; rw [Nat.mul_comm]; exact hw.symm
    · exact ih _ hs' l h

theorem same_weights_of_cells (mem : Nat) (m m' : Mem α) (ls : List nn_layer) (n0 off : Nat)
    (prev : Ptr) (hb : Bound mem ls off prev) (hs : Shaped n0 ls)
    (h : ∀ l ∈ ls, ∀ pw, l.weights.data = some pw → ∀ k < l.weights.len,
      m (pw + k) = m' (pw + k)) :
    same_weights m m' ls := by
  intro l hl idx hidx
  obtain ⟨pw, h1, _, _⟩ := bound_weights_range mem ls off prev hb l hl
  rw [layer_w_eq m l pw h1, layer_w_eq m' l pw h1]
  exact h l hl pw h1 idx (by rw [← shaped_weights_len ls n0 hs l hl]; exact hidx)

theorem cells_of_same_weights (m m' : Mem α) (ls : List nn_layer) (n0 : Nat)
    (hs : Shaped n0 ls) (h : same_weights m m' ls) :
    ∀ l ∈ ls, ∀ pw, l.weights.data = some pw → ∀ k < l.weights.len,
      m (pw + k) = m' (pw + k) := by
  intro l hl pw hpw k hk
  have := h l hl k (by rw [shaped_weights_len ls n0 hs l hl]; exact hk)
  rw [layer_w_eq m l pw hpw, layer_w_eq m' l pw hpw] at this
  exact this

theorem backprop_step_split (L : libm α) (rate : α) (m m' : Mem α) (l : nn_layer)
    (post : List nn_layer) (y : Nat → α) (pre : List nn_layer) :
    ∀ (v : Nat → α), backprop_step L rate m m' (pre ++ l :: post) v y →
      ∀ idx < l.output.len * (l.input.len + 1),
        layer_w m' l idx = dense_weight l.flags l.input.len rate (layer_w m l)
          (net_error L m post (layer_out L m l (net_forward L m pre v)) y)
          (layer_out L m l (net_forward L m pre v)) (net_forward L m pre v) idx := by
  induction pre with
  | nil =>
    intro v h
    exact h.1
  | cons d pre ih =>
    intro v h
    exact ih _ h.2

theorem backprop_step_rate_zero (L : libm α) (m m' : Mem α) (ls : List nn_layer) :
    ∀ (v y : Nat → α), backprop_step L 0 m m' ls v y → same_weights m' m ls := by
  induction ls with
  | nil => intro v y _ l hl; cases hl
  | cons d ds ih =>
    intro v y h l hl idx hidx
    rcases List.mem_cons.mp hl with e | e
    · subst e
      rw [h.1 idx hidx]
      unfold dense_weight
      split_ifs <;> simp
    · exact ih _ _ h.2 l e idx hidx

theorem predict_same_output (L : libm α) (mem x n0 : Nat) (s : nn_layer)
    (tl layersA layersB : List nn_layer) (l0 : nn_layer) (rest : List nn_layer)
    (mA mB : Mem α) (hs : NN_LAYER_EMPTY w s = true)
    (hbindA : nn_bind_input layersA x = some ((l0 :: rest) ++ s :: tl))
    (hbindB : nn_bind_input layersB x = some ((l0 :: rest) ++ s :: tl))
    (hb : Bound mem (l0 :: rest) 0 (some x)) (hsh : Shaped n0 (l0 :: rest))
    (hnz : ∀ l ∈ l0 :: rest, NN_LAYER_EMPTY w l = false)
    (hx : x + n0 ≤ mem ∨ mem + total_size (l0 :: rest) ≤ x)
    (hw : same_weights mA mB (l0 :: rest)) (hxv : ∀ j < n0, mA (x + j) = mB (x + j)) :
    ∃ p mfA mfB, nn_predict w L layersA x mA = some ((l0 :: rest) ++ s :: tl, some p, mfA) ∧
      nn_predict w L layersB x mB = some ((l0 :: rest) ++ s :: tl, some p, mfB) ∧
      (last_layer l0 rest).output.data = some p ∧
      (∀ i < last_output_len n0 (l0 :: rest), mfA (p + i) = mfB (p + i)) ∧
      (∀ i < last_output_len n0 (l0 :: rest),
        mfA (p + i) = net_forward L mA (l0 :: rest) (vec mA x) i) := by
  obtain ⟨mfA, p, _, hpA, hlp, _, _, hvA⟩ :=
    predict_core L mem x n0 s tl layersA l0 rest mA hs hbindA hb hsh hnz hx
  obtain ⟨mfB, p', _, hpB, hlp', _, _, hvB⟩ :=
    predict_core L mem x n0 s tl layersB l0 rest mB hs hbindB hb hsh hnz hx
  rw [hlp] at hlp'
  have hpp : p' = p := (Option.some.inj hlp').symm
  subst hpp
  refine ⟨p', mfA, mfB, hpA, hpB, hlp, ?_, hvA⟩
  intro i hi
  rw [hvA i hi, hvB i hi]
  exact net_forward_congr L mA mB (l0 :: rest) n0 _ _ hsh hw hxv i hi

/-- C9: for a non-empty dense network `ds` (sentinel `s`) laid out by `nn_init` in
a buffer at least as large as the size it returns (the required size
`sizeof(float) * E` being below `2 ^ w`, so that no `size_t` computation of `nn_init`
wraps), and an input `x` outside the
buffer, `nn_predict` succeeds, returns the output pointer of the last layer, whose
cells hold the forward pass of the network on `x`, and leaves the weights of every
layer unchanged; a second `nn_predict` with the same `x` returns the same pointer and
the same output values, and so does `nn_predict` started from any memory that holds
the same weights and the same `x`, whatever its output and error regions hold. -/
theorem nn_predict_idempotent (w : Nat) (L : libm α) (ds : List nn_layer) (s : nn_layer)
    (tl : List nn_layer) (mem memsz x n0 : Nat) (layers : List nn_layer) (sz : Nat)
    (m : Mem α)
    (hsh : Shaped n0 ds) (hne : ds ≠ []) (hs : NN_LAYER_EMPTY w s = true)
    (hinit : nn_init w (ds ++ s :: tl) mem memsz = some (layers, sz)) (hsz : sz ≤ memsz)
    (hfit : (total_size ds + last_output_len n0 ds) * sizeof_float < 2 ^ w)
    (hx : x + n0 ≤ mem ∨ mem + memsz / sizeof_float ≤ x) :
    ∃ layers1 p m1, nn_predict w L layers x m = some (layers1, some p, m1) ∧
      (∃ l, (layers1.take ds.length).getLast? = some l ∧ l.output.data = some p) ∧
      (∀ i < last_output_len n0 ds,
        m1 (p + i) = net_forward L m (layers1.take ds.length) (vec m x) i) ∧
      (∀ l ∈ layers1.take ds.length, ∀ pw, l.weights.data = some pw →
        ∀ k < l.weights.len, m1 (pw + k) = m (pw + k)) ∧
      (∃ m2, nn_predict w L layers1 x m1 = some (layers1, some p, m2) ∧
        ∀ i < last_output_len n0 ds, m2 (p + i) = m1 (p + i)) ∧
      (∀ mo : Mem α,
        (∀ l ∈ layers1.take ds.length, ∀ pw, l.weights.data = some pw →
          ∀ k < l.weights.len, mo (pw + k) = m (pw + k)) →
        (∀ j < n0, mo (x + j) = m (x + j)) →
        ∃ mo1, nn_predict w L layers x mo = some (layers1, some p, mo1) ∧
          ∀ i < last_output_len n0 ds, mo1 (p + i) = m1 (p + i)) := by
  obtain ⟨l0, rest, hbind, hbind2, hb, hsh', htot, hlast, hlen, htake, hpos, hcap, hszeq, htw, _⟩ :=
    laid_out_facts ds s tl mem memsz x n0 layers sz hsh hne hs hinit hsz hfit
  have hnz : ∀ l ∈ l0 :: rest, NN_LAYER_EMPTY w l = false :=
    shaped_nonempty (l0 :: rest) n0 hsh' (by rw [htot]; exact htw)
  have hx' : x + n0 ≤ mem ∨ mem + total_size (l0 :: rest) ≤ x := by
    rw [htot]; omega
  obtain ⟨m1, p, _, hp, hlp, hframe, hweights, hval⟩ :=
    predict_core L mem x n0 s tl layers l0 rest m hs hbind hb hsh' hnz hx'
  have hxsame : ∀ j < n0, m1 (x + j) = m (x + j) := fun j hj => hframe _ (by omega)
  have hwsame : same_weights m1 m (l0 :: rest) :=
    same_weights_of_cells mem m1 m (l0 :: rest) n0 0 (some x) hb hsh' hweights
  refine ⟨(l0 :: rest) ++ s :: tl, p, m1, hp, ?_, ?_, ?_, ?_, ?_⟩
  · rw [htake]
    exact ⟨last_layer l0 rest, last_layer_getLast l0 rest, hlp⟩
  · rw [htake, ← hlast]
    exact hval
  · rw [htake]
    exact hweights
  · obtain ⟨p', mfA, mfB, hA, hB, _, hsame, _⟩ :=
      predict_same_output L mem x n0 s tl ((l0 :: rest) ++ s :: tl) layers l0 rest m1 m hs
        hbind2 hbind hb hsh' hnz hx' hwsame hxsame
    rw [hp] at hB
    simp only [Option.some.injEq, Prod.mk.injEq, true_and] at hB
    obtain ⟨hpp, hmm⟩ := hB
    subst hpp hmm
    exact ⟨mfA, hA, by rw [← hlast]; exact hsame⟩
  · intro mo hwo hxo
    rw [htake] at hwo
    obtain ⟨p', mfA, mfB, hA, hB, _, hsame, _⟩ :=
      predict_same_output L mem x n0 s tl layers layers l0 rest mo m hs
        hbind hbind hb hsh' hnz hx'
        (same_weights_of_cells mem mo m (l0 :: rest) n0 0 (some x) hb hsh' hwo) hxo
    rw [hp] at hB
    simp only [Option.some.injEq, Prod.mk.injEq, true_and] at hB
    obtain ⟨hpp, hmm⟩ := hB
    subst hpp hmm
    exact ⟨mfA, hA, by rw [← hlast]; exact hsame⟩

/-- C6: for a non-empty dense network `ds` (sentinel `s`) laid out by `nn_init` in
a buffer at least as large as the size it returns (the required size
`sizeof(float) * E` being below `2 ^ w`, so that no `size_t` computation of `nn_init`
wraps), with input `x` and target `y`
outside the buffer, `nn_train` succeeds for every rate and returns the same loss
`(1/n) * Σ_{i<n} (y[i] - out[i])^2`, where `n` is the last layer's output length and
`out` is the vector `nn_predict` returns on the same memory; the backward loop is
entered at the last layer with a pointer `e` whose cells hold
`e[i] = y[i] - out[i]`. -/
theorem nn_train_loss (w : Nat) (L : libm α) (ds : List nn_layer) (s : nn_layer)
    (tl : List nn_layer) (mem memsz x y n0 : Nat) (layers : List nn_layer) (sz : Nat)
    (m : Mem α)
    (hsh : Shaped n0 ds) (hne : ds ≠ []) (hs : NN_LAYER_EMPTY w s = true)
    (hinit : nn_init w (ds ++ s :: tl) mem memsz = some (layers, sz)) (hsz : sz ≤ memsz)
    (hfit : (total_size ds + last_output_len n0 ds) * sizeof_float < 2 ^ w)
    (hx : x + n0 ≤ mem ∨ mem + memsz / sizeof_float ≤ x)
    (hy : y + last_output_len n0 ds ≤ mem ∨ mem + memsz / sizeof_float ≤ y) :
    ∃ layers1 p mp loss, nn_predict w L layers x m = some (layers1, some p, mp) ∧
      loss = (1 / (last_output_len n0 ds : α)) *
        ∑ i in range (last_output_len n0 ds), (m (y + i) - mp (p + i)) ^ 2 ∧
      ∀ rate : α, ∃ m' k l pe me,
        nn_train w L layers x y rate m = some (layers1, loss, m') ∧
        nn_forward_loop w L layers1 m = some (k + 1, mp) ∧ layers1[k]? = some l ∧
        l.output.data = some p ∧ l.output.len = last_output_len n0 ds ∧
        l.cache.data.add l.cache.len = some pe ∧
        nn_train_error l (some pe) y l.output.len mp = some (me, loss) ∧
        (∀ i < last_output_len n0 ds, me (pe + i) = m (y + i) - mp (p + i)) ∧
        nn_backward_loop L layers1 rate k (some pe) me = some m' := by
  obtain ⟨l0, rest, hbind, hbind2, hb, hsh', htot, hlast, hlen, htake, hpos, hcap, hszeq, htw, _⟩ :=
    laid_out_facts ds s tl mem memsz x n0 layers sz hsh hne hs hinit hsz hfit
  have hnz : ∀ l ∈ l0 :: rest, NN_LAYER_EMPTY w l = false :=
    shaped_nonempty (l0 :: rest) n0 hsh' (by rw [htot]; exact htw)
  have hn0 : 0 < n0 := by
    obtain ⟨h0, h1, _⟩ := hsh'
    omega
  obtain ⟨mp, p, hloopP, hpred, hlp, hfr, _, hval⟩ :=
    predict_core L mem x n0 s tl layers l0 rest m hs hbind hb hsh' hnz (by rw [htot]; omega)
  refine ⟨(l0 :: rest) ++ s :: tl, p, mp, _, hpred, rfl, ?_⟩
  intro rate
  obtain ⟨loss, m', mf, me, p', htrain, hloop, hlp', hcache, herr, hbl, hme, hloss, _, _⟩ :=
    train_core L rate mem x y n0 s tl layers l0 rest m hs hbind hb hsh' hn0 hnz
      (by rw [htot, hlast]; omega) (by rw [htot, hlast]; omega)
  have hmf : mf = mp := by
    rw [hloopP] at hloop
    simp only [Option.some.injEq, Prod.mk.injEq, true_and] at hloop
    exact hloop.symm
  have hpp : p' = p := by
    rw [hlp] at hlp'
    exact (Option.some.inj hlp').symm
  subst hmf hpp
  have hlossf : loss = (1 / (last_output_len n0 ds : α)) *
      ∑ i in range (last_output_len n0 ds), (m (y + i) - mf (p' + i)) ^ 2 := by
    rw [hloss, hlast, Finset.mul_sum]
    apply Finset.sum_congr rfl
    intro i hi
    have hi := Finset.mem_range.mp hi
    rw [hval i (by rw [hlast]; exact hi)]
    simp only [vec]
    ring
  rw [← hlossf]
  have hget : ((l0 :: rest) ++ s :: tl)[rest.length]? = some (last_layer l0 rest) :=
    last_layer_getElem l0 rest (s :: tl)
  have hll : (last_layer l0 rest).output.len = last_output_len n0 ds := by
    rw [last_layer_output_len, ← hlast]
    rfl
  refine ⟨m', rest.length, last_layer l0 rest, mem + total_size (l0 :: rest), me,
    htrain, hloop, hget, hlp, hll, hcache, herr, ?_, hbl⟩
  intro i hi
  exact hme i (by rw [hlast]; exact hi)

/-- C7: for a non-empty dense network `ds` (sentinel `s`) laid out by `nn_init` in
a buffer at least as large as the size it returns (the required size
`sizeof(float) * E` being below `2 ^ w`, so that no `size_t` computation of `nn_init`
wraps), with input `x` and target `y`
outside the buffer, one `nn_train` call succeeds and is one backpropagation step
computed from the pre-call memory `m`: for every layer `l` (layers `pre` before it,
`post` after it), with `inp` the forward pass of `pre` on `x`, `out` the output of
`l` on `inp` and `e` the error vector handed down by `post` (target minus output
when `post` is empty), all computed from the weights of `m`, every weight of `l`
ends as `W[i,j] + rate * (e[i] * d(out[i])) * inp[j]` and its bias as
`W[i,input_len] + rate * (e[i] * d(out[i]))` (kept when `NN_FLAG_NO_BIAS` is set). -/
theorem nn_train_backprop (w : Nat) (L : libm α) (ds : List nn_layer) (s : nn_layer)
    (tl : List nn_layer) (mem memsz x y n0 : Nat) (layers : List nn_layer) (sz : Nat)
    (rate : α) (m : Mem α)
    (hsh : Shaped n0 ds) (hne : ds ≠ []) (hs : NN_LAYER_EMPTY w s = true)
    (hinit : nn_init w (ds ++ s :: tl) mem memsz = some (layers, sz)) (hsz : sz ≤ memsz)
    (hfit : (total_size ds + last_output_len n0 ds) * sizeof_float < 2 ^ w)
    (hx : x + n0 ≤ mem ∨ mem + memsz / sizeof_float ≤ x)
    (hy : y + last_output_len n0 ds ≤ mem ∨ mem + memsz / sizeof_float ≤ y) :
    ∃ layers1 loss m', nn_train w L layers x y rate m = some (layers1, loss, m') ∧
      ∀ pre l post, layers1.take ds.length = pre ++ l :: post →
        ∃ pw, l.weights.data = some pw ∧ ∀ i < l.output.len,
          (∀ j < l.input.len,
            m' (pw + (i * (l.input.len + 1) + j)) =
              m (pw + (i * (l.input.len + 1) + j)) +
                rate *
                  (net_error L m post (layer_out L m l (net_forward L m pre (vec m x)))
                      (vec m y) i *
                    dact l.flags (layer_out L m l (net_forward L m pre (vec m x)) i)) *
                  net_forward L m pre (vec m x) j) ∧
          m' (pw + (i * (l.input.len + 1) + l.input.len)) =
            if l.flags &&& NN_FLAG_NO_BIAS = 0 then
              m (pw + (i * (l.input.len + 1) + l.input.len)) +
                rate *
                  (net_error L m post (layer_out L m l (net_forward L m pre (vec m x)))
                      (vec m y) i *
                    dact l.flags (layer_out L m l (net_forward L m pre (vec m x)) i))
            else m (pw + (i * (l.input.len + 1) + l.input.len)) := by
  obtain ⟨l0, rest, hbind, hbind2, hb, hsh', htot, hlast, hlen, htake, hpos, hcap, hszeq, htw, _⟩ :=
    laid_out_facts ds s tl mem memsz x n0 layers sz hsh hne hs hinit hsz hfit
  have hnz : ∀ l ∈ l0 :: rest, NN_LAYER_EMPTY w l = false :=
    shaped_nonempty (l0 :: rest) n0 hsh' (by rw [htot]; exact htw)
  have hn0 : 0 < n0 := by
    obtain ⟨h0, h1, _⟩ := hsh'
    omega
  obtain ⟨loss, m', mf, me, p', htrain, _, _, _, _, _, _, _, hstep, _⟩ :=
    train_core L rate mem x y n0 s tl layers l0 rest m hs hbind hb hsh' hn0 hnz
      (by rw [htot, hlast]; omega) (by rw [htot, hlast]; omega)
  refine ⟨(l0 :: rest) ++ s :: tl, loss, m', htrain, ?_⟩
  intro pre l post hsplit
  rw [htake] at hsplit
  have hmem : l ∈ l0 :: rest := by rw [hsplit]; simp
  obtain ⟨pw, hpw, _, _⟩ := bound_weights_range mem (l0 :: rest) 0 (some x) hb l hmem
  rw [hsplit] at hstep
  have hcell := backprop_step_split L rate m m' l post (vec m y) pre (vec m x) hstep
  refine ⟨pw, hpw, ?_⟩
  intro i hi
  constructor
  · intro j hj
    have h := hcell (i * (l.input.len + 1) + j) (idx_lt hi (by omega))
    rw [layer_w_eq m' l pw hpw] at h
    simp only [vec] at h
    rw [h]
    simp only [dense_weight, idx_div i j _ (show j < l.input.len + 1 by omega),
      idx_mod i j _ (show j < l.input.len + 1 by omega), layer_w_eq m l pw hpw, vec]
    rw [if_pos hj]
    ring
  · have h := hcell (i * (l.input.len + 1) + l.input.len) (idx_lt hi (by omega))
    rw [layer_w_eq m' l pw hpw] at h
    simp only [vec] at h
    rw [h]
    simp only [dense_weight,
      idx_div i l.input.len _ (show l.input.len < l.input.len + 1 by omega),
      idx_mod i l.input.len _ (show l.input.len < l.input.len + 1 by omega),
      layer_w_eq m l pw hpw, vec]
    rw [if_neg (by omega)]
    by_cases hf : l.flags &&& NN_FLAG_NO_BIAS = 0
    · rw [if_pos hf, if_pos hf]
      ring
    · rw [if_neg hf, if_neg hf]

/-- C8: for a non-empty dense network `ds` (sentinel `s`) laid out by `nn_init` in
a buffer at least as large as the size it returns (the required size
`sizeof(float) * E` being below `2 ^ w`, so that no `size_t` computation of `nn_init`
wraps), with input `x` and target `y`
outside the buffer, `nn_train` at rate `0` succeeds and leaves every weight and
bias cell of every layer as it was; `nn_predict` after it returns the same output
values as `nn_predict` before it, and `nn_train` after it, at any rate, returns the
same loss. -/
theorem nn_train_rate_zero (w : Nat) (L : libm α) (ds : List nn_layer) (s : nn_layer)
    (tl : List nn_layer) (mem memsz x y n0 : Nat) (layers : List nn_layer) (sz : Nat)
    (m : Mem α)
    (hsh : Shaped n0 ds) (hne : ds ≠ []) (hs : NN_LAYER_EMPTY w s = true)
    (hinit : nn_init w (ds ++ s :: tl) mem memsz = some (layers, sz)) (hsz : sz ≤ memsz)
    (hfit : (total_size ds + last_output_len n0 ds) * sizeof_float < 2 ^ w)
    (hx : x + n0 ≤ mem ∨ mem + memsz / sizeof_float ≤ x)
    (hy : y + last_output_len n0 ds ≤ mem ∨ mem + memsz / sizeof_float ≤ y) :
    ∃ layers1 loss m', nn_train w L layers x y 0 m = some (layers1, loss, m') ∧
      (∀ l ∈ layers1.take ds.length, ∀ pw, l.weights.data = some pw →
        ∀ k < l.weights.len, m' (pw + k) = m (pw + k)) ∧
      (∃ p m1 m2, nn_predict w L layers x m = some (layers1, some p, m1) ∧
        nn_predict w L layers1 x m' = some (layers1, some p, m2) ∧
        ∀ i < last_output_len n0 ds, m2 (p + i) = m1 (p + i)) ∧
      (∀ rate : α, ∃ m2, nn_train w L layers1 x y rate m' = some (layers1, loss, m2)) := by
  obtain ⟨l0, rest, hbind, hbind2, hb, hsh', htot, hlast, hlen, htake, hpos, hcap, hszeq, htw, _⟩ :=
    laid_out_facts ds s tl mem memsz x n0 layers sz hsh hne hs hinit hsz hfit
  have hnz : ∀ l ∈ l0 :: rest, NN_LAYER_EMPTY w l = false :=
    shaped_nonempty (l0 :: rest) n0 hsh' (by rw [htot]; exact htw)
  have hn0 : 0 < n0 := by
    obtain ⟨h0, h1, _⟩ := hsh'
    omega
  have hx' : x + n0 ≤ mem ∨
      mem + total_size (l0 :: rest) + last_output_len n0 (l0 :: rest) ≤ x := by
    rw [htot, hlast]; omega
  have hy' : y + last_output_len n0 (l0 :: rest) ≤ mem ∨
      mem + total_size (l0 :: rest) + last_output_len n0 (l0 :: rest) ≤ y := by
    rw [htot, hlast]; omega
  obtain ⟨loss, m', mf, me, p', htrain, _, _, _, _, _, _, hloss, hstep, hframe⟩ :=
    train_core L 0 mem x y n0 s tl layers l0 rest m hs hbind hb hsh' hn0 hnz hx' hy'
  have hw : same_weights m' m (l0 :: rest) := backprop_step_rate_zero L m m' _ _ _ hstep
  have hxv : ∀ j < n0, m' (x + j) = m (x + j) := fun j hj => hframe _ (by omega)
  have hyv : ∀ i < last_output_len n0 (l0 :: rest), vec m' y i = vec m y i :=
    fun i hi => hframe _ (by omega)
  refine ⟨(l0 :: rest) ++ s :: tl, loss, m', htrain, ?_, ?_, ?_⟩
  · rw [htake]
    exact cells_of_same_weights m' m (l0 :: rest) n0 hsh' hw
  · obtain ⟨p, mfA, mfB, hA, hB, _, hsame, _⟩ :=
      predict_same_output L mem x n0 s tl ((l0 :: rest) ++ s :: tl) layers l0 rest m' m hs
        hbind2 hbind hb hsh' hnz (by omega) hw hxv
    exact ⟨p, mfB, mfA, hB, hA, by rw [← hlast]; exact hsame⟩
  · intro rate
    obtain ⟨loss2, m2, _, _, _, htrain2, _, _, _, _, _, _, hloss2, _, _⟩ :=
      train_core L rate mem x y n0 s tl ((l0 :: rest) ++ s :: tl) l0 rest m' hs hbind2 hb hsh'
        hn0 hnz hx' hy'
    refine ⟨m2, ?_⟩
    rw [htrain2]
    have : loss2 = loss := by
      rw [hloss, hloss2]
      apply Finset.sum_congr rfl
      intro i hi
      have hi := Finset.mem_range.mp hi
      have e := net_forward_congr L m' m (l0 :: rest) n0 (vec m' x) (vec m x) hsh' hw hxv i hi
      rw [hyv i hi, e]
    rw [this]

theorem fixture_shaped : Shaped 2 fixture_decl := by
  simp [Shaped, fixture_decl, NN_DENSE]

theorem fixture_init :
    nn_init 64 (fixture_decl ++ NN_EMPTY :: []) 100 4096 = some (fixture_laid, 88) := by
  decide

theorem nn_train_rate_zero_witness :
    Shaped 2 fixture_decl ∧ fixture_decl ≠ [] ∧ NN_LAYER_EMPTY 64 NN_EMPTY = true ∧
    nn_init 64 (fixture_decl ++ NN_EMPTY :: []) 100 4096 = some (fixture_laid, 88) ∧
    88 ≤ 4096 ∧
    (total_size fixture_decl + last_output_len 2 fixture_decl) * sizeof_float < 2 ^ 64 ∧
    (0 + 2 ≤ 100 ∨ 100 + 4096 / sizeof_float ≤ 0) ∧
    (10 + last_output_len 2 fixture_decl ≤ 100 ∨ 100 + 4096 / sizeof_float ≤ 10) ∧
    ∃ layers1 loss m',
      nn_train 64 (⟨Real.exp, Real.log⟩ : libm ℝ) fixture_laid 0 10 0 fixture_mem
        = some (layers1, loss, m') ∧
      (∀ l ∈ layers1.take fixture_decl.length, ∀ pw, l.weights.data = some pw →
        ∀ k < l.weights.len, m' (pw + k) = fixture_mem (pw + k)) ∧
      (∃ p m1 m2,
        nn_predict 64 (⟨Real.exp, Real.log⟩ : libm ℝ) fixture_laid 0 fixture_mem
          = some (layers1, some p, m1) ∧
        nn_predict 64 (⟨Real.exp, Real.log⟩ : libm ℝ) layers1 0 m' = some (layers1, some p, m2) ∧
        ∀ i < last_output_len 2 fixture_decl, m2 (p + i) = m1 (p + i)) ∧
      (∀ rate : ℝ, ∃ m2,
        nn_train 64 ⟨Real.exp, Real.log⟩ layers1 0 10 rate m' = some (layers1, loss, m2)) :=
  ⟨fixture_shaped, by decide, by decide, fixture_init, by decide, by decide, by decide, by decide,
    nn_train_rate_zero 64 ⟨Real.exp, Real.log⟩ fixture_decl NN_EMPTY [] 100 4096 0 10 2
      fixture_laid 88 fixture_mem fixture_shaped (by decide) (by decide) fixture_init
      (by decide) (by decide) (by decide) (by decide)⟩

theorem exp_taylor (x : ℝ) (hx : |x| ≤ 1) :
    |Real.exp x - (1 + x + x ^ 2 / 2 + x ^ 3 / 6 + x ^ 4 / 24 + x ^ 5 / 120 + x ^ 6 / 720
      + x ^ 7 / 5040)| ≤ |x| ^ 8 * (9 / 322560) := by
  have h := Real.exp_bound hx (show 0 < 8 by norm_num)
  simp only [Finset.sum_range_succ, Finset.sum_range_zero, Nat.factorial, Nat.succ_eq_add_one]
    at h
  norm_num at h
  have e : (9 : ℝ) / 322560 = 1 / 35840 := by norm_num
  rw [e]
  exact h

/-- Upper and lower bounds on `exp x` for `-1 ≤ x ≤ 0` from the Taylor polynomial. -/
theorem exp_neg_bounds (x : ℝ) (h0 : x ≤ 0) (h1 : -1 ≤ x) :
    1 + x + x ^ 2 / 2 + x ^ 3 / 6 + x ^ 4 / 24 + x ^ 5 / 120 + x ^ 6 / 720 + x ^ 7 / 5040
        - x ^ 8 * (9 / 322560) ≤ Real.exp x ∧
    Real.exp x ≤ 1 + x + x ^ 2 / 2 + x ^ 3 / 6 + x ^ 4 / 24 + x ^ 5 / 120 + x ^ 6 / 720
        + x ^ 7 / 5040 + x ^ 8 * (9 / 322560) := by
  have hx : |x| ≤ 1 := abs_le.mpr ⟨h1, by linarith⟩
  have h := exp_taylor x hx
  have hp : |x| ^ 8 = x ^ 8 := by
    rw [show (8 : ℕ) = 2 * 4 from rfl, pow_mul, pow_mul, sq_abs]
  rw [hp] at h
  have := abs_le.mp h
  constructor <;> linarith [this.1, this.2]

theorem sigmoid_ge (s c : ℝ) (hc : 0 < c) (h : Real.exp (-s) ≤ 1 / c - 1) :
    c ≤ 1 / (1 + Real.exp (-s)) := by
  have hpos : 0 < 1 + Real.exp (-s) := by linarith [Real.exp_pos (-s)]
  rw [le_div_iff₀ hpos]
  have : 1 + Real.exp (-s) ≤ 1 / c := by linarith
  calc c * (1 + Real.exp (-s)) ≤ c * (1 / c) := mul_le_mul_of_nonneg_left this hc.le
    _ = 1 := by field_simp

theorem sigmoid_le (s c : ℝ) (hc : 0 < c) (h : 1 / c - 1 ≤ Real.exp (-s)) :
    1 / (1 + Real.exp (-s)) ≤ c := by
  have hpos : 0 < 1 + Real.exp (-s) := by linarith [Real.exp_pos (-s)]
  rw [div_le_iff₀ hpos]
  have : 1 / c ≤ 1 + Real.exp (-s) := by linarith
  calc (1 : ℝ) = c * (1 / c) := by field_simp
    _ ≤ c * (1 + Real.exp (-s)) := mul_le_mul_of_nonneg_left this hc.le

theorem sigmoid_mono (s t : ℝ) (h : s ≤ t) :
    1 / (1 + Real.exp (-s)) ≤ 1 / (1 + Real.exp (-t)) := by
  have hs : 0 < 1 + Real.exp (-s) := by linarith [Real.exp_pos (-s)]
  have ht : 0 < 1 + Real.exp (-t) := by linarith [Real.exp_pos (-t)]
  apply one_div_le_one_div_of_le ht
  have : Real.exp (-t) ≤ Real.exp (-s) := Real.exp_le_exp.mpr (by linarith)
  linarith

theorem fixture_h1 : (0.5932 : ℝ) ≤ 1 / (1 + Real.exp (-0.3775)) ∧
    1 / (1 + Real.exp (-0.3775)) ≤ (0.5933 : ℝ) := by
  obtain ⟨lo, hi⟩ := exp_neg_bounds (-0.3775) (by norm_num) (by norm_num)
  constructor
  · apply sigmoid_ge _ _ (by norm_num)
    refine le_trans hi ?_
    norm_num
  · apply sigmoid_le _ _ (by norm_num)
    refine le_trans ?_ lo
    norm_num

theorem fixture_h2 : (0.5968 : ℝ) ≤ 1 / (1 + Real.exp (-0.3925)) ∧
    1 / (1 + Real.exp (-0.3925)) ≤ (0.5969 : ℝ) := by
  obtain ⟨lo, hi⟩ := exp_neg_bounds (-0.3925) (by norm_num) (by norm_num)
  constructor
  · apply sigmoid_ge _ _ (by norm_num)
    refine le_trans hi ?_
    norm_num
  · apply sigmoid_le _ _ (by norm_num)
    refine le_trans ?_ lo
    norm_num

theorem exp_neg_sq_le (s u : ℝ) (h : Real.exp (-(s / 2)) ≤ u) : Real.exp (-s) ≤ u ^ 2 := by
  have e : Real.exp (-s) = Real.exp (-(s / 2)) ^ 2 := by
    rw [sq, ← Real.exp_add]
    congr 1
    ring
  rw [e]
  exact pow_le_pow_left₀ (Real.exp_pos _).le h 2

theorem le_exp_neg_sq (s l : ℝ) (hl : 0 ≤ l) (h : l ≤ Real.exp (-(s / 2))) :
    l ^ 2 ≤ Real.exp (-s) := by
  have e : Real.exp (-s) = Real.exp (-(s / 2)) ^ 2 := by
    rw [sq, ← Real.exp_add]
    congr 1
    ring
  rw [e]
  exact pow_le_pow_left₀ hl h 2

theorem fixture_o1 (s : ℝ) (h1 : 1.1058 ≤ s) (h2 : s ≤ 1.106) :
    (0.7513 : ℝ) ≤ 1 / (1 + Real.exp (-s)) ∧ 1 / (1 + Real.exp (-s)) ≤ (0.7514 : ℝ) := by
  constructor
  · refine le_trans ?_ (sigmoid_mono _ _ h1)
    obtain ⟨lo, hi⟩ := exp_neg_bounds (-(1.1058 / 2)) (by norm_num) (by norm_num)
    apply sigmoid_ge _ _ (by norm_num)
    refine le_trans (exp_neg_sq_le _ _ hi) ?_
    norm_num
  · refine le_trans (sigmoid_mono _ _ h2) ?_
    obtain ⟨lo, hi⟩ := exp_neg_bounds (-(1.106 / 2)) (by norm_num) (by norm_num)
    apply sigmoid_le _ _ (by norm_num)
    refine le_trans ?_ (le_exp_neg_sq _ _ (by norm_num) lo)
    norm_num

theorem fixture_o2 (s : ℝ) (h1 : 1.2248 ≤ s) (h2 : s ≤ 1.225) :
    (0.7729 : ℝ) ≤ 1 / (1 + Real.exp (-s)) ∧ 1 / (1 + Real.exp (-s)) ≤ (0.7730 : ℝ) := by
  constructor
  · refine le_trans ?_ (sigmoid_mono _ _ h1)
    obtain ⟨lo, hi⟩ := exp_neg_bounds (-(1.2248 / 2)) (by norm_num) (by norm_num)
    apply sigmoid_ge _ _ (by norm_num)
    refine le_trans (exp_neg_sq_le _ _ hi) ?_
    norm_num
  · refine le_trans (sigmoid_mono _ _ h2) ?_
    obtain ⟨lo, hi⟩ := exp_neg_bounds (-(1.225 / 2)) (by norm_num) (by norm_num)
    apply sigmoid_le _ _ (by norm_num)
    refine le_trans ?_ (le_exp_neg_sq _ _ (by norm_num) lo)
    norm_num

theorem fixture_bias : NN_FLAG_SIGMOID &&& NN_FLAG_NO_BIAS = 0 := by decide

theorem fixture_hidden :
    layer_out (⟨Real.exp, Real.log⟩ : libm ℝ) fixture_mem fixture_layer0 (vec fixture_mem 0) 0
      = 1 / (1 + Real.exp (-0.3775)) ∧
    layer_out (⟨Real.exp, Real.log⟩ : libm ℝ) fixture_mem fixture_layer0 (vec fixture_mem 0) 1
      = 1 / (1 + Real.exp (-0.3925)) := by
  constructor <;>
  · simp only [layer_out, fixture_layer0, dense_output, act_sigmoid _ NN_FLAG_SIGMOID rfl,
      NN_ACT_SIGMOID, dense_presum, Finset.sum_range_succ, Finset.sum_range_zero, layer_w, load,
      vec, Option.map_some', Option.getD_some, if_pos fixture_bias]
    norm_num [fixture_mem]

theorem fixture_output (H : Nat → ℝ) :
    layer_out (⟨Real.exp, Real.log⟩ : libm ℝ) fixture_mem fixture_layer1 H 0
      = 1 / (1 + Real.exp (-(0.4 * H 0 + 0.45 * H 1 + 0.6))) ∧
    layer_out (⟨Real.exp, Real.log⟩ : libm ℝ) fixture_mem fixture_layer1 H 1
      = 1 / (1 + Real.exp (-(0.5 * H 0 + 0.55 * H 1 + 0.6))) := by
  constructor <;>
  · simp only [layer_out, fixture_layer1, dense_output, act_sigmoid _ NN_FLAG_SIGMOID rfl,
      NN_ACT_SIGMOID, dense_presum, Finset.sum_range_succ, Finset.sum_range_zero, layer_w, load,
      vec, Option.map_some', Option.getD_some, if_pos fixture_bias]
    norm_num [fixture_mem]
    ring_nf

theorem fixture_hidden_bounds :
    (0.5932 : ℝ) ≤ layer_out (⟨Real.exp, Real.log⟩ : libm ℝ) fixture_mem fixture_layer0
      (vec fixture_mem 0) 0 ∧
    layer_out (⟨Real.exp, Real.log⟩ : libm ℝ) fixture_mem fixture_layer0
      (vec fixture_mem 0) 0 ≤ (0.5933 : ℝ) ∧
    (0.5968 : ℝ) ≤ layer_out (⟨Real.exp, Real.log⟩ : libm ℝ) fixture_mem fixture_layer0
      (vec fixture_mem 0) 1 ∧
    layer_out (⟨Real.exp, Real.log⟩ : libm ℝ) fixture_mem fixture_layer0
      (vec fixture_mem 0) 1 ≤ (0.5969 : ℝ) := by
  rw [fixture_hidden.1, fixture_hidden.2]
  exact ⟨fixture_h1.1, fixture_h1.2, fixture_h2.1, fixture_h2.2⟩

theorem fixture_output_bounds (H : Nat → ℝ)
    (h0 : (0.5932 : ℝ) ≤ H 0 ∧ H 0 ≤ (0.5933 : ℝ))
    (h1 : (0.5968 : ℝ) ≤ H 1 ∧ H 1 ≤ (0.5969 : ℝ)) :
    (0.7513 : ℝ) ≤ layer_out (⟨Real.exp, Real.log⟩ : libm ℝ) fixture_mem fixture_layer1 H 0 ∧
    layer_out (⟨Real.exp, Real.log⟩ : libm ℝ) fixture_mem fixture_layer1 H 0 ≤ (0.7514 : ℝ) ∧
    (0.7729 : ℝ) ≤ layer_out (⟨Real.exp, Real.log⟩ : libm ℝ) fixture_mem fixture_layer1 H 1 ∧
    layer_out (⟨Real.exp, Real.log⟩ : libm ℝ) fixture_mem fixture_layer1 H 1 ≤ (0.7730 : ℝ) := by
  rw [(fixture_output H).1, (fixture_output H).2]
  have a := fixture_o1 (0.4 * H 0 + 0.45 * H 1 + 0.6) (by linarith [h0.1, h1.1])
    (by linarith [h0.2, h1.2])
  have b := fixture_o2 (0.5 * H 0 + 0.55 * H 1 + 0.6) (by linarith [h0.1, h1.1])
    (by linarith [h0.2, h1.2])
  exact ⟨a.1, a.2, b.1, b.2⟩

theorem nn_train_layers (L : libm α) (layers l1 : List nn_layer) (x y : Nat) (rate loss : α)
    (m m' : Mem α) (h : nn_train w L layers x y rate m = some (l1, loss, m')) :
    nn_bind_input layers x = some l1 := by
  unfold nn_train at h
  cases hb : nn_bind_input layers x with
  | none => rw [hb] at h; simp at h
  | some lb =>
    rw [hb] at h
    simp only [Option.bind_eq_bind, Option.some_bind, Option.bind_eq_some] at h
    obtain ⟨r, _, h2⟩ := h
    cases hr : r.1 with
    | zero => rw [hr] at h2; simp at h2
    | succ k =>
      rw [hr] at h2
      simp only [Option.bind_eq_bind, Option.bind_eq_some, Option.pure_def, Option.some.injEq,
        Prod.mk.injEq] at h2
      obtain ⟨_, _, _, _, _, _, h3, _⟩ := h2
      rw [h3]

theorem dact_sigmoid (o : α) : dact NN_FLAG_SIGMOID o = o * (1 - o) := by
  unfold dact
  rw [if_neg (by decide), if_neg (by decide), if_neg (by decide)]

theorem near_of_bounds (x lo hi : ℝ) (h1 : lo ≤ x) (h2 : x ≤ hi) :
    |x - (lo + hi) / 2| ≤ (hi - lo) / 2 := by
  rw [abs_le]
  constructor <;> linarith

theorem near_mul (a b a0 b0 ea eb : ℝ) (ha : |a - a0| ≤ ea) (hb : |b - b0| ≤ eb)
    (hA : |a0| ≤ 1) (hB : |b| ≤ 1) : |a * b - a0 * b0| ≤ ea + eb := by
  have e : a * b - a0 * b0 = (a - a0) * b + a0 * (b - b0) := by ring
  rw [e]
  have h1 : |(a - a0) * b| ≤ ea := by
    rw [abs_mul]
    calc |a - a0| * |b| ≤ |a - a0| * 1 := mul_le_mul_of_nonneg_left hB (abs_nonneg _)
      _ = |a - a0| := mul_one _
      _ ≤ ea := ha
  have h2 : |a0 * (b - b0)| ≤ eb := by
    rw [abs_mul]
    calc |a0| * |b - b0| ≤ 1 * |b - b0| := mul_le_mul_of_nonneg_right hA (abs_nonneg _)
      _ = |b - b0| := one_mul _
      _ ≤ eb := hb
  exact le_trans (abs_add _ _) (add_le_add h1 h2)

theorem unit_abs (x : ℝ) (h0 : 0 ≤ x) (h1 : x ≤ 1) : |x| ≤ 1 := by
  rw [abs_le]; constructor <;> linarith

theorem sig_deriv_near (o c e : ℝ) (ho : |o - c| ≤ e) (ho0 : 0 ≤ o) (ho1 : o ≤ 1)
    (hc0 : 0 ≤ c) (hc1 : c ≤ 1) : |o * (1 - o) - c * (1 - c)| ≤ e + e := by
  apply near_mul o (1 - o) c (1 - c) e e ho _ (unit_abs c hc0 hc1)
    (unit_abs (1 - o) (by linarith) (by linarith))
  have : 1 - o - (1 - c) = -(o - c) := by ring
  rw [this, abs_neg]
  exact ho

theorem sig_delta_near (y o c e : ℝ) (ho : |o - c| ≤ e) (ho0 : 0 ≤ o) (ho1 : o ≤ 1)
    (hc0 : 0 ≤ c) (hc1 : c ≤ 1) (hy0 : 0 ≤ y) (hy1 : y ≤ 1) :
    |(y - o) * (o * (1 - o)) - (y - c) * (c * (1 - c))| ≤ e + (e + e) := by
  apply near_mul (y - o) (o * (1 - o)) (y - c) (c * (1 - c)) e (e + e) _
    (sig_deriv_near o c e ho ho0 ho1 hc0 hc1)
  · rw [abs_le]; constructor <;> linarith
  · apply unit_abs
    · exact mul_nonneg ho0 (by linarith)
    · nlinarith
  · have : y - o - (y - c) = -(o - c) := by ring
    rw [this, abs_neg]
    exact ho

theorem unit_mul (a b : ℝ) (ha : |a| ≤ 1) (hb : |b| ≤ 1) : |a * b| ≤ 1 := by
  rw [abs_mul]
  calc |a| * |b| ≤ 1 * 1 := mul_le_mul ha hb (abs_nonneg _) (by norm_num)
    _ = 1 := one_mul _

theorem sig_delta_unit (y c : ℝ) (hc0 : 0 ≤ c) (hc1 : c ≤ 1) (hy0 : 0 ≤ y) (hy1 : y ≤ 1) :
    |(y - c) * (c * (1 - c))| ≤ 1 := by
  apply unit_mul
  · rw [abs_le]; constructor <;> linarith
  · apply unit_abs
    · exact mul_nonneg hc0 (by linarith)
    · nlinarith

/-- Bias update of a sigmoid output neuron, from bounds on its output `o`. -/
theorem out_bias_near (w y o t olo ohi : ℝ) (ho1 : olo ≤ o) (ho2 : o ≤ ohi)
    (h0 : 0 ≤ olo) (h1 : ohi ≤ 1) (hy0 : 0 ≤ y) (hy1 : y ≤ 1)
    (hn1 : t - 0.001 + 1 / 2 * (3 * ((ohi - olo) / 2)) ≤
      w + 1 / 2 * ((y - (olo + ohi) / 2) * ((olo + ohi) / 2 * (1 - (olo + ohi) / 2))))
    (hn2 : w + 1 / 2 * ((y - (olo + ohi) / 2) * ((olo + ohi) / 2 * (1 - (olo + ohi) / 2)))
      ≤ t + 0.001 - 1 / 2 * (3 * ((ohi - olo) / 2))) :
    |w + 1 / 2 * ((y - o) * (o * (1 - o))) - t| ≤ 0.001 := by
  have hD := sig_delta_near y o ((olo + ohi) / 2) ((ohi - olo) / 2)
    (near_of_bounds o olo ohi ho1 ho2) (by linarith) (by linarith) (by linarith) (by linarith)
    hy0 hy1
  have := abs_le.mp hD
  rw [abs_le]
  constructor <;> linarith [this.1, this.2]

/-- Weight update of a sigmoid output neuron, from bounds on its output `o` and on
the input `h` the weight multiplies. -/
theorem out_weight_near (w y o h t olo ohi hlo hhi : ℝ) (ho1 : olo ≤ o) (ho2 : o ≤ ohi)
    (hh1 : hlo ≤ h) (hh2 : h ≤ hhi)
    (h0 : 0 ≤ olo) (h1 : ohi ≤ 1) (g0 : 0 ≤ hlo) (g1 : hhi ≤ 1) (hy0 : 0 ≤ y) (hy1 : y ≤ 1)
    (hn1 : t - 0.001 + 1 / 2 * (3 * ((ohi - olo) / 2) + (hhi - hlo) / 2) ≤
      w + 1 / 2 * ((y - (olo + ohi) / 2) * ((olo + ohi) / 2 * (1 - (olo + ohi) / 2)))
        * ((hlo + hhi) / 2))
    (hn2 : w + 1 / 2 * ((y - (olo + ohi) / 2) * ((olo + ohi) / 2 * (1 - (olo + ohi) / 2)))
        * ((hlo + hhi) / 2)
      ≤ t + 0.001 - 1 / 2 * (3 * ((ohi - olo) / 2) + (hhi - hlo) / 2)) :
    |w + 1 / 2 * ((y - o) * (o * (1 - o))) * h - t| ≤ 0.001 := by
  have hD := sig_delta_near y o ((olo + ohi) / 2) ((ohi - olo) / 2)
    (near_of_bounds o olo ohi ho1 ho2) (by linarith) (by linarith) (by linarith) (by linarith)
    hy0 hy1
  have hP := near_mul ((y - o) * (o * (1 - o))) h
    ((y - (olo + ohi) / 2) * ((olo + ohi) / 2 * (1 - (olo + ohi) / 2))) ((hlo + hhi) / 2)
    _ _ hD (near_of_bounds h hlo hhi hh1 hh2)
    (sig_delta_unit y _ (by linarith) (by linarith) hy0 hy1)
    (unit_abs h (by linarith) (by linarith))
  have := abs_le.mp hP
  rw [abs_le]
  constructor <;> linarith [this.1, this.2]

/-- Error handed to a hidden neuron by two sigmoid output neurons, from bounds on
their outputs. -/
theorem hid_error_near (y0 y1 o0 o1 w0 w1 a0 b0 a1 b1 : ℝ)
    (p0 : a0 ≤ o0) (q0 : o0 ≤ b0) (p1 : a1 ≤ o1) (q1 : o1 ≤ b1)
    (ha0 : 0 ≤ a0) (hb0 : b0 ≤ 1) (ha1 : 0 ≤ a1) (hb1 : b1 ≤ 1)
    (hy00 : 0 ≤ y0) (hy01 : y0 ≤ 1) (hy10 : 0 ≤ y1) (hy11 : y1 ≤ 1)
    (hw0 : 0 ≤ w0) (hw1 : 0 ≤ w1) (hws : w0 + w1 ≤ 1) :
    |((y0 - o0) * (o0 * (1 - o0)) * w0 + (y1 - o1) * (o1 * (1 - o1)) * w1) -
      ((y0 - (a0 + b0) / 2) * ((a0 + b0) / 2 * (1 - (a0 + b0) / 2)) * w0 +
        (y1 - (a1 + b1) / 2) * ((a1 + b1) / 2 * (1 - (a1 + b1) / 2)) * w1)|
      ≤ 3 * ((b0 - a0) / 2) + 3 * ((b1 - a1) / 2) ∧
    |(y0 - (a0 + b0) / 2) * ((a0 + b0) / 2 * (1 - (a0 + b0) / 2)) * w0 +
        (y1 - (a1 + b1) / 2) * ((a1 + b1) / 2 * (1 - (a1 + b1) / 2)) * w1| ≤ 1 := by
  have hD0 := sig_delta_near y0 o0 ((a0 + b0) / 2) ((b0 - a0) / 2)
    (near_of_bounds o0 a0 b0 p0 q0) (by linarith) (by linarith) (by linarith) (by linarith)
    hy00 hy01
  have hD1 := sig_delta_near y1 o1 ((a1 + b1) / 2) ((b1 - a1) / 2)
    (near_of_bounds o1 a1 b1 p1 q1) (by linarith) (by linarith) (by linarith) (by linarith)
    hy10 hy11
  have hw0' : |w0| ≤ 1 := unit_abs w0 hw0 (by linarith)
  have hw1' : |w1| ≤ 1 := unit_abs w1 hw1 (by linarith)
  have hU0 := sig_delta_unit y0 ((a0 + b0) / 2) (by linarith) (by linarith) hy00 hy01
  have hU1 := sig_delta_unit y1 ((a1 + b1) / 2) (by linarith) (by linarith) hy10 hy11
  have hP0 := near_mul _ w0 _ w0 _ 0 hD0 (by simp) hU0 hw0'
  have hP1 := near_mul _ w1 _ w1 _ 0 hD1 (by simp) hU1 hw1'
  have e0 := abs_le.mp hP0
  have e1 := abs_le.mp hP1
  constructor
  · rw [abs_le]
    constructor <;> linarith [e0.1, e0.2, e1.1, e1.2]
  · have hA : |(y0 - (a0 + b0) / 2) * ((a0 + b0) / 2 * (1 - (a0 + b0) / 2)) * w0| ≤ w0 := by
      rw [abs_mul, abs_of_nonneg hw0]
      exact mul_le_of_le_one_left hw0 hU0
    have hB : |(y1 - (a1 + b1) / 2) * ((a1 + b1) / 2 * (1 - (a1 + b1) / 2)) * w1| ≤ w1 := by
      rw [abs_mul, abs_of_nonneg hw1]
      exact mul_le_of_le_one_left hw1 hU1
    exact le_trans (abs_add _ _) (by linarith)

/-- Weight update of a sigmoid hidden neuron with output `h` and propagated error
`E`, from approximations of both. -/
theorem hid_weight_near (w x t E Ec eE h hlo hhi : ℝ) (hE : |E - Ec| ≤ eE) (hEc : |Ec| ≤ 1)
    (hh1 : hlo ≤ h) (hh2 : h ≤ hhi) (g0 : 0 ≤ hlo) (g1 : hhi ≤ 1)
    (hx0 : 0 ≤ x) (hx1 : x ≤ 1)
    (hn1 : t - 0.001 + 1 / 2 * (eE + ((hhi - hlo) / 2 + (hhi - hlo) / 2)) ≤
      w + 1 / 2 * (Ec * ((hlo + hhi) / 2 * (1 - (hlo + hhi) / 2))) * x)
    (hn2 : w + 1 / 2 * (Ec * ((hlo + hhi) / 2 * (1 - (hlo + hhi) / 2))) * x
      ≤ t + 0.001 - 1 / 2 * (eE + ((hhi - hlo) / 2 + (hhi - hlo) / 2))) :
    |w + 1 / 2 * (E * (h * (1 - h))) * x - t| ≤ 0.001 := by
  have hd := sig_deriv_near h ((hlo + hhi) / 2) ((hhi - hlo) / 2)
    (near_of_bounds h hlo hhi hh1 hh2) (by linarith) (by linarith) (by linarith) (by linarith)
  have hu : |h * (1 - h)| ≤ 1 := by
    apply unit_abs
    · exact mul_nonneg (by linarith) (by linarith)
    · nlinarith
  have huc : |(hlo + hhi) / 2 * (1 - (hlo + hhi) / 2)| ≤ 1 := by
    apply unit_abs
    · exact mul_nonneg (by linarith) (by linarith)
    · nlinarith
  have hG := near_mul E (h * (1 - h)) Ec _ eE _ hE hd hEc hu
  have hGx := near_mul _ x _ x _ 0 hG (by simp) (unit_mul _ _ hEc huc) (unit_abs x hx0 hx1)
  have := abs_le.mp hGx
  rw [abs_le]
  constructor <;> linarith [this.1, this.2]

/-- Bias update of a sigmoid hidden neuron with output `h` and propagated error `E`. -/
theorem hid_bias_near (w t E Ec eE h hlo hhi : ℝ) (hE : |E - Ec| ≤ eE) (hEc : |Ec| ≤ 1)
    (hh1 : hlo ≤ h) (hh2 : h ≤ hhi) (g0 : 0 ≤ hlo) (g1 : hhi ≤ 1)
    (hn1 : t - 0.001 + 1 / 2 * (eE + ((hhi - hlo) / 2 + (hhi - hlo) / 2)) ≤
      w + 1 / 2 * (Ec * ((hlo + hhi) / 2 * (1 - (hlo + hhi) / 2))))
    (hn2 : w + 1 / 2 * (Ec * ((hlo + hhi) / 2 * (1 - (hlo + hhi) / 2)))
      ≤ t + 0.001 - 1 / 2 * (eE + ((hhi - hlo) / 2 + (hhi - hlo) / 2))) :
    |w + 1 / 2 * (E * (h * (1 - h))) - t| ≤ 0.001 := by
  have := hid_weight_near w 1 t E Ec eE h hlo hhi hE hEc hh1 hh2 g0 g1 (by norm_num) le_rfl
    (by rw [mul_one]; exact hn1) (by rw [mul_one]; exact hn2)
  rw [mul_one] at this
  exact this

/-- Numbers of `test_network_backward`: if every weight of the two fixture layers is
updated by the backpropagation formula from the fixture memory at rate `0.5`, the
twelve weights land within `0.001` of the values the test asserts. -/
theorem fixture_numbers (m' : Mem ℝ)
    (hw1 : ∀ i < fixture_layer1.output.len,
      (∀ j < fixture_layer1.input.len,
        m' (112 + (i * (fixture_layer1.input.len + 1) + j)) =
          fixture_mem (112 + (i * (fixture_layer1.input.len + 1) + j)) +
            0.5 *
              (net_error ⟨Real.exp, Real.log⟩ fixture_mem []
                  (layer_out ⟨Real.exp, Real.log⟩ fixture_mem fixture_layer1
                    (net_forward ⟨Real.exp, Real.log⟩ fixture_mem [fixture_layer0]
                      (vec fixture_mem 0)))
                  (vec fixture_mem 10) i *
                dact fixture_layer1.flags
                  (layer_out ⟨Real.exp, Real.log⟩ fixture_mem fixture_layer1
                    (net_forward ⟨Real.exp, Real.log⟩ fixture_mem [fixture_layer0]
                      (vec fixture_mem 0)) i)) *
              net_forward ⟨Real.exp, Real.log⟩ fixture_mem [fixture_layer0]
                (vec fixture_mem 0) j) ∧
      m' (112 + (i * (fixture_layer1.input.len + 1) + fixture_layer1.input.len)) =
        if fixture_layer1.flags &&& NN_FLAG_NO_BIAS = 0 then
          fixture_mem (112 + (i * (fixture_layer1.input.len + 1) + fixture_layer1.input.len)) +
            0.5 *
              (net_error ⟨Real.exp, Real.log⟩ fixture_mem []
                  (layer_out ⟨Real.exp, Real.log⟩ fixture_mem fixture_layer1
                    (net_forward ⟨Real.exp, Real.log⟩ fixture_mem [fixture_layer0]
                      (vec fixture_mem 0)))
                  (vec fixture_mem 10) i *
                dact fixture_layer1.flags
                  (layer_out ⟨Real.exp, Real.log⟩ fixture_mem fixture_layer1
                    (net_forward ⟨Real.exp, Real.log⟩ fixture_mem [fixture_layer0]
                      (vec fixture_mem 0)) i))
        else fixture_mem (112 + (i * (fixture_layer1.input.len + 1) + fixture_layer1.input.len)))
    (hw0 : ∀ i < fixture_layer0.output.len,
      (∀ j < fixture_layer0.input.len,
        m' (102 + (i * (fixture_layer0.input.len + 1) + j)) =
          fixture_mem (102 + (i * (fixture_layer0.input.len + 1) + j)) +
            0.5 *
              (net_error ⟨Real.exp, Real.log⟩ fixture_mem [fixture_layer1]
                  (layer_out ⟨Real.exp, Real.log⟩ fixture_mem fixture_layer0
                    (net_forward ⟨Real.exp, Real.log⟩ fixture_mem [] (vec fixture_mem 0)))
                  (vec fixture_mem 10) i *
                dact fixture_layer0.flags
                  (layer_out ⟨Real.exp, Real.log⟩ fixture_mem fixture_layer0
                    (net_forward ⟨Real.exp, Real.log⟩ fixture_mem [] (vec fixture_mem 0)) i)) *
              net_forward ⟨Real.exp, Real.log⟩ fixture_mem [] (vec fixture_mem 0) j) ∧
      m' (102 + (i * (fixture_layer0.input.len + 1) + fixture_layer0.input.len)) =
        if fixture_layer0.flags &&& NN_FLAG_NO_BIAS = 0 then
          fixture_mem (102 + (i * (fixture_layer0.input.len + 1) + fixture_layer0.input.len)) +
            0.5 *
              (net_error ⟨Real.exp, Real.log⟩ fixture_mem [fixture_layer1]
                  (layer_out ⟨Real.exp, Real.log⟩ fixture_mem fixture_layer0
                    (net_forward ⟨Real.exp, Real.log⟩ fixture_mem [] (vec fixture_mem 0)))
                  (vec fixture_mem 10) i *
                dact fixture_layer0.flags
                  (layer_out ⟨Real.exp, Real.log⟩ fixture_mem fixture_layer0
                    (net_forward ⟨Real.exp, Real.log⟩ fixture_mem [] (vec fixture_mem 0)) i))
        else fixture_mem (102 + (i * (fixture_layer0.input.len + 1) + fixture_layer0.input.len))) :
    (|m' 112 - 0.35891| ≤ 0.001 ∧ |m' 113 - 0.40866| ≤ 0.001 ∧ |m' 114 - 0.53075| ≤ 0.001 ∧
      |m' 115 - 0.5113| ≤ 0.001 ∧ |m' 116 - 0.5613| ≤ 0.001 ∧ |m' 117 - 0.61904| ≤ 0.001) ∧
    (|m' 102 - 0.14978| ≤ 0.001 ∧ |m' 103 - 0.19956| ≤ 0.001 ∧ |m' 104 - 0.34561| ≤ 0.001 ∧
      |m' 105 - 0.24975| ≤ 0.001 ∧ |m' 106 - 0.2995| ≤ 0.001 ∧ |m' 107 - 0.34502| ≤ 0.001) := by
  have hH := fixture_hidden_bounds
  have hO := fixture_output_bounds _ ⟨hH.1, hH.2.1⟩ ⟨hH.2.2.1, hH.2.2.2⟩
  simp only [net_forward, net_error] at hw1 hw0
  generalize hHd : layer_out (⟨Real.exp, Real.log⟩ : libm ℝ) fixture_mem fixture_layer0
    (vec fixture_mem 0) = H at hH hO hw1 hw0
  generalize hOd : layer_out (⟨Real.exp, Real.log⟩ : libm ℝ) fixture_mem fixture_layer1 H = O
    at hO hw1 hw0
  obtain ⟨hH0a, hH0b, hH1a, hH1b⟩ := hH
  obtain ⟨hO0a, hO0b, hO1a, hO1b⟩ := hO
  have a00 := (hw1 0 (by decide)).1 0 (by decide)
  have a01 := (hw1 0 (by decide)).1 1 (by decide)
  have a0b := (hw1 0 (by decide)).2
  have a10 := (hw1 1 (by decide)).1 0 (by decide)
  have a11 := (hw1 1 (by decide)).1 1 (by decide)
  have a1b := (hw1 1 (by decide)).2
  simp only [fixture_layer1, dact_sigmoid, vec, if_pos fixture_bias] at a00 a01 a0b a10 a11 a1b
  norm_num [fixture_mem] at a00 a01 a0b a10 a11 a1b
  have E0 := hid_error_near (1 / 100) (99 / 100) (O 0) (O 1) (2 / 5) (1 / 2)
    0.7513 0.7514 0.7729 0.7730 hO0a hO0b hO1a hO1b (by norm_num) (by norm_num) (by norm_num)
    (by norm_num) (by norm_num) (by norm_num) (by norm_num) (by norm_num) (by norm_num)
    (by norm_num) (by norm_num)
  have E1 := hid_error_near (1 / 100) (99 / 100) (O 0) (O 1) (9 / 20) (11 / 20)
    0.7513 0.7514 0.7729 0.7730 hO0a hO0b hO1a hO1b (by norm_num) (by norm_num) (by norm_num)
    (by norm_num) (by norm_num) (by norm_num) (by norm_num) (by norm_num) (by norm_num)
    (by norm_num) (by norm_num)
  have b00 := (hw0 0 (by decide)).1 0 (by decide)
  have b01 := (hw0 0 (by decide)).1 1 (by decide)
  have b0b := (hw0 0 (by decide)).2
  have b10 := (hw0 1 (by decide)).1 0 (by decide)
  have b11 := (hw0 1 (by decide)).1 1 (by decide)
  have b1b := (hw0 1 (by decide)).2
  simp only [fixture_layer0, fixture_layer1, dact_sigmoid, vec, dense_errors, layer_w, load,
    Option.map_some', Option.getD_some, Finset.sum_range_succ, Finset.sum_range_zero,
    if_pos fixture_bias] at b00 b01 b0b b10 b11 b1b
  norm_num [fixture_mem] at b00 b01 b0b b10 b11 b1b
  refine ⟨⟨?_, ?_, ?_, ?_, ?_, ?_⟩, ⟨?_, ?_, ?_, ?_, ?_, ?_⟩⟩
  · rw [a00]
    exact out_weight_near _ _ _ _ _ 0.7513 0.7514 0.5932 0.5933 hO0a hO0b hH0a hH0b
      (by norm_num) (by norm_num) (by norm_num) (by norm_num) (by norm_num) (by norm_num)
      (by norm_num) (by norm_num)
  · rw [a01]
    exact out_weight_near _ _ _ _ _ 0.7513 0.7514 0.5968 0.5969 hO0a hO0b hH1a hH1b
      (by norm_num) (by norm_num) (by norm_num) (by norm_num) (by norm_num) (by norm_num)
      (by norm_num) (by norm_num)
  · rw [a0b]
    exact out_bias_near _ _ _ _ 0.7513 0.7514 hO0a hO0b
      (by norm_num) (by norm_num) (by norm_num) (by norm_num) (by norm_num) (by norm_num)
  · rw [a10]
    exact out_weight_near _ _ _ _ _ 0.7729 0.7730 0.5932 0.5933 hO1a hO1b hH0a hH0b
      (by norm_num) (by norm_num) (by norm_num) (by norm_num) (by norm_num) (by norm_num)
      (by norm_num) (by norm_num)
  · rw [a11]
    exact out_weight_near _ _ _ _ _ 0.7729 0.7730 0.5968 0.5969 hO1a hO1b hH1a hH1b
      (by norm_num) (by norm_num) (by norm_num) (by norm_num) (by norm_num) (by norm_num)
      (by norm_num) (by norm_num)
  · rw [a1b]
    exact out_bias_near _ _ _ _ 0.7729 0.7730 hO1a hO1b
      (by norm_num) (by norm_num) (by norm_num) (by norm_num) (by norm_num) (by norm_num)
  · rw [b00]
    exact hid_weight_near _ _ _ _ _ _ _ 0.5932 0.5933 E0.1 E0.2 hH0a hH0b
      (by norm_num) (by norm_num) (by norm_num) (by norm_num) (by norm_num) (by norm_num)
  · rw [b01]
    exact hid_weight_near _ _ _ _ _ _ _ 0.5932 0.5933 E0.1 E0.2 hH0a hH0b
      (by norm_num) (by norm_num) (by norm_num) (by norm_num) (by norm_num) (by norm_num)
  · rw [b0b]
    exact hid_bias_near _ _ _ _ _ _ 0.5932 0.5933 E0.1 E0.2 hH0a hH0b
      (by norm_num) (by norm_num) (by norm_num) (by norm_num)
  · rw [b10]
    exact hid_weight_near _ _ _ _ _ _ _ 0.5968 0.5969 E1.1 E1.2 hH1a hH1b
      (by norm_num) (by norm_num) (by norm_num) (by norm_num) (by norm_num) (by norm_num)
  · rw [b11]
    exact hid_weight_near _ _ _ _ _ _ _ 0.5968 0.5969 E1.1 E1.2 hH1a hH1b
      (by norm_num) (by norm_num) (by norm_num) (by norm_num) (by norm_num) (by norm_num)
  · rw [b1b]
    exact hid_bias_near _ _ _ _ _ _ 0.5968 0.5969 E1.1 E1.2 hH1a hH1b
      (by norm_num) (by norm_num) (by norm_num) (by norm_num)

theorem fixture_bound : Bound 100 [fixture_layer0, fixture_layer1] 0 (some 0) := by
  simp [Bound, fixture_layer0, fixture_layer1, layer_size]

theorem fixture_bound_shaped : Shaped 2 [fixture_layer0, fixture_layer1] := by
  simp [Shaped, fixture_layer0, fixture_layer1]

/-- The forward pass of the fixture: `nn_predict` returns the output of the second
layer, within `0.001` of the two values the test asserts. -/
theorem fixture_predict :
    ∃ m1, nn_predict 64 (⟨Real.exp, Real.log⟩ : libm ℝ) fixture_laid 0 fixture_mem
        = some ([fixture_layer0, fixture_layer1, NN_EMPTY], some 110, m1) ∧
      (0.7513 ≤ m1 110 ∧ m1 110 ≤ 0.7514) ∧ (0.7729 ≤ m1 111 ∧ m1 111 ≤ 0.7730) := by
  obtain ⟨mf, p, _, hp, hlp, _, _, hval⟩ :=
    @predict_core ℝ _ 64 (⟨Real.exp, Real.log⟩ : libm ℝ) 100 0 2 NN_EMPTY [] fixture_laid
      fixture_layer0 [fixture_layer1] fixture_mem (by decide) rfl fixture_bound
      fixture_bound_shaped (by decide) (by decide)
  have e : p = 110 := (Option.some.inj hlp).symm
  subst e
  have hH := fixture_hidden_bounds
  have hO := fixture_output_bounds _ ⟨hH.1, hH.2.1⟩ ⟨hH.2.2.1, hH.2.2.2⟩
  have v0 := hval 0 (by decide)
  have v1 := hval 1 (by decide)
  simp only [net_forward] at v0 v1
  refine ⟨mf, hp, ?_, ?_⟩
  · have : mf 110 = _ := v0
    rw [this]
    exact ⟨hO.1, hO.2.1⟩
  · have : mf 111 = _ := v1
    rw [this]
    exact ⟨hO.2.2.1, hO.2.2.2⟩

theorem nn_predict_layers (L : libm α) (layers l1 : List nn_layer) (x : Nat) (p : Ptr)
    (m m' : Mem α) (h : nn_predict w L layers x m = some (l1, p, m')) :
    nn_bind_input layers x = some l1 := by
  unfold nn_predict at h
  cases hb : nn_bind_input layers x with
  | none => rw [hb] at h; simp at h
  | some lb =>
    rw [hb] at h
    simp only [Option.bind_eq_bind, Option.some_bind, Option.bind_eq_some] at h
    obtain ⟨r, _, h2⟩ := h
    cases hr : r.1 with
    | zero => rw [hr] at h2; simp at h2
    | succ k =>
      rw [hr] at h2
      simp only [Option.bind_eq_bind, Option.bind_eq_some, Option.pure_def, Option.some.injEq,
        Prod.mk.injEq] at h2
      obtain ⟨_, _, h3, _⟩ := h2
      rw [h3]

/-- Witness of C9 at the fixture of `test_network_backward`: the hypotheses hold, and
`nn_predict` returns the second layer's output, within `0.001` of the values the
test asserts, again on a second call. -/
theorem nn_predict_idempotent_witness :
    Shaped 2 fixture_decl ∧ fixture_decl ≠ [] ∧ NN_LAYER_EMPTY 64 NN_EMPTY = true ∧
    nn_init 64 (fixture_decl ++ NN_EMPTY :: []) 100 4096 = some (fixture_laid, 88) ∧
    88 ≤ 4096 ∧
    (total_size fixture_decl + last_output_len 2 fixture_decl) * sizeof_float < 2 ^ 64 ∧
    (0 + 2 ≤ 100 ∨ 100 + 4096 / sizeof_float ≤ 0) ∧
    ∃ layers1 m1 m2,
      nn_predict 64 (⟨Real.exp, Real.log⟩ : libm ℝ) fixture_laid 0 fixture_mem
        = some (layers1, some 110, m1) ∧
      |m1 110 - 0.75136507| ≤ 0.001 ∧ |m1 111 - 0.772928465| ≤ 0.001 ∧
      nn_predict 64 (⟨Real.exp, Real.log⟩ : libm ℝ) layers1 0 m1 = some (layers1, some 110, m2) ∧
      m2 110 = m1 110 ∧ m2 111 = m1 111 := by
  obtain ⟨layers1, p, m1, hp, _, _, _, ⟨m2, hp2, h2⟩, _⟩ :=
    nn_predict_idempotent 64 ⟨Real.exp, Real.log⟩ fixture_decl NN_EMPTY [] 100 4096 0 2
      fixture_laid 88 fixture_mem fixture_shaped (by decide) (by decide) fixture_init
      (by decide) (by decide) (by decide)
  obtain ⟨m1', hp', b0, b1⟩ := fixture_predict
  rw [hp'] at hp
  simp only [Option.some.injEq, Prod.mk.injEq] at hp
  obtain ⟨e1, e2, e3⟩ := hp
  subst e1 e2 e3
  refine ⟨fixture_shaped, by decide, by decide, fixture_init, by decide, by decide, by decide,
    _, m1', m2, hp', ?_, ?_, hp2, h2 0 (by decide), h2 1 (by decide)⟩
  · rw [abs_le]; constructor <;> linarith [b0.1, b0.2]
  · rw [abs_le]; constructor <;> linarith [b1.1, b1.2]

/-- Witness of C6 at the fixture of `test_network_backward`: the hypotheses hold, and
`nn_train` returns, at every rate, one loss within `0.001` of the value the test
asserts. -/
theorem nn_train_loss_witness :
    Shaped 2 fixture_decl ∧ fixture_decl ≠ [] ∧ NN_LAYER_EMPTY 64 NN_EMPTY = true ∧
    nn_init 64 (fixture_decl ++ NN_EMPTY :: []) 100 4096 = some (fixture_laid, 88) ∧
    88 ≤ 4096 ∧
    (total_size fixture_decl + last_output_len 2 fixture_decl) * sizeof_float < 2 ^ 64 ∧
    (0 + 2 ≤ 100 ∨ 100 + 4096 / sizeof_float ≤ 0) ∧
    (10 + last_output_len 2 fixture_decl ≤ 100 ∨ 100 + 4096 / sizeof_float ≤ 10) ∧
    ∃ layers1 loss, |loss - 0.298371109| ≤ 0.001 ∧
      ∀ rate : ℝ, ∃ m',
        nn_train 64 ⟨Real.exp, Real.log⟩ fixture_laid 0 10 rate fixture_mem
          = some (layers1, loss, m') := by
  obtain ⟨layers1, p, mp, loss, hp, hloss, hrate⟩ :=
    nn_train_loss 64 ⟨Real.exp, Real.log⟩ fixture_decl NN_EMPTY [] 100 4096 0 10 2
      fixture_laid 88 fixture_mem fixture_shaped (by decide) (by decide) fixture_init
      (by decide) (by decide) (by decide) (by decide)
  obtain ⟨m1', hp', b0, b1⟩ := fixture_predict
  rw [hp'] at hp
  simp only [Option.some.injEq, Prod.mk.injEq] at hp
  obtain ⟨e1, e2, e3⟩ := hp
  subst e1 e2 e3
  have hn : last_output_len 2 fixture_decl = 2 := by decide
  rw [hn] at hloss
  simp only [Finset.sum_range_succ, Finset.sum_range_zero] at hloss
  norm_num [fixture_mem] at hloss
  refine ⟨fixture_shaped, by decide, by decide, fixture_init, by decide, by decide, by decide, by decide,
    [fixture_layer0, fixture_layer1, NN_EMPTY], loss, ?_, ?_⟩
  · rw [hloss, abs_le]
    constructor <;> nlinarith [b0.1, b0.2, b1.1, b1.2]
  · intro rate
    obtain ⟨m', _, _, _, _, h, _⟩ := hrate rate
    exact ⟨m', h⟩

/-- Witness of C7 at the fixture of `test_network_backward`: the hypotheses hold, and
`nn_train` at rate `0.5` leaves the twelve weights within `0.001` of the values the
test asserts. -/
theorem nn_train_backprop_witness :
    Shaped 2 fixture_decl ∧ fixture_decl ≠ [] ∧ NN_LAYER_EMPTY 64 NN_EMPTY = true ∧
    nn_init 64 (fixture_decl ++ NN_EMPTY :: []) 100 4096 = some (fixture_laid, 88) ∧
    88 ≤ 4096 ∧
    (total_size fixture_decl + last_output_len 2 fixture_decl) * sizeof_float < 2 ^ 64 ∧
    (0 + 2 ≤ 100 ∨ 100 + 4096 / sizeof_float ≤ 0) ∧
    (10 + last_output_len 2 fixture_decl ≤ 100 ∨ 100 + 4096 / sizeof_float ≤ 10) ∧
    ∃ layers1 loss m',
      nn_train 64 (⟨Real.exp, Real.log⟩ : libm ℝ) fixture_laid 0 10 0.5 fixture_mem
        = some (layers1, loss, m') ∧
      (|m' 112 - 0.35891| ≤ 0.001 ∧ |m' 113 - 0.40866| ≤ 0.001 ∧ |m' 114 - 0.53075| ≤ 0.001 ∧
        |m' 115 - 0.5113| ≤ 0.001 ∧ |m' 116 - 0.5613| ≤ 0.001 ∧ |m' 117 - 0.61904| ≤ 0.001) ∧
      (|m' 102 - 0.14978| ≤ 0.001 ∧ |m' 103 - 0.19956| ≤ 0.001 ∧ |m' 104 - 0.34561| ≤ 0.001 ∧
        |m' 105 - 0.24975| ≤ 0.001 ∧ |m' 106 - 0.2995| ≤ 0.001 ∧ |m' 107 - 0.34502| ≤ 0.001) := by
  obtain ⟨layers1, loss, m', htrain, hw⟩ :=
    nn_train_backprop 64 ⟨Real.exp, Real.log⟩ fixture_decl NN_EMPTY [] 100 4096 0 10 2
      fixture_laid 88 0.5 fixture_mem fixture_shaped (by decide) (by decide) fixture_init
      (by decide) (by decide) (by decide) (by decide)
  have hl : some layers1 = some [fixture_layer0, fixture_layer1, NN_EMPTY] :=
    (nn_train_layers _ _ _ _ _ _ _ _ _ htrain).symm.trans rfl
  have hl' := Option.some.inj hl
  subst hl'
  obtain ⟨pw1, hpw1, hw1⟩ := hw [fixture_layer0] fixture_layer1 [] rfl
  have e1 : pw1 = 112 := (Option.some.inj hpw1).symm
  subst e1
  obtain ⟨pw0, hpw0, hw0⟩ := hw [] fixture_layer0 [fixture_layer1] rfl
  have e0 : pw0 = 102 := (Option.some.inj hpw0).symm
  subst e0
  exact ⟨fixture_shaped, by decide, by decide, fixture_init, by decide, by decide, by decide, by decide,
    _, loss, m', htrain, fixture_numbers m' hw1 hw0⟩

theorem nn_init_layers_length (mem vec_len : Nat) (ds : List nn_layer) :
    ∀ (e : Nat) (p : Ptr), (nn_init_layers w mem vec_len ds e p).length = ds.length := by
  induction ds with
  | nil => intro e p; rfl
  | cons d ds ih =>
    intro e p
    simp only [nn_init_layers, List.length_cons, ih]

theorem nn_init_layer_regions (mem vec_len : Nat) (l : nn_layer) (e : Nat) (p : Ptr) :
    (nn_init_layer w mem vec_len l e p).1.output =
      (if size_t w (e + l.output.len) < vec_len then { l.output with data := some (mem + e) }
        else l.output) ∧
    (nn_init_layer w mem vec_len l e p).1.weights =
      (if size_t w (size_t w (e + l.output.len) + l.weights.len) < vec_len then
        { l.weights with data := some (mem + size_t w (e + l.output.len)) } else l.weights) ∧
    (nn_init_layer w mem vec_len l e p).1.errors =
      (if size_t w (size_t w (size_t w (e + l.output.len) + l.weights.len) + l.errors.len)
          < vec_len then
        { l.errors with
          data := some (mem + size_t w (size_t w (e + l.output.len) + l.weights.len)) }
        else l.errors) ∧
    (nn_init_layer w mem vec_len l e p).1.cache =
      (if size_t w (size_t w (size_t w (size_t w (e + l.output.len) + l.weights.len)
          + l.errors.len) + l.cache.len) < vec_len then
        { l.cache with
          data := some (mem + size_t w (size_t w (size_t w (e + l.output.len) + l.weights.len)
            + l.errors.len)) }
        else l.cache) := by
  unfold nn_init_layer
  simp only []
  refine ⟨?_, ?_, ?_, ?_⟩ <;> split_ifs <;> rfl

theorem nn_init_layer_input (mem vec_len : Nat) (l : nn_layer) (e : Nat) (p : Ptr) :
    (nn_init_layer w mem vec_len l e p).1.input = { l.input with data := p } ∧
    (nn_init_layer w mem vec_len l e p).1.flags = l.flags ∧
    (nn_init_layer w mem vec_len l e p).2.2 =
      (if size_t w (e + l.output.len) < vec_len then some (mem + e) else p) := by
  unfold nn_init_layer
  simp only []
  refine ⟨?_, ?_, ?_⟩ <;> split_ifs <;> rfl

theorem nn_init_layer_expected_raw (mem vec_len : Nat) (l : nn_layer) (e : Nat) (p : Ptr) :
    (nn_init_layer w mem vec_len l e p).2.1 =
      size_t w (size_t w (size_t w (size_t w (e + l.output.len) + l.weights.len)
        + l.errors.len) + l.cache.len) := by
  unfold nn_init_layer
  simp only []
  split_ifs <;> rfl

theorem regions_init (mem vec_len : Nat) (ds : List nn_layer) :
    ∀ (e : Nat) (p : Ptr),
      regions (nn_init_layers w mem vec_len ds e p)
        = bind_regions w mem vec_len (regions ds) e := by
  induction ds with
  | nil => intro e p; rfl
  | cons d ds ih =>
    intro e p
    obtain ⟨h1, h2, h3, h4⟩ := @nn_init_layer_regions w mem vec_len d e p
    simp only [nn_init_layers, regions, bind_regions, ih, nn_init_layer_expected_raw, h1, h2, h3,
      h4]

theorem region_offset_zero (rs : List nn_vec) : region_offset rs 0 = 0 := by
  simp [region_offset]

theorem region_offset_succ (v : nn_vec) (vs : List nn_vec) (k : Nat) :
    region_offset (v :: vs) (k + 1) = v.len + region_offset vs k := by
  simp [region_offset]

theorem bind_regions_getElem (mem vec_len : Nat) (vs : List nn_vec) :
    ∀ (e k : Nat), e < 2 ^ w → (bind_regions w mem vec_len vs e)[k]? =
      (vs[k]?).map (fun v =>
        if size_t w (e + region_offset vs k + v.len) < vec_len then
          { v with data := some (mem + size_t w (e + region_offset vs k)) } else v) := by
  induction vs with
  | nil => intro e k _; simp [bind_regions]
  | cons v vs ih =>
    intro e k he
    cases k with
    | zero => simp [bind_regions, region_offset_zero, size_t_of_lt w e he]
    | succ k =>
      simp only [bind_regions, List.getElem?_cons_succ, ih _ _ (size_t_lt w _), region_offset_succ,
        Nat.add_assoc, size_t_add_left]

theorem region_offset_mono (rs : List nn_vec) :
    ∀ (k1 k2 : Nat) (r : nn_vec), k1 < k2 → rs[k1]? = some r →
      region_offset rs k1 + r.len ≤ region_offset rs k2 := by
  induction rs with
  | nil => intro k1 k2 r _ h; simp at h
  | cons v vs ih =>
    intro k1 k2 r hk h
    cases k2 with
    | zero => omega
    | succ k2 =>
      cases k1 with
      | zero =>
        simp only [List.getElem?_cons_zero, Option.some.injEq] at h
        subst h
        rw [region_offset_zero, region_offset_succ]
        omega
      | succ k1 =>
        simp only [List.getElem?_cons_succ] at h
        have := ih k1 k2 r (by omega) h
        rw [region_offset_succ, region_offset_succ]
        omega

theorem regions_getElem (ls : List nn_layer) :
    ∀ (i : Nat) (l : nn_layer), ls[i]? = some l →
      (regions ls)[4 * i]? = some l.output ∧ (regions ls)[4 * i + 1]? = some l.weights ∧
      (regions ls)[4 * i + 2]? = some l.errors ∧ (regions ls)[4 * i + 3]? = some l.cache := by
  induction ls with
  | nil => intro i l h; simp at h
  | cons d ds ih =>
    intro i l h
    cases i with
    | zero =>
      simp only [List.getElem?_cons_zero, Option.some.injEq] at h
      subst h
      simp [regions]
    | succ i =>
      simp only [List.getElem?_cons_succ] at h
      obtain ⟨h0, h1, h2, h3⟩ := ih i l h
      have e0 : (regions (d :: ds))[4 * (i + 1)]? = (regions ds)[4 * i]? :=
        show (regions (d :: ds))[4 * i + 1 + 1 + 1 + 1]? = _ by
          simp only [regions, List.getElem?_cons_succ]
      have e1 : (regions (d :: ds))[4 * (i + 1) + 1]? = (regions ds)[4 * i + 1]? :=
        show (regions (d :: ds))[4 * i + 1 + 1 + 1 + 1 + 1]? = _ by
          simp only [regions, List.getElem?_cons_succ]
      have e2 : (regions (d :: ds))[4 * (i + 1) + 2]? = (regions ds)[4 * i + 2]? :=
        show (regions (d :: ds))[4 * i + 2 + 1 + 1 + 1 + 1]? = _ by
          simp only [regions, List.getElem?_cons_succ]
      have e3 : (regions (d :: ds))[4 * (i + 1) + 3]? = (regions ds)[4 * i + 3]? :=
        show (regions (d :: ds))[4 * i + 3 + 1 + 1 + 1 + 1]? = _ by
          simp only [regions, List.getElem?_cons_succ]
      rw [e0, e1, e2, e3]
      exact ⟨h0, h1, h2, h3⟩

theorem regions_length (ls : List nn_layer) : (regions ls).length = 4 * ls.length := by
  induction ls with
  | nil => rfl
  | cons d ds ih => simp only [regions, List.length_cons, ih]; omega

theorem region_offset_total (ls : List nn_layer) :
    region_offset (regions ls) (4 * ls.length) = total_size ls := by
  induction ls with
  | nil => simp [region_offset, total_size, regions]
  | cons d ds ih =>
    have e0 : 4 * (d :: ds).length = 4 * ds.length + 1 + 1 + 1 + 1 := by
      simp only [List.length_cons]; omega
    rw [e0]
    simp only [regions, region_offset_succ, ih, total_size_cons, layer_size]
    omega

theorem pos_of_not_empty (l : nn_layer) (h : NN_LAYER_EMPTY w l = false) :
    0 < l.input.len ∧ 0 < l.output.len := by
  simp only [NN_LAYER_EMPTY, beq_eq_false_iff_ne, ne_eq] at h
  have h0 : l.input.len * l.output.len ≠ 0 := by
    intro h0
    apply h
    rw [h0]
    exact Nat.zero_mod _
  have := Nat.pos_of_ne_zero h0
  constructor
  · exact Nat.pos_of_ne_zero (fun hz => h0 (by rw [hz, Nat.zero_mul]))
  · exact Nat.pos_of_ne_zero (fun hz => h0 (by rw [hz, Nat.mul_zero]))

theorem last_output_pos : ∀ (ds : List nn_layer) (n0 : Nat), ds ≠ [] →
    (∀ d ∈ ds, NN_LAYER_EMPTY w d = false) → 0 < last_output_len n0 ds := by
  intro ds
  induction ds with
  | nil => intro n0 h _; exact absurd rfl h
  | cons d ds ih =>
    intro n0 _ hds
    cases ds with
    | nil => exact (pos_of_not_empty d (hds d (List.mem_cons_self _ _))).2
    | cons d' ds' =>
      rw [last_output_len]
      exact ih _ (List.cons_ne_nil _ _) (fun x hx => hds x (List.mem_cons_of_mem _ hx))

theorem bound_regions_range (mem : Nat) (ls : List nn_layer) :
    ∀ (off : Nat) (prev : Ptr), Bound mem ls off prev → ∀ l ∈ ls,
      ∃ po pw pe pc, l.output.data = some po ∧ l.weights.data = some pw ∧
        l.errors.data = some pe ∧ l.cache.data = some pc ∧
        mem + off ≤ po ∧ po + l.output.len = pw ∧ pw + l.weights.len = pe ∧
        pe + l.errors.len = pc ∧ pc + l.cache.len ≤ mem + off + total_size ls := by
  induction ls with
  | nil => intro off prev _ l hl; cases hl
  | cons d ds ih =>
    intro off prev hb l hl
    obtain ⟨_, ho, hw, he, hc, hrest⟩ := hb
    rw [total_size_cons]
    rcases List.mem_cons.mp hl with h | h
    · subst h
      refine ⟨_, _, _, _, ho, hw, he, hc, le_rfl, rfl, rfl, rfl, ?_⟩
      unfold layer_size
      omega
    · obtain ⟨po, pw, pe, pc, h1, h2, h3, h4, h5, h6, h7, h8, h9⟩ := ih _ _ hrest l h
      exact ⟨po, pw, pe, pc, h1, h2, h3, h4, by omega, h6, h7, h8, by omega⟩

theorem bound_chain (mem : Nat) (ls : List nn_layer) :
    ∀ (off : Nat) (prev : Ptr), Bound mem ls off prev → ∀ (i : Nat) (li lj : nn_layer),
      ls[i]? = some li → ls[i + 1]? = some lj →
      lj.input.data = li.output.data ∧ ∃ p, li.output.data = some p := by
  induction ls with
  | nil => intro off prev _ i li lj h; simp at h
  | cons d ds ih =>
    intro off prev hb i li lj hi hj
    obtain ⟨_, ho, _, _, _, hrest⟩ := hb
    cases i with
    | zero =>
      simp only [List.getElem?_cons_zero, Option.some.injEq] at hi
      subst hi
      cases ds with
      | nil => simp at hj
      | cons d' ds' =>
        simp only [Nat.zero_add, List.getElem?_cons_succ, List.getElem?_cons_zero,
          Option.some.injEq] at hj
        subst hj
        exact ⟨hrest.1.trans ho.symm, _, ho⟩
    | succ i =>
      simp only [List.getElem?_cons_succ] at hi hj
      exact ih _ _ hrest i li lj hi hj

theorem nn_init_capacity (ds : List nn_layer) (s : nn_layer) (tl : List nn_layer)
    (mem memsz : Nat) (layers : List nn_layer) (sz : Nat)
    (hne : ds ≠ []) (hds : ∀ d ∈ ds, NN_LAYER_EMPTY w d = false) (hs : NN_LAYER_EMPTY w s = true)
    (hinit : nn_init w (ds ++ s :: tl) mem memsz = some (layers, sz)) (hsz : sz ≤ memsz)
    (hfit : (total_size ds + last_output_len 0 ds) * sizeof_float < 2 ^ w) :
    layers = nn_init_layers w mem (memsz / sizeof_float) ds 0 none ++ s :: tl ∧
    0 < last_output_len 0 ds ∧
    total_size ds + last_output_len 0 ds ≤ memsz / sizeof_float ∧
    Bound mem (nn_init_layers w mem (memsz / sizeof_float) ds 0 none) 0 none ∧
    total_size (nn_init_layers w mem (memsz / sizeof_float) ds 0 none) = total_size ds ∧
    last_output_len 0 (nn_init_layers w mem (memsz / sizeof_float) ds 0 none)
      = last_output_len 0 ds ∧
    (nn_init_layers w mem (memsz / sizeof_float) ds 0 none).length = ds.length := by
  rw [nn_init_eq ds s tl mem memsz hds hs, size_t_of_lt w _ hfit] at hinit
  simp only [Option.some.injEq, Prod.mk.injEq] at hinit
  obtain ⟨h1, h2⟩ := hinit
  have hpos := last_output_pos ds 0 hne hds
  have hcap : total_size ds + last_output_len 0 ds ≤ memsz / sizeof_float := by
    simp only [sizeof_float] at h2 ⊢
    omega
  have htw : total_size ds < 2 ^ w := by
    simp only [sizeof_float] at hfit
    omega
  obtain ⟨hb, _, ht, hl, hlen⟩ := @nn_init_layers_bound w mem (memsz / sizeof_float) ds 0 none 0
    (by omega) (by omega)
  exact ⟨h1.symm, hpos, hcap, hb, ht, hl, hlen⟩

theorem region_offset_step (rs : List nn_vec) :
    ∀ (k : Nat) (r : nn_vec), rs[k]? = some r →
      region_offset rs (k + 1) = region_offset rs k + r.len := by
  induction rs with
  | nil => intro k r h; simp at h
  | cons v vs ih =>
    intro k r h
    cases k with
    | zero =>
      simp only [List.getElem?_cons_zero, Option.some.injEq] at h
      subst h
      rw [region_offset_succ, region_offset_zero, region_offset_zero]
      omega
    | succ k =>
      simp only [List.getElem?_cons_succ] at h
      rw [region_offset_succ, region_offset_succ, ih k r h]
      omega

theorem region_offset_le (rs : List nn_vec) :
    ∀ (k : Nat), region_offset rs k ≤ region_offset rs rs.length := by
  induction rs with
  | nil => intro k; simp [region_offset]
  | cons v vs ih =>
    intro k
    cases k with
    | zero => rw [region_offset_zero]; exact Nat.zero_le _
    | succ k =>
      rw [List.length_cons, region_offset_succ, region_offset_succ]
      exact Nat.add_le_add_left (ih k) _

theorem region_end_le_total (ds : List nn_layer) (k : Nat) (d : nn_vec)
    (h : (regions ds)[k]? = some d) :
    region_offset (regions ds) k + d.len ≤ total_size ds := by
  rw [← region_offset_step _ k d h, ← region_offset_total ds, ← regions_length]
  exact region_offset_le _ _

theorem forward_rows_some (l : nn_layer) (pin pout pw : Nat)
    (hin : l.input.data = some pin) (hout : l.output.data = some pout)
    (hw : l.weights.data = some pw) :
    ∀ (k : Nat) (m : Mem α), ∃ m', nn_dense_forward_rows l k m = some m' := by
  intro k
  induction k with
  | zero => intro m; exact ⟨m, rfl⟩
  | succ k ih =>
    intro m
    obtain ⟨m1, h1⟩ := ih m
    simp only [nn_dense_forward_rows, h1, forward_sum_eq l m1 pin pw k hin hw, load, store, hw,
      hout, Option.bind_eq_bind, Option.some_bind, Option.map_some', Option.pure_def]
    split_ifs <;> exact ⟨_, rfl⟩

theorem dense_forward_some (L : libm α) (l : nn_layer) (t : Int) (m : Mem α) (hl : wired l) :
    ∃ m', nn_dense_forward L l t m = some m' := by
  obtain ⟨⟨pin, hin⟩, ⟨pout, hout⟩, ⟨pw, hw⟩, _, _⟩ := hl
  obtain ⟨m1, h1⟩ := forward_rows_some l pin pout pw hin hout hw l.output.len m
  simp only [nn_dense_forward, h1, Option.bind_eq_bind, Option.some_bind]
  split_ifs
  · exact ⟨_, act_loop_eq l.output _ pout hout m1 _⟩
  · exact ⟨_, act_loop_eq l.output _ pout hout m1 _⟩
  · exact ⟨_, act_loop_eq l.output _ pout hout m1 _⟩
  · exact ⟨_, act_loop_eq l.output _ pout hout m1 _⟩
  · exact ⟨_, rfl⟩

theorem backward_errors_some (L : libm α) (l : nn_layer) (pe pout pw perr : Nat)
    (hout : l.output.data = some pout) (hw : l.weights.data = some pw)
    (herr : l.errors.data = some perr) :
    ∀ (k : Nat) (m : Mem α), ∃ m', nn_dense_backward_errors L l (some pe) k m = some m' := by
  intro k
  induction k with
  | zero => intro m; exact ⟨m, rfl⟩
  | succ k ih =>
    intro m
    obtain ⟨m1, h1⟩ := ih m
    simp [nn_dense_backward_errors, h1, backward_errsum_eq L l m1 pe pout pw k hout hw, store,
      herr]

theorem backward_row_some (l : nn_layer) (pe pin pw : Nat) (rate dsigm : α) (i : Nat)
    (hin : l.input.data = some pin) (hw : l.weights.data = some pw) :
    ∀ (k : Nat) (m : Mem α), ∃ m', nn_dense_backward_row l (some pe) rate dsigm i k m = some m' := by
  intro k
  induction k with
  | zero => intro m; exact ⟨m, rfl⟩
  | succ k ih =>
    intro m
    obtain ⟨m1, h1⟩ := ih m
    simp [nn_dense_backward_row, h1, load, store, hin, hw]

theorem backward_update_some (L : libm α) (l : nn_layer) (pe pin pout pw : Nat) (rate : α)
    (hin : l.input.data = some pin) (hout : l.output.data = some pout)
    (hw : l.weights.data = some pw) :
    ∀ (k : Nat) (m : Mem α),
      ∃ m', nn_dense_backward_update L l (some pe) rate k m = some m' := by
  intro k
  induction k with
  | zero => intro m; exact ⟨m, rfl⟩
  | succ k ih =>
    intro m
    obtain ⟨m1, h1⟩ := ih m
    obtain ⟨m2, h2⟩ := backward_row_some l pe pin pw rate (dact l.flags (m1 (pout + k))) k
      hin hw l.input.len m1
    simp only [nn_dense_backward_update, h1, backward_dact_eq L l pout hout m1 k, h2, load,
      store, hw, Option.bind_eq_bind, Option.some_bind, Option.map_some', Option.pure_def]
    split_ifs <;> exact ⟨_, rfl⟩

theorem dense_backward_some (L : libm α) (l : nn_layer) (pe : Nat) (rate : α) (m : Mem α)
    (hl : wired l) : ∃ m', nn_dense_backward L l (some pe) rate m = some m' := by
  obtain ⟨⟨pin, hin⟩, ⟨pout, hout⟩, ⟨pw, hw⟩, ⟨perr, herr⟩, _⟩ := hl
  obtain ⟨m1, h1⟩ := backward_errors_some L l pe pout pw perr hout hw herr l.input.len m
  obtain ⟨m2, h2⟩ := backward_update_some L l pe pin pout pw rate hin hout hw l.output.len m1
  exact ⟨m2, by simp only [nn_dense_backward, h1, Option.bind_eq_bind, Option.some_bind, h2]⟩

theorem train_error_some (l : nn_layer) (pe y po : Nat) (hout : l.output.data = some po) :
    ∀ (k : Nat) (m : Mem α), ∃ r, nn_train_error l (some pe) y k m = some r := by
  intro k
  induction k with
  | zero => intro m; exact ⟨_, rfl⟩
  | succ k ih =>
    intro m
    obtain ⟨r, h1⟩ := ih m
    simp [nn_train_error, h1, load, store, hout]

theorem forward_loop_some (L : libm α) (s : nn_layer) (tl : List nn_layer)
    (hs : NN_LAYER_EMPTY w s = true) (ls : List nn_layer) :
    ∀ (m : Mem α), (∀ l ∈ ls, wired l) → (∀ l ∈ ls, NN_LAYER_EMPTY w l = false) →
      ∃ mf, nn_forward_loop w L (ls ++ s :: tl) m = some (ls.length, mf) := by
  induction ls with
  | nil =>
    intro m _ _
    exact ⟨m, by simp [nn_forward_loop, hs]⟩
  | cons l ls ih =>
    intro m hwd hnz
    obtain ⟨m1, h1⟩ := dense_forward_some L l 0 m (hwd l (List.mem_cons_self _ _))
    obtain ⟨mf, h2⟩ := ih m1 (fun x hx => hwd x (List.mem_cons_of_mem _ hx))
      (fun x hx => hnz x (List.mem_cons_of_mem _ hx))
    refine ⟨mf, ?_⟩
    show nn_forward_loop w L (l :: (ls ++ s :: tl)) m = _
    rw [nn_forward_loop]
    simp only [hnz l (List.mem_cons_self _ _), Bool.false_eq_true, if_false, h1,
      Option.bind_eq_bind, Option.some_bind, h2, Option.pure_def, List.length_cons]

theorem backward_loop_some (L : libm α) (layers : List nn_layer) (rate : α) :
    ∀ (k pe : Nat) (m : Mem α), (∀ i ≤ k, ∃ l, layers[i]? = some l ∧ wired l) →
      ∃ m', nn_backward_loop L layers rate k (some pe) m = some m' := by
  intro k
  induction k with
  | zero =>
    intro pe m h
    obtain ⟨l, hl, hwd⟩ := h 0 (Nat.le_refl _)
    obtain ⟨m1, h1⟩ := dense_backward_some L l pe rate m hwd
    exact ⟨m1, by simp only [nn_backward_loop, hl, Option.bind_eq_bind, Option.some_bind, h1]⟩
  | succ k ih =>
    intro pe m h
    obtain ⟨l, hl, hwd⟩ := h (k + 1) (Nat.le_refl _)
    obtain ⟨m1, h1⟩ := dense_backward_some L l pe rate m hwd
    obtain ⟨_, _, _, ⟨perr, herr⟩, _⟩ := hwd
    obtain ⟨m2, h2⟩ := ih perr m1 (fun i hi => h i (Nat.le_succ_of_le hi))
    exact ⟨m2, by
      simp only [nn_backward_loop, hl, Option.bind_eq_bind, Option.some_bind, h1, herr, h2]⟩

theorem bound_wired (mem : Nat) (ls : List nn_layer) :
    ∀ (off pin : Nat), Bound mem ls off (some pin) → ∀ l ∈ ls, wired l := by
  induction ls with
  | nil => intro off pin _ l hl; cases hl
  | cons d ds ih =>
    intro off pin hb l hl
    obtain ⟨hi, ho, hw, he, hc, hrest⟩ := hb
    rcases List.mem_cons.mp hl with h | h
    · subst h
      exact ⟨⟨_, hi⟩, ⟨_, ho⟩, ⟨_, hw⟩, ⟨_, he⟩, ⟨_, hc⟩⟩
    · exact ih _ _ hrest l h

theorem mem_of_getElem_le (l0 : nn_layer) (rest tl : List nn_layer) :
    ∀ i ≤ rest.length, ∃ l, (l0 :: (rest ++ tl))[i]? = some l ∧ l ∈ l0 :: rest := by
  intro i hi
  have hlt : i < (l0 :: rest).length := by simp only [List.length_cons]; omega
  refine ⟨(l0 :: rest)[i], ?_, List.getElem_mem _⟩
  rw [show l0 :: (rest ++ tl) = (l0 :: rest) ++ tl from rfl, List.getElem?_append_left hlt,
    List.getElem?_eq_getElem hlt]

theorem nn_predict_returns (L : libm α) (x : Nat) (s : nn_layer) (tl layers : List nn_layer)
    (l0 : nn_layer) (rest : List nn_layer) (m : Mem α)
    (hs : NN_LAYER_EMPTY w s = true)
    (hbind : nn_bind_input layers x = some ((l0 :: rest) ++ s :: tl))
    (hwd : ∀ l ∈ l0 :: rest, wired l)
    (hnz : ∀ l ∈ l0 :: rest, NN_LAYER_EMPTY w l = false) :
    ∃ m', nn_predict w L layers x m
      = some ((l0 :: rest) ++ s :: tl, (last_layer l0 rest).output.data, m') := by
  obtain ⟨mf, hloop⟩ := forward_loop_some L s tl hs (l0 :: rest) m hwd hnz
  refine ⟨mf, ?_⟩
  unfold nn_predict
  rw [hbind]
  simp only [Option.bind_eq_bind, Option.some_bind, hloop, List.length_cons]
  have hget := last_layer_getElem l0 rest (s :: tl)
  rw [show (l0 :: rest) ++ s :: tl = l0 :: (rest ++ s :: tl) from rfl, hget]
  simp only [Option.some_bind, Option.pure_def]

theorem nn_train_returns (L : libm α) (x y : Nat) (rate : α) (s : nn_layer)
    (tl layers : List nn_layer) (l0 : nn_layer) (rest : List nn_layer) (m : Mem α)
    (hs : NN_LAYER_EMPTY w s = true)
    (hbind : nn_bind_input layers x = some ((l0 :: rest) ++ s :: tl))
    (hwd : ∀ l ∈ l0 :: rest, wired l)
    (hnz : ∀ l ∈ l0 :: rest, NN_LAYER_EMPTY w l = false) :
    ∃ loss m', nn_train w L layers x y rate m = some ((l0 :: rest) ++ s :: tl, loss, m') := by
  obtain ⟨mf, hloop⟩ := forward_loop_some L s tl hs (l0 :: rest) m hwd hnz
  have hget := last_layer_getElem l0 rest (s :: tl)
  have hlast : wired (last_layer l0 rest) := by
    obtain ⟨l, hl, hmem⟩ := mem_of_getElem_le l0 rest (s :: tl) rest.length (Nat.le_refl _)
    rw [hget] at hl
    rw [Option.some.inj hl]
    exact hwd l hmem
  obtain ⟨_, ⟨po, hpo⟩, _, _, ⟨pc, hpc⟩⟩ := hlast
  obtain ⟨r, herr⟩ := train_error_some (last_layer l0 rest)
    (pc + (last_layer l0 rest).cache.len) y po hpo (last_layer l0 rest).output.len mf
  obtain ⟨m', hback⟩ := backward_loop_some L (l0 :: (rest ++ s :: tl)) rate rest.length
    (pc + (last_layer l0 rest).cache.len) r.1 (fun i hi => by
      obtain ⟨l, hl, hmem⟩ := mem_of_getElem_le l0 rest (s :: tl) i hi
      exact ⟨l, hl, hwd l hmem⟩)
  refine ⟨r.2, m', ?_⟩
  unfold nn_train
  rw [hbind]
  simp only [Option.bind_eq_bind, Option.some_bind, hloop, List.length_cons]
  rw [show (l0 :: rest) ++ s :: tl = l0 :: (rest ++ s :: tl) from rfl, hget]
  simp only [Option.some_bind, Option.pure_def, hpc, Ptr.add, Option.map_some', herr, hback]

theorem nn_init_layer_empty (mem vec_len : Nat) (l : nn_layer) (e : Nat) (p : Ptr) :
    NN_LAYER_EMPTY w (nn_init_layer w mem vec_len l e p).1 = NN_LAYER_EMPTY w l := by
  unfold nn_init_layer NN_LAYER_EMPTY
  simp only []
  split_ifs <;> rfl

theorem nn_init_layers_not_empty (mem vec_len : Nat) (ds : List nn_layer) :
    ∀ (e : Nat) (p : Ptr), (∀ d ∈ ds, NN_LAYER_EMPTY w d = false) →
      ∀ l ∈ nn_init_layers w mem vec_len ds e p, NN_LAYER_EMPTY w l = false := by
  induction ds with
  | nil => intro e p _ l hl; cases hl
  | cons d ds ih =>
    intro e p hds l hl
    simp only [nn_init_layers] at hl
    rcases List.mem_cons.mp hl with h | h
    · rw [h, nn_init_layer_empty]
      exact hds d (List.mem_cons_self _ _)
    · exact ih _ _ (fun x hx => hds x (List.mem_cons_of_mem _ hx)) l h

/-- C11, as the code has it: for a non-empty sequence of non-empty layers `ds` ended
by an empty descriptor whose required size `sizeof(float) * E` is below `2 ^ w` (so
that `nn_init` returns it unwrapped), if the capacity `memsz` is at least the size
`nn_init` returns (equality included), then every layer's output, weights, errors and
cache pointer is bound, the four regions of a layer follow one another inside the
buffer, and the staging region `nn_train` writes (`output.len` cells from
`cache.data + cache.len` of the last layer, the one at index `ds.length - 1`) lies
inside the buffer. -/
theorem nn_init_sufficient_capacity (w : Nat) (ds : List nn_layer) (s : nn_layer)
    (tl : List nn_layer) (mem memsz : Nat) (layers : List nn_layer) (sz : Nat)
    (hne : ds ≠ []) (hds : ∀ d ∈ ds, NN_LAYER_EMPTY w d = false) (hs : NN_LAYER_EMPTY w s = true)
    (hinit : nn_init w (ds ++ s :: tl) mem memsz = some (layers, sz)) (hsz : sz ≤ memsz)
    (hfit : (total_size ds + last_output_len 0 ds) * sizeof_float < 2 ^ w) :
    ∃ l0 rest, layers = (l0 :: rest) ++ s :: tl ∧ (l0 :: rest).length = ds.length ∧
      (∀ l ∈ l0 :: rest, ∃ po pw pe pc,
        l.output.data = some po ∧ l.weights.data = some pw ∧
        l.errors.data = some pe ∧ l.cache.data = some pc ∧
        mem ≤ po ∧ po + l.output.len = pw ∧ pw + l.weights.len = pe ∧
        pe + l.errors.len = pc ∧ pc + l.cache.len < mem + memsz / sizeof_float) ∧
      layers[ds.length - 1]? = some (last_layer l0 rest) ∧
      ∃ e, (last_layer l0 rest).cache.data.add (last_layer l0 rest).cache.len = some e ∧
        mem ≤ e ∧ e + (last_layer l0 rest).output.len ≤ mem + memsz / sizeof_float := by
  obtain ⟨hl, hpos, hcap, hb, ht, hlo, hlen⟩ :=
    nn_init_capacity ds s tl mem memsz layers sz hne hds hs hinit hsz hfit
  cases hls : nn_init_layers w mem (memsz / sizeof_float) ds 0 none with
  | nil =>
    rw [hls] at hlen
    have : ds.length ≠ 0 := fun h => hne (List.length_eq_zero.mp h)
    simp only [List.length_nil] at hlen
    omega
  | cons l0 rest =>
    rw [hls] at hl hb ht hlo hlen
    refine ⟨l0, rest, hl, hlen, ?_, ?_, ?_⟩
    · intro l hmem
      obtain ⟨po, pw, pe, pc, h1, h2, h3, h4, h5, h6, h7, h8, h9⟩ :=
        bound_regions_range mem _ 0 none hb l hmem
      exact ⟨po, pw, pe, pc, h1, h2, h3, h4, by omega, h6, h7, h8, by omega⟩
    · have hk : ds.length - 1 = rest.length := by
        simp only [List.length_cons] at hlen
        omega
      rw [hl, hk]
      exact last_layer_getElem l0 rest (s :: tl)
    · obtain ⟨hc, _⟩ := bound_last mem rest l0 0 none hb
      refine ⟨_, hc, by omega, ?_⟩
      have ho : (last_layer l0 rest).output.len = last_output_len 0 ds := by
        rw [last_layer_output_len, ← hlo]
        rfl
      rw [ho, ht]
      omega

/-- Witness of C11 as amended: the two layers of `test_network_backward` in a buffer of exactly
the returned size, 88 bytes. -/
theorem nn_init_sufficient_capacity_witness :
    fixture_decl ≠ [] ∧ (∀ d ∈ fixture_decl, NN_LAYER_EMPTY 64 d = false) ∧
    NN_LAYER_EMPTY 64 NN_EMPTY = true ∧
    nn_init 64 (fixture_decl ++ NN_EMPTY :: []) 100 88 = some (fixture_laid, 88) ∧ 88 ≤ 88 ∧
    (total_size fixture_decl + last_output_len 0 fixture_decl) * sizeof_float < 2 ^ 64 ∧
    ∃ l0 rest, fixture_laid = (l0 :: rest) ++ NN_EMPTY :: [] ∧
      (l0 :: rest).length = fixture_decl.length ∧
      (∀ l ∈ l0 :: rest, ∃ po pw pe pc,
        l.output.data = some po ∧ l.weights.data = some pw ∧
        l.errors.data = some pe ∧ l.cache.data = some pc ∧
        100 ≤ po ∧ po + l.output.len = pw ∧ pw + l.weights.len = pe ∧
        pe + l.errors.len = pc ∧ pc + l.cache.len < 100 + 88 / sizeof_float) ∧
      fixture_laid[fixture_decl.length - 1]? = some (last_layer l0 rest) ∧
      ∃ e, (last_layer l0 rest).cache.data.add (last_layer l0 rest).cache.len = some e ∧
        100 ≤ e ∧ e + (last_layer l0 rest).output.len ≤ 100 + 88 / sizeof_float :=
  ⟨by decide, by decide, by decide, by decide, by decide, by decide,
    nn_init_sufficient_capacity 64 fixture_decl NN_EMPTY [] 100 88 fixture_laid 88
      (by decide) (by decide) (by decide) (by decide) (by decide) (by decide)⟩

/-- Counterexample to C11 as stated: with a 32-bit `size_t`, the layer
`NN_DENSE(32767, 32768, 0)` needs `4 * 1073840127` bytes, which wraps to `393212`;
with `memsz = 400000`, at least the returned size, `nn_init` leaves the weights,
errors and cache pointers `NULL`. -/
theorem nn_init_wrapped_size_unbound :
    [NN_DENSE 32767 32768 NN_FLAG_LINEAR] ≠ [] ∧
    (∀ d ∈ [NN_DENSE 32767 32768 NN_FLAG_LINEAR], NN_LAYER_EMPTY 32 d = false) ∧
    NN_LAYER_EMPTY 32 NN_EMPTY = true ∧
    nn_init 32 ([NN_DENSE 32767 32768 NN_FLAG_LINEAR] ++ NN_EMPTY :: []) 0 400000 =
      some ([{ flags := NN_FLAG_LINEAR, input := ⟨32767, none⟩, output := ⟨32768, some 0⟩,
               weights := ⟨1073741824, none⟩, errors := ⟨32767, none⟩, cache := ⟨0, none⟩ },
             NN_EMPTY], 393212) ∧
    393212 ≤ 400000 := by
  decide

/-- C12, as the code has it: for every sequence of non-empty layers `ds` ended by an
empty descriptor whose region lengths sum to less than `2 ^ w` (so that no `size_t`
sum of `nn_init` wraps), every buffer and every capacity, `nn_init` leaves the layers
`ls` whose regions, taken in the order output, weights, errors, cache of layer 0,
output of layer 1, ... (`regions`), are as follows.  Region `k` keeps its length;
when its offset (the sum of the lengths of the regions before it) plus its length is
below the capacity in elements, it is bound at `mem + offset`; otherwise `nn_init`
does not touch its pointer.  A region ends at or before the offset of every later
region, so the regions `nn_init` binds are ascending, pairwise non-overlapping and
end inside the buffer. -/
theorem nn_init_region_layout (w : Nat) (ds : List nn_layer) (s : nn_layer)
    (tl : List nn_layer) (mem memsz : Nat)
    (hds : ∀ d ∈ ds, NN_LAYER_EMPTY w d = false) (hs : NN_LAYER_EMPTY w s = true)
    (hfit : total_size ds < 2 ^ w) :
    ∃ ls sz, nn_init w (ds ++ s :: tl) mem memsz = some (ls ++ s :: tl, sz) ∧
      ls.length = ds.length ∧
      (∀ i l, ls[i]? = some l →
        (regions ls)[4 * i]? = some l.output ∧ (regions ls)[4 * i + 1]? = some l.weights ∧
        (regions ls)[4 * i + 2]? = some l.errors ∧ (regions ls)[4 * i + 3]? = some l.cache) ∧
      (∀ k d, (regions ds)[k]? = some d →
        ∃ r, (regions ls)[k]? = some r ∧ r.len = d.len ∧
          (region_offset (regions ds) k + d.len < memsz / sizeof_float →
            r.data = some (mem + region_offset (regions ds) k)) ∧
          (¬ region_offset (regions ds) k + d.len < memsz / sizeof_float →
            r.data = d.data)) ∧
      (∀ k1 k2 d1, k1 < k2 → (regions ds)[k1]? = some d1 →
        region_offset (regions ds) k1 + d1.len ≤ region_offset (regions ds) k2) := by
  refine ⟨nn_init_layers w mem (memsz / sizeof_float) ds 0 none, _,
    nn_init_eq ds s tl mem memsz hds hs, nn_init_layers_length _ _ ds 0 none,
    regions_getElem _, ?_, region_offset_mono _⟩
  intro k d hd
  have hle := region_end_le_total ds k d hd
  rw [regions_init, bind_regions_getElem _ _ _ 0 k (Nat.two_pow_pos w), hd]
  simp only [Option.map_some', Nat.zero_add]
  rw [size_t_of_lt w (region_offset (regions ds) k + d.len) (by omega),
    size_t_of_lt w (region_offset (regions ds) k) (by omega)]
  by_cases hfit' : region_offset (regions ds) k + d.len < memsz / sizeof_float
  · rw [if_pos hfit']
    exact ⟨_, rfl, rfl, fun _ => rfl, fun h => absurd hfit' h⟩
  · rw [if_neg hfit']
    exact ⟨_, rfl, rfl, fun h => absurd h hfit', fun _ => rfl⟩

/-- Witness of C12 as amended: the two layers of `test_network_backward` with a
capacity of ten floats, which holds the first two regions only. -/
theorem nn_init_region_layout_witness :
    (∀ d ∈ fixture_decl, NN_LAYER_EMPTY 64 d = false) ∧ NN_LAYER_EMPTY 64 NN_EMPTY = true ∧
    total_size fixture_decl < 2 ^ 64 ∧
    ∃ ls sz,
      nn_init 64 (fixture_decl ++ NN_EMPTY :: []) 100 40 = some (ls ++ NN_EMPTY :: [], sz) ∧
      ls.length = fixture_decl.length ∧
      (∀ i l, ls[i]? = some l →
        (regions ls)[4 * i]? = some l.output ∧ (regions ls)[4 * i + 1]? = some l.weights ∧
        (regions ls)[4 * i + 2]? = some l.errors ∧ (regions ls)[4 * i + 3]? = some l.cache) ∧
      (∀ k d, (regions fixture_decl)[k]? = some d →
        ∃ r, (regions ls)[k]? = some r ∧ r.len = d.len ∧
          (region_offset (regions fixture_decl) k + d.len < 40 / sizeof_float →
            r.data = some (100 + region_offset (regions fixture_decl) k)) ∧
          (¬ region_offset (regions fixture_decl) k + d.len < 40 / sizeof_float →
            r.data = d.data)) ∧
      (∀ k1 k2 d1, k1 < k2 → (regions fixture_decl)[k1]? = some d1 →
        region_offset (regions fixture_decl) k1 + d1.len
          ≤ region_offset (regions fixture_decl) k2) :=
  ⟨by decide, by decide, by decide,
    nn_init_region_layout 64 fixture_decl NN_EMPTY [] 100 40 (by decide) (by decide)
      (by decide)⟩

/-- Counterexample to C12 as stated: with a 16-bit `size_t`, four layers
`NN_DENSE(128, 128, 0)` and 8192 bytes (capacity 2048 floats), the guard of the weights
of layer 3 computes `50432 + 16512 = 66944`, which wraps to `1408 < 2048`, so
`nn_init` binds the 16512 weights at offset 50432, outside the buffer. -/
theorem nn_init_binds_outside_buffer :
    (∀ d ∈ [NN_DENSE 128 128 NN_FLAG_LINEAR, NN_DENSE 128 128 NN_FLAG_LINEAR,
        NN_DENSE 128 128 NN_FLAG_LINEAR, NN_DENSE 128 128 NN_FLAG_LINEAR],
      NN_LAYER_EMPTY 16 d = false) ∧
    NN_LAYER_EMPTY 16 NN_EMPTY = true ∧
    (nn_init 16 ([NN_DENSE 128 128 NN_FLAG_LINEAR, NN_DENSE 128 128 NN_FLAG_LINEAR,
        NN_DENSE 128 128 NN_FLAG_LINEAR, NN_DENSE 128 128 NN_FLAG_LINEAR] ++ NN_EMPTY :: [])
        0 8192).map (fun r => (r.1[3]?).map (fun l => l.weights))
      = some (some ⟨16512, some 50432⟩) ∧
    region_offset (regions [NN_DENSE 128 128 NN_FLAG_LINEAR, NN_DENSE 128 128 NN_FLAG_LINEAR,
        NN_DENSE 128 128 NN_FLAG_LINEAR, NN_DENSE 128 128 NN_FLAG_LINEAR]) (4 * 3 + 1) = 50432 ∧
    ¬ (50432 + 16512 < 8192 / sizeof_float) := by
  decide

/-- C13: for a non-empty sequence of non-empty layers laid out by `nn_init` with
sufficient capacity (the required size representable in `size_t` and at most
`memsz`), the first layer's input pointer is `NULL`, the input pointer of every
later layer is the (bound) output pointer of the layer before it, and `nn_predict`
and `nn_train` both return, having changed the first layer's input pointer to `x`
and no other field of any descriptor. -/
theorem nn_init_links_layers (w : Nat) (L : libm α) (ds : List nn_layer) (s : nn_layer)
    (tl : List nn_layer) (mem memsz : Nat) (layers : List nn_layer) (sz x : Nat)
    (hne : ds ≠ []) (hds : ∀ d ∈ ds, NN_LAYER_EMPTY w d = false)
    (hs : NN_LAYER_EMPTY w s = true)
    (hinit : nn_init w (ds ++ s :: tl) mem memsz = some (layers, sz)) (hsz : sz ≤ memsz)
    (hfit : (total_size ds + last_output_len 0 ds) * sizeof_float < 2 ^ w) :
    ∃ l0 rest, layers = (l0 :: rest) ++ s :: tl ∧ (l0 :: rest).length = ds.length ∧
      l0.input.data = none ∧
      (∀ i li lj, (l0 :: rest)[i]? = some li → (l0 :: rest)[i + 1]? = some lj →
        lj.input.data = li.output.data ∧ ∃ p, li.output.data = some p) ∧
      nn_bind_input layers x =
        some (({ l0 with input := { l0.input with data := some x } } :: rest) ++ s :: tl) ∧
      (∀ (m : Mem α), ∃ p m', nn_predict w L layers x m =
        some (({ l0 with input := { l0.input with data := some x } } :: rest) ++ s :: tl,
          p, m')) ∧
      (∀ (y : Nat) (rate : α) (m : Mem α), ∃ loss m', nn_train w L layers x y rate m =
        some (({ l0 with input := { l0.input with data := some x } } :: rest) ++ s :: tl,
          loss, m')) := by
  obtain ⟨hl, hpos, hcap, hb, ht, hlo, hlen⟩ :=
    nn_init_capacity ds s tl mem memsz layers sz hne hds hs hinit hsz hfit
  cases hls : nn_init_layers w mem (memsz / sizeof_float) ds 0 none with
  | nil =>
    rw [hls] at hlen
    have : ds.length ≠ 0 := fun h => hne (List.length_eq_zero.mp h)
    simp only [List.length_nil] at hlen
    omega
  | cons l0 rest =>
    rw [hls] at hl hb hlen
    have hbind : nn_bind_input layers x =
        some (({ l0 with input := { l0.input with data := some x } } :: rest) ++ s :: tl) := by
      rw [hl]
      rfl
    have hb' : Bound mem ({ l0 with input := { l0.input with data := some x } } :: rest) 0
        (some x) := by
      obtain ⟨_, ho, hw', he, hc, hrest⟩ := hb
      exact ⟨rfl, ho, hw', he, hc, hrest⟩
    have hwd := bound_wired mem _ 0 x hb'
    have hnz0 : ∀ l ∈ l0 :: rest, NN_LAYER_EMPTY w l = false := by
      have hnzl := @nn_init_layers_not_empty w mem (memsz / sizeof_float) ds 0 none hds
      rw [hls] at hnzl
      exact hnzl
    have hnz : ∀ l ∈ { l0 with input := { l0.input with data := some x } } :: rest,
        NN_LAYER_EMPTY w l = false := by
      intro l hmem
      rcases List.mem_cons.mp hmem with h | h
      · rw [h]
        exact hnz0 l0 (List.mem_cons_self _ _)
      · exact hnz0 l (List.mem_cons_of_mem _ h)
    refine ⟨l0, rest, hl, hlen, hb.1, bound_chain mem _ 0 none hb, hbind, ?_, ?_⟩
    · intro m
      obtain ⟨m', h⟩ := nn_predict_returns L x s tl layers _ rest m hs hbind hwd hnz
      exact ⟨_, m', h⟩
    · intro y rate m
      exact nn_train_returns L x y rate s tl layers _ rest m hs hbind hwd hnz

/-- Witness of C13: the two layers of `test_network_backward` in the test's buffer,
with `x` at cell 0. -/
theorem nn_init_links_layers_witness :
    fixture_decl ≠ [] ∧ (∀ d ∈ fixture_decl, NN_LAYER_EMPTY 64 d = false) ∧
    NN_LAYER_EMPTY 64 NN_EMPTY = true ∧
    nn_init 64 (fixture_decl ++ NN_EMPTY :: []) 100 4096 = some (fixture_laid, 88) ∧
    88 ≤ 4096 ∧
    (total_size fixture_decl + last_output_len 0 fixture_decl) * sizeof_float < 2 ^ 64 ∧
    ∃ l0 rest, fixture_laid = (l0 :: rest) ++ NN_EMPTY :: [] ∧
      (l0 :: rest).length = fixture_decl.length ∧
      l0.input.data = none ∧
      (∀ i li lj, (l0 :: rest)[i]? = some li → (l0 :: rest)[i + 1]? = some lj →
        lj.input.data = li.output.data ∧ ∃ p, li.output.data = some p) ∧
      nn_bind_input fixture_laid 0 =
        some (({ l0 with input := { l0.input with data := some 0 } } :: rest)
          ++ NN_EMPTY :: []) ∧
      (∀ (m : Mem ℚ), ∃ p m', nn_predict 64 (⟨id, id⟩ : libm ℚ) fixture_laid 0 m =
        some (({ l0 with input := { l0.input with data := some 0 } } :: rest)
          ++ NN_EMPTY :: [], p, m')) ∧
      (∀ (y : Nat) (rate : ℚ) (m : Mem ℚ), ∃ loss m',
        nn_train 64 (⟨id, id⟩ : libm ℚ) fixture_laid 0 y rate m =
        some (({ l0 with input := { l0.input with data := some 0 } } :: rest)
          ++ NN_EMPTY :: [], loss, m')) :=
  ⟨by decide, by decide, by decide, by decide, by decide, by decide,
    nn_init_links_layers 64 (⟨id, id⟩ : libm ℚ) fixture_decl NN_EMPTY [] 100 4096 fixture_laid
      88 0 (by decide) (by decide) (by decide) (by decide) (by decide) (by decide)⟩

theorem bound_all (mem : Nat) (ls : List nn_layer) (off : Nat) (prev : Ptr)
    (hb : Bound mem ls off prev) : ∀ l ∈ ls, ¬ has_unbound_region l := by
  intro l hl hu
  obtain ⟨po, pw, pe, pc, h1, h2, h3, h4, _⟩ := bound_regions_range mem ls off prev hb l hl
  unfold has_unbound_region at hu
  rw [h1, h2, h3, h4] at hu
  simp at hu

theorem unbound_exists (mem vec_len : Nat) (ds : List nn_layer) :
    ∀ (e : Nat) (p : Ptr), ds ≠ [] → (∀ d ∈ ds, unbound d) → vec_len ≤ e + total_size ds →
      e + total_size ds < 2 ^ w →
      ∃ l ∈ nn_init_layers w mem vec_len ds e p, has_unbound_region l := by
  induction ds with
  | nil => intro e p h; exact absurd rfl h
  | cons d ds ih =>
    intro e p _ hfresh hcap hw
    rw [total_size_cons] at hcap hw
    cases ds with
    | nil =>
      refine ⟨_, List.mem_cons_self _ _, ?_⟩
      obtain ⟨_, _, _, h4⟩ := @nn_init_layer_regions w mem vec_len d e p
      have hc : d.cache.data = none := (hfresh d (List.mem_cons_self _ _)).2.2.2.2
      simp only [total_size, List.map_nil, List.sum_nil, layer_size] at hcap hw
      have hs : size_t w (size_t w (size_t w (size_t w (e + d.output.len) + d.weights.len)
          + d.errors.len) + d.cache.len)
          = e + d.output.len + d.weights.len + d.errors.len + d.cache.len := by
        simp only [size_t_add_left]
        exact size_t_of_lt w _ (by omega)
      have hnot : ¬ size_t w (size_t w (size_t w (size_t w (e + d.output.len) + d.weights.len)
          + d.errors.len) + d.cache.len) < vec_len := by
        rw [hs]
        omega
      right; right; right
      rw [h4, if_neg hnot]
      exact hc
    | cons d' ds' =>
      have he : (nn_init_layer w mem vec_len d e p).2.1 = e + layer_size d := by
        rw [nn_init_layer_expected]
        exact size_t_of_lt w _ (by omega)
      obtain ⟨l, hl, hu⟩ := ih (nn_init_layer w mem vec_len d e p).2.1
        (nn_init_layer w mem vec_len d e p).2.2 (List.cons_ne_nil _ _)
        (fun x hx => hfresh x (List.mem_cons_of_mem _ hx))
        (by rw [he]; omega) (by rw [he]; omega)
      exact ⟨l, List.mem_cons_of_mem _ hl, hu⟩

/-- C17, as the code has it: for a non-empty sequence of freshly declared non-empty
layers whose region lengths sum to less than `2 ^ w` (so that no `size_t` sum of
`nn_init` wraps), `nn_init` leaves a region pointer (output, weights, errors or cache
of some layer) unbound exactly when the capacity in elements is at most the sum of
the layers' region lengths, the trailing staging region not counted; with a capacity
above that sum every region pointer is bound, also when the capacity is below the
required element count. -/
theorem nn_init_undersized_unbound (w : Nat) (ds : List nn_layer) (s : nn_layer)
    (tl : List nn_layer) (mem memsz : Nat)
    (hne : ds ≠ []) (hds : ∀ d ∈ ds, NN_LAYER_EMPTY w d = false) (hfresh : ∀ d ∈ ds, unbound d)
    (hs : NN_LAYER_EMPTY w s = true) (hfit : total_size ds < 2 ^ w) :
    ∃ ls, nn_init w (ds ++ s :: tl) mem memsz =
        some (ls ++ s :: tl,
          size_t w ((total_size ds + last_output_len 0 ds) * sizeof_float)) ∧
      ls.length = ds.length ∧
      ((∃ l ∈ ls, has_unbound_region l) ↔ memsz / sizeof_float ≤ total_size ds) ∧
      (total_size ds < memsz / sizeof_float → ∀ l ∈ ls, ¬ has_unbound_region l) := by
  have hall : total_size ds < memsz / sizeof_float →
      ∀ l ∈ nn_init_layers w mem (memsz / sizeof_float) ds 0 none, ¬ has_unbound_region l := by
    intro hlt
    obtain ⟨hb, _⟩ := @nn_init_layers_bound w mem (memsz / sizeof_float) ds 0 none 0
      (by omega) (by omega)
    exact bound_all mem _ 0 none hb
  refine ⟨nn_init_layers w mem (memsz / sizeof_float) ds 0 none,
    nn_init_eq ds s tl mem memsz hds hs, nn_init_layers_length _ _ ds 0 none, ⟨?_, ?_⟩, hall⟩
  · rintro ⟨l, hl, hu⟩
    by_contra hlt
    exact hall (by omega) l hl hu
  · intro hcap
    exact unbound_exists mem _ ds 0 none hne hfresh (by omega) (by omega)

/-- Witness of C17 as amended: the two layers of `test_network_backward` with a
capacity of twenty floats, the sum of their region lengths. -/
theorem nn_init_undersized_unbound_witness :
    fixture_decl ≠ [] ∧ (∀ d ∈ fixture_decl, NN_LAYER_EMPTY 64 d = false) ∧
    (∀ d ∈ fixture_decl, unbound d) ∧ NN_LAYER_EMPTY 64 NN_EMPTY = true ∧
    total_size fixture_decl < 2 ^ 64 ∧
    ∃ ls, nn_init 64 (fixture_decl ++ NN_EMPTY :: []) 100 80 =
        some (ls ++ NN_EMPTY :: [],
          size_t 64 ((total_size fixture_decl + last_output_len 0 fixture_decl)
            * sizeof_float)) ∧
      ls.length = fixture_decl.length ∧
      ((∃ l ∈ ls, has_unbound_region l) ↔ 80 / sizeof_float ≤ total_size fixture_decl) ∧
      (total_size fixture_decl < 80 / sizeof_float → ∀ l ∈ ls, ¬ has_unbound_region l) :=
  ⟨by decide, by decide, by decide, by decide, by decide,
    nn_init_undersized_unbound 64 fixture_decl NN_EMPTY [] 100 80
      (by decide) (by decide) (by decide) (by decide) (by decide)⟩

/-- Counterexample to C17 as stated: the two freshly declared layers of
`test_network_backward` with 84 bytes, less than the 88 bytes `nn_init` returns;
every output, weights, errors and cache pointer is bound all the same. -/
theorem nn_init_undersized_all_bound :
    fixture_decl ≠ [] ∧ (∀ d ∈ fixture_decl, unbound d) ∧
    nn_init 64 (fixture_decl ++ NN_EMPTY :: []) 100 84 = some (fixture_laid, 88) ∧ 84 < 88 ∧
    ∀ l ∈ fixture_laid.take 2, ¬ has_unbound_region l := by
  decide

theorem same_decl_empty (l l' : nn_layer) (h : same_decl l l') :
    NN_LAYER_EMPTY w l' = NN_LAYER_EMPTY w l := by
  obtain ⟨_, hi, ho, _⟩ := h
  simp only [NN_LAYER_EMPTY, hi, ho]

theorem same_decl_size (l l' : nn_layer) (h : same_decl l l') : layer_size l' = layer_size l := by
  obtain ⟨_, _, ho, hw, he, hc⟩ := h
  simp only [layer_size, ho, hw, he, hc]

theorem regions_len_eq (ds ds' : List nn_layer) (h : List.Forall₂ same_decl ds ds') :
    (regions ds).map nn_vec.len = (regions ds').map nn_vec.len := by
  induction h with
  | nil => rfl
  | cons hd _ ih =>
    obtain ⟨_, _, ho, hw, he, hc⟩ := hd
    simp only [regions, List.map_cons, ih, ho, hw, he, hc]

theorem region_offset_congr (ds ds' : List nn_layer) (h : List.Forall₂ same_decl ds ds')
    (k : Nat) : region_offset (regions ds') k = region_offset (regions ds) k := by
  unfold region_offset
  rw [List.map_take, List.map_take, regions_len_eq ds ds' h]

theorem regions_len_getElem (ds ds' : List nn_layer) (h : List.Forall₂ same_decl ds ds')
    (k : Nat) (d d' : nn_vec) (hd : (regions ds)[k]? = some d)
    (hd' : (regions ds')[k]? = some d') : d'.len = d.len := by
  have e := congrArg (fun l => l[k]?) (regions_len_eq ds ds' h)
  simp only [List.getElem?_map, hd, hd', Option.map_some', Option.some.injEq] at e
  exact e.symm

theorem init_inputs_eq (mem vec_len : Nat) (ds ds' : List nn_layer)
    (h : List.Forall₂ same_decl ds ds') : ∀ (e : Nat) (p : Ptr),
    (nn_init_layers w mem vec_len ds e p).map (fun l => (l.flags, l.input)) =
      (nn_init_layers w mem vec_len ds' e p).map (fun l => (l.flags, l.input)) := by
  induction h with
  | nil => intro e p; rfl
  | @cons d d' ds ds' hd _ ih =>
    intro e p
    obtain ⟨a1, a2, a3⟩ := @nn_init_layer_input w mem vec_len d e p
    obtain ⟨b1, b2, b3⟩ := @nn_init_layer_input w mem vec_len d' e p
    have hsz := same_decl_size d d' hd
    obtain ⟨hf, hi, ho, _⟩ := hd
    simp only [nn_init_layers, List.map_cons, a1, a2, a3, b1, b2, b3, nn_init_layer_expected,
      hsz, ← hf, ← hi, ← ho, ih]

theorem init_fit_eq (mem vec_len : Nat) (ds ds' : List nn_layer)
    (h : List.Forall₂ same_decl ds ds') : ∀ (e : Nat) (p : Ptr),
    e + total_size ds < vec_len → e + total_size ds < 2 ^ w →
    nn_init_layers w mem vec_len ds e p = nn_init_layers w mem vec_len ds' e p := by
  induction h with
  | nil => intro e p _ _; rfl
  | @cons d d' ds ds' hd _ ih =>
    intro e p hfit hwr
    rw [total_size_cons] at hfit hwr
    have hsz := same_decl_size d d' hd
    have f1 := @nn_init_layer_fit w mem vec_len d e p (by omega) (by omega)
    have f2 := @nn_init_layer_fit w mem vec_len d' e p (by omega) (by omega)
    obtain ⟨hf, hi, ho, hw, he, hc⟩ := hd
    simp only [nn_init_layers, f1, f2, hsz, ← hf, ← hi, ← ho, ← hw, ← he, ← hc]
    rw [ih (e + layer_size d) (some (mem + e)) (by omega) (by omega)]

theorem layers_ext : ∀ (ls ls' : List nn_layer),
    ls.map (fun l => (l.flags, l.input)) = ls'.map (fun l => (l.flags, l.input)) →
    regions ls = regions ls' → ls = ls' := by
  intro ls
  induction ls with
  | nil =>
    intro ls' h _
    cases ls' with
    | nil => rfl
    | cons l' ls' => simp at h
  | cons l ls ih =>
    intro ls' h hr
    cases ls' with
    | nil => simp at h
    | cons l' ls' =>
      simp only [List.map_cons, List.cons.injEq, Prod.mk.injEq] at h
      simp only [regions, List.cons.injEq] at hr
      obtain ⟨⟨hf, hi⟩, ht⟩ := h
      obtain ⟨ho, hw, he, hc, hrt⟩ := hr
      rw [ih ls' ht hrt]
      congr 1
      cases l
      cases l'
      simp only [nn_layer.mk.injEq]
      exact ⟨hf, hi, ho, hw, he, hc⟩

theorem regions_length_eq (ds ds' : List nn_layer) (h : List.Forall₂ same_decl ds ds') :
    (regions ds').length = (regions ds).length := by
  rw [regions_length, regions_length, h.length_eq]

theorem same_decl_not_empty (ds ds' : List nn_layer) (h : List.Forall₂ same_decl ds ds')
    (hds : ∀ d ∈ ds, NN_LAYER_EMPTY w d = false) : ∀ d ∈ ds', NN_LAYER_EMPTY w d = false := by
  induction h with
  | nil => intro d hd; cases hd
  | @cons d d' ds ds' hd _ ih =>
    intro x hx
    rcases List.mem_cons.mp hx with e | e
    · subst e
      rw [same_decl_empty d x hd]
      exact hds d (List.mem_cons_self _ _)
    · exact ih (fun y hy => hds y (List.mem_cons_of_mem _ hy)) x e

theorem same_decl_total (ds ds' : List nn_layer) (h : List.Forall₂ same_decl ds ds') :
    total_size ds' = total_size ds := by
  induction h with
  | nil => rfl
  | cons hd _ ih => rw [total_size_cons, total_size_cons, ih, same_decl_size _ _ hd]

theorem same_decl_last (ds ds' : List nn_layer) (h : List.Forall₂ same_decl ds ds') :
    ∀ n0, last_output_len n0 ds' = last_output_len n0 ds := by
  induction h with
  | nil => intro n0; rfl
  | cons hd _ ih =>
    intro n0
    rw [last_output_len, last_output_len, ih, hd.2.2.1]

/-- C18, as the code has it: for two descriptor sequences that declare the same
layers (same flags and vector lengths, any earlier bindings), `nn_init` with the same
buffer and capacity returns the same size, leaves the same flags and the same input
binding in every layer, and binds every region that passes the guard of `nn_init`
(offset plus length, as a `size_t` sum, below the capacity in elements) at the same
address in both; a region that does not pass it keeps the binding its own descriptor
had before the call.  When every region passes the guard the two results are
identical.  When the region lengths sum to less than `2 ^ w` the guard is
`offset + length < capacity` with no wrap, and a capacity above the sum of the region
lengths makes the two results identical. -/
theorem nn_init_recomputes (w : Nat) (ds ds' : List nn_layer) (s s' : nn_layer)
    (tl tl' : List nn_layer) (mem memsz : Nat)
    (hsame : List.Forall₂ same_decl ds ds')
    (hds : ∀ d ∈ ds, NN_LAYER_EMPTY w d = false)
    (hs : NN_LAYER_EMPTY w s = true) (hs' : NN_LAYER_EMPTY w s' = true) :
    ∃ (ls ls' : List nn_layer) (sz : Nat),
      nn_init w (ds ++ s :: tl) mem memsz = some (ls ++ s :: tl, sz) ∧
      nn_init w (ds' ++ s' :: tl') mem memsz = some (ls' ++ s' :: tl', sz) ∧
      ls.length = ds.length ∧ ls'.length = ds.length ∧
      (∀ (i : Nat) (l l' : nn_layer), ls[i]? = some l → ls'[i]? = some l' →
        l.flags = l'.flags ∧ l.input = l'.input) ∧
      (∀ k d d', (regions ds)[k]? = some d → (regions ds')[k]? = some d' →
        ∃ r r', (regions ls)[k]? = some r ∧ (regions ls')[k]? = some r' ∧
          (size_t w (region_offset (regions ds) k + d.len) < memsz / sizeof_float →
            r = r' ∧ r.data = some (mem + size_t w (region_offset (regions ds) k))) ∧
          (¬ size_t w (region_offset (regions ds) k + d.len) < memsz / sizeof_float →
            r.data = d.data ∧ r'.data = d'.data)) ∧
      ((∀ k d, (regions ds)[k]? = some d →
          size_t w (region_offset (regions ds) k + d.len) < memsz / sizeof_float) →
        ls = ls') ∧
      (total_size ds < 2 ^ w →
        (∀ k d d', (regions ds)[k]? = some d → (regions ds')[k]? = some d' →
          ∃ r r', (regions ls)[k]? = some r ∧ (regions ls')[k]? = some r' ∧
            (region_offset (regions ds) k + d.len < memsz / sizeof_float →
              r = r' ∧ r.data = some (mem + region_offset (regions ds) k)) ∧
            (¬ region_offset (regions ds) k + d.len < memsz / sizeof_float →
              r.data = d.data ∧ r'.data = d'.data)) ∧
        (total_size ds < memsz / sizeof_float → ls = ls')) := by
  have hds' := same_decl_not_empty ds ds' hsame hds
  have e2 := nn_init_eq ds' s' tl' mem memsz hds' hs'
  rw [same_decl_total ds ds' hsame, same_decl_last ds ds' hsame] at e2
  have hreg : ∀ k d d', (regions ds)[k]? = some d → (regions ds')[k]? = some d' →
      ∃ r r', (regions (nn_init_layers w mem (memsz / sizeof_float) ds 0 none))[k]? = some r ∧
        (regions (nn_init_layers w mem (memsz / sizeof_float) ds' 0 none))[k]? = some r' ∧
        (size_t w (region_offset (regions ds) k + d.len) < memsz / sizeof_float →
          r = r' ∧ r.data = some (mem + size_t w (region_offset (regions ds) k))) ∧
        (¬ size_t w (region_offset (regions ds) k + d.len) < memsz / sizeof_float →
          r.data = d.data ∧ r'.data = d'.data) := by
    intro k d d' hd hd'
    have hlen := regions_len_getElem ds ds' hsame k d d' hd hd'
    rw [regions_init, regions_init, bind_regions_getElem _ _ _ 0 k (Nat.two_pow_pos w),
      bind_regions_getElem _ _ _ 0 k (Nat.two_pow_pos w), hd, hd',
      region_offset_congr ds ds' hsame k]
    simp only [Option.map_some', Nat.zero_add, hlen]
    by_cases hfit : size_t w (region_offset (regions ds) k + d.len) < memsz / sizeof_float
    · rw [if_pos hfit, if_pos hfit]
      exact ⟨_, _, rfl, rfl, fun _ => ⟨rfl, rfl⟩, fun h => absurd hfit h⟩
    · rw [if_neg hfit, if_neg hfit]
      exact ⟨_, _, rfl, rfl, fun h => absurd h hfit, fun _ => ⟨rfl, rfl⟩⟩
  refine ⟨nn_init_layers w mem (memsz / sizeof_float) ds 0 none,
    nn_init_layers w mem (memsz / sizeof_float) ds' 0 none, _,
    nn_init_eq ds s tl mem memsz hds hs, e2, nn_init_layers_length _ _ ds 0 none, ?_, ?_, hreg,
    ?_, ?_⟩
  · rw [nn_init_layers_length, hsame.length_eq]
  · intro i l l' hl hl'
    have e := congrArg (fun x => x[i]?)
      (@init_inputs_eq w mem (memsz / sizeof_float) ds ds' hsame 0 none)
    simp only [List.getElem?_map, hl, hl', Option.map_some', Option.some.injEq,
      Prod.mk.injEq] at e
    exact e
  · intro hall
    apply layers_ext _ _ (@init_inputs_eq w mem (memsz / sizeof_float) ds ds' hsame 0 none)
    apply List.ext_getElem?
    intro k
    cases hd : (regions ds)[k]? with
    | none =>
      have h1 : (regions ds).length ≤ k := List.getElem?_eq_none_iff.mp hd
      have h2 : (regions (nn_init_layers w mem (memsz / sizeof_float) ds 0 none)).length ≤ k := by
        rw [regions_length, nn_init_layers_length, ← regions_length]
        exact h1
      have h3 : (regions (nn_init_layers w mem (memsz / sizeof_float) ds' 0 none)).length ≤ k := by
        rw [regions_length, nn_init_layers_length, ← regions_length,
          regions_length_eq ds ds' hsame]
        exact h1
      rw [List.getElem?_eq_none_iff.mpr h2, List.getElem?_eq_none_iff.mpr h3]
    | some d =>
      have hk : k < (regions ds').length := by
        rw [regions_length_eq ds ds' hsame]
        by_contra hge
        rw [List.getElem?_eq_none_iff.mpr (by omega)] at hd
        cases hd
      obtain ⟨r, r', hr, hr', hyes, _⟩ :=
        hreg k d (regions ds')[k] hd (List.getElem?_eq_getElem hk)
      rw [hr, hr', (hyes (hall k d hd)).1]
  · intro htw
    constructor
    · intro k d d' hd hd'
      obtain ⟨r, r', hr, hr', hyes, hno⟩ := hreg k d d' hd hd'
      have hle := region_end_le_total ds k d hd
      rw [size_t_of_lt w (region_offset (regions ds) k + d.len) (by omega),
        size_t_of_lt w (region_offset (regions ds) k) (by omega)] at hyes
      rw [size_t_of_lt w (region_offset (regions ds) k + d.len) (by omega)] at hno
      exact ⟨r, r', hr, hr', hyes, hno⟩
    · intro hfit
      exact @init_fit_eq w mem _ ds ds' hsame 0 none (by omega) (by omega)

/-- Witness of C18 as amended: the freshly declared layers of `test_network_backward`
against the same layers as an earlier layout at address 100 left them, both laid out
at address 500 with a capacity of ten floats. -/
theorem nn_init_recomputes_witness :
    List.Forall₂ same_decl fixture_decl [fixture_layer0, fixture_layer1] ∧
    (∀ d ∈ fixture_decl, NN_LAYER_EMPTY 64 d = false) ∧
    NN_LAYER_EMPTY 64 NN_EMPTY = true ∧ NN_LAYER_EMPTY 64 NN_EMPTY = true ∧
    ∃ (ls ls' : List nn_layer) (sz : Nat),
      nn_init 64 (fixture_decl ++ NN_EMPTY :: []) 500 40 = some (ls ++ NN_EMPTY :: [], sz) ∧
      nn_init 64 ([fixture_layer0, fixture_layer1] ++ NN_EMPTY :: []) 500 40
        = some (ls' ++ NN_EMPTY :: [], sz) ∧
      ls.length = fixture_decl.length ∧ ls'.length = fixture_decl.length ∧
      (∀ (i : Nat) (l l' : nn_layer), ls[i]? = some l → ls'[i]? = some l' →
        l.flags = l'.flags ∧ l.input = l'.input) ∧
      (∀ k d d', (regions fixture_decl)[k]? = some d →
        (regions [fixture_layer0, fixture_layer1])[k]? = some d' →
        ∃ r r', (regions ls)[k]? = some r ∧ (regions ls')[k]? = some r' ∧
          (size_t 64 (region_offset (regions fixture_decl) k + d.len) < 40 / sizeof_float →
            r = r' ∧ r.data = some (500 + size_t 64 (region_offset (regions fixture_decl) k))) ∧
          (¬ size_t 64 (region_offset (regions fixture_decl) k + d.len) < 40 / sizeof_float →
            r.data = d.data ∧ r'.data = d'.data)) ∧
      ((∀ k d, (regions fixture_decl)[k]? = some d →
          size_t 64 (region_offset (regions fixture_decl) k + d.len) < 40 / sizeof_float) →
        ls = ls') ∧
      (total_size fixture_decl < 2 ^ 64 →
        (∀ k d d', (regions fixture_decl)[k]? = some d →
          (regions [fixture_layer0, fixture_layer1])[k]? = some d' →
          ∃ r r', (regions ls)[k]? = some r ∧ (regions ls')[k]? = some r' ∧
            (region_offset (regions fixture_decl) k + d.len < 40 / sizeof_float →
              r = r' ∧ r.data = some (500 + region_offset (regions fixture_decl) k)) ∧
            (¬ region_offset (regions fixture_decl) k + d.len < 40 / sizeof_float →
              r.data = d.data ∧ r'.data = d'.data)) ∧
        (total_size fixture_decl < 40 / sizeof_float → ls = ls')) :=
  ⟨List.Forall₂.cons (by decide) (List.Forall₂.cons (by decide) List.Forall₂.nil),
    by decide, by decide, by decide,
    nn_init_recomputes 64 fixture_decl [fixture_layer0, fixture_layer1] NN_EMPTY NN_EMPTY [] []
      500 40 (List.Forall₂.cons (by decide) (List.Forall₂.cons (by decide) List.Forall₂.nil))
      (by decide) (by decide) (by decide)⟩

/-- Counterexample to C18 as stated: the layers of `test_network_backward`, once
freshly declared and once as the layout at address 100 left them, agree on flags and
lengths; laid out again at address 500 with capacity 0, the fresh descriptors keep
`NULL` output pointers while the others keep the output pointers of the earlier
layout. -/
theorem nn_init_keeps_stale_bindings :
    nn_init 64 (fixture_decl ++ NN_EMPTY :: []) 100 4096 = some (fixture_laid, 88) ∧
    List.Forall₂ same_decl (fixture_decl ++ NN_EMPTY :: []) fixture_laid ∧
    (nn_init 64 (fixture_decl ++ NN_EMPTY :: []) 500 0).map
      (fun r => (r.1.map (fun l => l.output.data), r.2)) = some ([none, none, none], 88) ∧
    (nn_init 64 fixture_laid 500 0).map
      (fun r => (r.1.map (fun l => l.output.data), r.2))
      = some ([some 100, some 110, none], 88) :=
  ⟨by decide,
    List.Forall₂.cons (by decide) (List.Forall₂.cons (by decide)
      (List.Forall₂.cons (by decide) List.Forall₂.nil)),
    by decide, by decide⟩

theorem not_bias_slot (n k i j i' : Nat) (hj : j < n) :
    i * (n + 1) + j ≠ i' * (n + 1) + n := by
  intro h
  have h1 := idx_mod i j (n + 1) (by omega)
  have h2 := idx_mod i' n (n + 1) (by omega)
  rw [h, h2] at h1
  omega

theorem agree_off_bias (l : nn_layer) (pe pin pout pw : Nat) (m1 m2 : Mem α)
    (w1 : disj pw (l.output.len * (l.input.len + 1)) pe l.output.len)
    (w2 : disj pw (l.output.len * (l.input.len + 1)) pout l.output.len)
    (w3 : disj pw (l.output.len * (l.input.len + 1)) pin l.input.len)
    (hagree : ∀ a, (∀ i < l.output.len, a ≠ pw + (i * (l.input.len + 1) + l.input.len)) →
      m1 a = m2 a) :
    (∀ j < l.input.len, m1 (pin + j) = m2 (pin + j)) ∧
    (∀ i < l.output.len, m1 (pout + i) = m2 (pout + i)) ∧
    (∀ i < l.output.len, m1 (pe + i) = m2 (pe + i)) ∧
    (∀ i < l.output.len, ∀ j < l.input.len,
      m1 (pw + (i * (l.input.len + 1) + j)) = m2 (pw + (i * (l.input.len + 1) + j))) := by
  refine ⟨?_, ?_, ?_, ?_⟩
  · intro j hj
    apply hagree
    intro i hi
    have := idx_lt (n := l.input.len + 1) (k := l.output.len) (i := i) (j := l.input.len)
      hi (by omega)
    unfold disj at w3
    omega
  · intro i' hi'
    apply hagree
    intro i hi
    have := idx_lt (n := l.input.len + 1) (k := l.output.len) (i := i) (j := l.input.len)
      hi (by omega)
    unfold disj at w2
    omega
  · intro i' hi'
    apply hagree
    intro i hi
    have := idx_lt (n := l.input.len + 1) (k := l.output.len) (i := i) (j := l.input.len)
      hi (by omega)
    unfold disj at w1
    omega
  · intro i' hi' j hj
    apply hagree
    intro i hi h
    exact not_bias_slot l.input.len 0 i' j i hj (Nat.add_left_cancel h)

/-- C16: for a layer with `NN_FLAG_NO_BIAS` set whose regions are bound and apart as
`nn_init` lays them out, and two memories that agree on every cell except the bias
slots `weights[i*(input_len+1)+input_len]`, `nn_dense_forward` writes the same
outputs in both, `nn_dense_backward` writes the same error vector and the same
weights `weights[i*(input_len+1)+j]`, `j < input_len`, in both, and both calls leave
every bias slot with the value it had. -/
theorem nn_dense_no_bias_ignores_bias_slots (L : libm α) (l : nn_layer) (rate : α)
    (pe pin pout pw perr : Nat) (m1 m2 : Mem α)
    (hflag : l.flags &&& NN_FLAG_NO_BIAS ≠ 0)
    (hin : l.input.data = some pin) (hout : l.output.data = some pout)
    (hw : l.weights.data = some pw) (herr : l.errors.data = some perr)
    (f1 : disj pout l.output.len pin l.input.len)
    (f2 : disj pout l.output.len pw (l.output.len * (l.input.len + 1)))
    (e1 : disj perr l.input.len pe l.output.len)
    (e2 : disj perr l.input.len pout l.output.len)
    (e3 : disj perr l.input.len pw (l.output.len * (l.input.len + 1)))
    (e4 : disj perr l.input.len pin l.input.len)
    (w1 : disj pw (l.output.len * (l.input.len + 1)) pe l.output.len)
    (w2 : disj pw (l.output.len * (l.input.len + 1)) pout l.output.len)
    (w3 : disj pw (l.output.len * (l.input.len + 1)) pin l.input.len)
    (hagree : ∀ a, (∀ i < l.output.len, a ≠ pw + (i * (l.input.len + 1) + l.input.len)) →
      m1 a = m2 a) :
    (∃ o1 o2, nn_dense_forward L l 0 m1 = some o1 ∧ nn_dense_forward L l 0 m2 = some o2 ∧
      (∀ i < l.output.len, o1 (pout + i) = o2 (pout + i)) ∧
      (∀ i < l.output.len,
        o1 (pw + (i * (l.input.len + 1) + l.input.len))
          = m1 (pw + (i * (l.input.len + 1) + l.input.len)) ∧
        o2 (pw + (i * (l.input.len + 1) + l.input.len))
          = m2 (pw + (i * (l.input.len + 1) + l.input.len)))) ∧
    (∃ b1 b2, nn_dense_backward L l (some pe) rate m1 = some b1 ∧
      nn_dense_backward L l (some pe) rate m2 = some b2 ∧
      (∀ j < l.input.len, b1 (perr + j) = b2 (perr + j)) ∧
      (∀ i < l.output.len, ∀ j < l.input.len,
        b1 (pw + (i * (l.input.len + 1) + j)) = b2 (pw + (i * (l.input.len + 1) + j))) ∧
      (∀ i < l.output.len,
        b1 (pw + (i * (l.input.len + 1) + l.input.len))
          = m1 (pw + (i * (l.input.len + 1) + l.input.len)) ∧
        b2 (pw + (i * (l.input.len + 1) + l.input.len))
          = m2 (pw + (i * (l.input.len + 1) + l.input.len)))) := by
  obtain ⟨hx, ho, he, hwt⟩ := agree_off_bias l pe pin pout pw m1 m2 w1 w2 w3 hagree
  constructor
  · refine ⟨_, _, dense_forward_eq L l 0 m1 pin pout pw hin hout hw f1 f2,
      dense_forward_eq L l 0 m2 pin pout pw hin hout hw f1 f2, ?_, ?_⟩
    · intro i hi
      rw [overlay_in _ _ _ _ i hi, overlay_in _ _ _ _ i hi]
      simp only [dense_output, dense_presum, vec, if_neg hflag]
      congr 2
      apply Finset.sum_congr rfl
      intro j hj
      rw [hx j (Finset.mem_range.mp hj), hwt i hi j (Finset.mem_range.mp hj)]
    · intro i hi
      have hidx := idx_lt (n := l.input.len + 1) (k := l.output.len) (i := i)
        (j := l.input.len) hi (by omega)
      constructor <;> exact overlay_out _ _ _ _ _ (by unfold disj at f2; omega)
  · refine ⟨_, _, dense_backward_eq L l m1 rate pe pin pout pw perr hin hout hw herr
        e1 e2 e3 e4 w1 w2 w3,
      dense_backward_eq L l m2 rate pe pin pout pw perr hin hout hw herr
        e1 e2 e3 e4 w1 w2 w3, ?_, ?_, ?_⟩
    · intro j hj
      rw [overlay_out (overlay m1 perr _ _) pw _ _ (perr + j) (by unfold disj at e3; omega),
        overlay_out (overlay m2 perr _ _) pw _ _ (perr + j) (by unfold disj at e3; omega),
        overlay_in _ _ _ _ j hj, overlay_in _ _ _ _ j hj]
      simp only [dense_errors, vec]
      apply Finset.sum_congr rfl
      intro i hi
      rw [he i (Finset.mem_range.mp hi), ho i (Finset.mem_range.mp hi),
        hwt i (Finset.mem_range.mp hi) j hj]
    · intro i hi j hj
      have hidx := idx_lt (n := l.input.len + 1) (k := l.output.len) (i := i) (j := j)
        hi (by omega)
      rw [overlay_in _ _ _ _ _ hidx, overlay_in _ _ _ _ _ hidx]
      simp only [dense_weight, idx_div i j _ (show j < l.input.len + 1 by omega),
        idx_mod i j _ (show j < l.input.len + 1 by omega), vec]
      rw [if_pos hj, if_pos hj, he i hi, ho i hi, hx j hj, hwt i hi j hj]
    · intro i hi
      have hidx := idx_lt (n := l.input.len + 1) (k := l.output.len) (i := i)
        (j := l.input.len) hi (by omega)
      rw [overlay_in _ _ _ _ _ hidx, overlay_in _ _ _ _ _ hidx]
      simp only [dense_weight,
        idx_mod i l.input.len _ (show l.input.len < l.input.len + 1 by omega), vec,
        lt_irrefl, if_false, if_neg hflag]
      exact ⟨trivial, trivial⟩

/-- Witness of C16: a leaky-relu layer without bias, one input and one output, whose
weight vector is `[w, bias slot]` at cells 1 and 2; the two memories differ at cell 2
only. -/
theorem nn_dense_no_bias_ignores_bias_slots_witness :
    (NN_FLAG_LRELU ||| NN_FLAG_NO_BIAS) &&& NN_FLAG_NO_BIAS ≠ 0 ∧
    disj 3 1 0 1 ∧ disj 3 1 1 (1 * (1 + 1)) ∧
    disj 4 1 6 1 ∧ disj 4 1 3 1 ∧ disj 4 1 1 (1 * (1 + 1)) ∧ disj 4 1 0 1 ∧
    disj 1 (1 * (1 + 1)) 6 1 ∧ disj 1 (1 * (1 + 1)) 3 1 ∧ disj 1 (1 * (1 + 1)) 0 1 ∧
    (∀ a : Nat, (∀ i < 1, a ≠ 1 + (i * (1 + 1) + 1)) →
      ((a : ℚ) - 2) = (if a = 2 then (100 : ℚ) else (a : ℚ) - 2)) ∧
    (∃ o1 o2,
      nn_dense_forward (⟨id, id⟩ : libm ℚ)
        { flags := NN_FLAG_LRELU ||| NN_FLAG_NO_BIAS, input := ⟨1, some 0⟩,
          output := ⟨1, some 3⟩, weights := ⟨2, some 1⟩, errors := ⟨1, some 4⟩,
          cache := ⟨0, some 5⟩ } 0 (fun a => (a : ℚ) - 2) = some o1 ∧
      nn_dense_forward (⟨id, id⟩ : libm ℚ)
        { flags := NN_FLAG_LRELU ||| NN_FLAG_NO_BIAS, input := ⟨1, some 0⟩,
          output := ⟨1, some 3⟩, weights := ⟨2, some 1⟩, errors := ⟨1, some 4⟩,
          cache := ⟨0, some 5⟩ } 0 (fun a => if a = 2 then (100 : ℚ) else (a : ℚ) - 2)
        = some o2 ∧
      (∀ i < 1, o1 (3 + i) = o2 (3 + i)) ∧
      (∀ i < 1,
        o1 (1 + (i * (1 + 1) + 1)) = ((1 + (i * (1 + 1) + 1) : Nat) : ℚ) - 2 ∧
        o2 (1 + (i * (1 + 1) + 1))
          = (if 1 + (i * (1 + 1) + 1) = 2 then (100 : ℚ)
              else ((1 + (i * (1 + 1) + 1) : Nat) : ℚ) - 2))) ∧
    (∃ b1 b2,
      nn_dense_backward (⟨id, id⟩ : libm ℚ)
        { flags := NN_FLAG_LRELU ||| NN_FLAG_NO_BIAS, input := ⟨1, some 0⟩,
          output := ⟨1, some 3⟩, weights := ⟨2, some 1⟩, errors := ⟨1, some 4⟩,
          cache := ⟨0, some 5⟩ } (some 6) (1 / 2) (fun a => (a : ℚ) - 2) = some b1 ∧
      nn_dense_backward (⟨id, id⟩ : libm ℚ)
        { flags := NN_FLAG_LRELU ||| NN_FLAG_NO_BIAS, input := ⟨1, some 0⟩,
          output := ⟨1, some 3⟩, weights := ⟨2, some 1⟩, errors := ⟨1, some 4⟩,
          cache := ⟨0, some 5⟩ } (some 6) (1 / 2)
        (fun a => if a = 2 then (100 : ℚ) else (a : ℚ) - 2) = some b2 ∧
      (∀ j < 1, b1 (4 + j) = b2 (4 + j)) ∧
      (∀ i < 1, ∀ j < 1, b1 (1 + (i * (1 + 1) + j)) = b2 (1 + (i * (1 + 1) + j))) ∧
      (∀ i < 1,
        b1 (1 + (i * (1 + 1) + 1)) = ((1 + (i * (1 + 1) + 1) : Nat) : ℚ) - 2 ∧
        b2 (1 + (i * (1 + 1) + 1))
          = (if 1 + (i * (1 + 1) + 1) = 2 then (100 : ℚ)
              else ((1 + (i * (1 + 1) + 1) : Nat) : ℚ) - 2))) :=
  have hagree : ∀ a : Nat, (∀ i < 1, a ≠ 1 + (i * (1 + 1) + 1)) →
      ((a : ℚ) - 2) = (if a = 2 then (100 : ℚ) else (a : ℚ) - 2) := fun a h => by
    have h2 : a ≠ 2 := h 0 (by decide)
    rw [if_neg h2]
  have key := nn_dense_no_bias_ignores_bias_slots (⟨id, id⟩ : libm ℚ)
    { flags := NN_FLAG_LRELU ||| NN_FLAG_NO_BIAS, input := ⟨1, some 0⟩,
      output := ⟨1, some 3⟩, weights := ⟨2, some 1⟩, errors := ⟨1, some 4⟩,
      cache := ⟨0, some 5⟩ } (1 / 2) 6 0 3 1 4
    (fun a => (a : ℚ) - 2) (fun a => if a = 2 then (100 : ℚ) else (a : ℚ) - 2)
    (by decide) rfl rfl rfl rfl
    (by decide) (by decide) (by decide) (by decide) (by decide) (by decide) (by decide)
    (by decide) (by decide) hagree
  ⟨by decide, by decide, by decide, by decide, by decide, by decide, by decide, by decide,
    by decide, by decide, hagree, key.1, key.2⟩

theorem forward_sum :
    layer_out (⟨Real.exp, Real.log⟩ : libm ℝ) forward_mem forward_layer0 (vec forward_mem 0) 0
      = 1 / (1 + Real.exp (-(1.62434536 * 1.74481176 + -0.52817175 * -0.7612069
          + 0.86540763 * 0.3190391 + -0.24937038))) := by
  simp only [layer_out, forward_layer0, dense_output, act_sigmoid _ NN_FLAG_SIGMOID rfl,
    NN_ACT_SIGMOID, dense_presum, Finset.sum_range_succ, Finset.sum_range_zero, layer_w, load,
    vec, Option.map_some', Option.getD_some, if_pos fixture_bias]
  norm_num [forward_mem]

theorem exp_neg_quarter_le (s u : ℝ) (h : Real.exp (-(s / 4)) ≤ u) :
    Real.exp (-s) ≤ (u ^ 2) ^ 2 := by
  apply exp_neg_sq_le
  have e : -(s / 2 / 2) = -(s / 4) := by ring
  exact exp_neg_sq_le (s / 2) u (by rw [e]; exact h)

theorem le_exp_neg_quarter (s l : ℝ) (hl : 0 ≤ l) (h : l ≤ Real.exp (-(s / 4))) :
    (l ^ 2) ^ 2 ≤ Real.exp (-s) := by
  apply le_exp_neg_sq _ _ (by positivity)
  have e : -(s / 2 / 2) = -(s / 4) := by ring
  exact le_exp_neg_sq (s / 2) l hl (by rw [e]; exact h)

theorem forward_value :
    (0.9630 : ℝ) ≤ 1 / (1 + Real.exp (-(1.62434536 * 1.74481176 + -0.52817175 * -0.7612069
          + 0.86540763 * 0.3190391 + -0.24937038))) ∧
    1 / (1 + Real.exp (-(1.62434536 * 1.74481176 + -0.52817175 * -0.7612069
          + 0.86540763 * 0.3190391 + -0.24937038))) ≤ (0.9633 : ℝ) := by
  constructor
  · refine le_trans ?_ (sigmoid_mono 3.2629 _ (by norm_num))
    obtain ⟨lo, hi⟩ := exp_neg_bounds (-(3.2629 / 4)) (by norm_num) (by norm_num)
    apply sigmoid_ge _ _ (by norm_num)
    refine le_trans (exp_neg_quarter_le _ _ hi) ?_
    norm_num
  · refine le_trans (sigmoid_mono _ 3.263 (by norm_num)) ?_
    obtain ⟨lo, hi⟩ := exp_neg_bounds (-(3.263 / 4)) (by norm_num) (by norm_num)
    apply sigmoid_le _ _ (by norm_num)
    refine le_trans ?_ (le_exp_neg_quarter _ _ (by norm_num) lo)
    norm_num

theorem forward_predict :
    ∃ m1, nn_predict 64 (⟨Real.exp, Real.log⟩ : libm ℝ) forward_laid 0 forward_mem
        = some ([forward_layer0, NN_EMPTY], some 100, m1) ∧
      m1 100 = 1 / (1 + Real.exp (-(1.62434536 * 1.74481176 + -0.52817175 * -0.7612069
          + 0.86540763 * 0.3190391 + -0.24937038))) := by
  obtain ⟨mf, p, _, hp, hlp, _, _, hval⟩ :=
    @predict_core ℝ _ 64 (⟨Real.exp, Real.log⟩ : libm ℝ) 100 0 3 NN_EMPTY [] forward_laid
      forward_layer0 [] forward_mem (by decide) rfl
      (by simp [Bound, forward_layer0, layer_size])
      (by simp [Shaped, forward_layer0]) (by decide) (by decide)
  have e : p = 100 := (Option.some.inj hlp).symm
  subst e
  have v0 := hval 0 (by decide)
  simp only [net_forward] at v0
  refine ⟨mf, hp, ?_⟩
  have : mf 100 = _ := v0
  rw [this]
  exact forward_sum

/-- C14, as the code has it: `NN_DENSE(a, b, flags)` is a positional initializer, so
its first argument (the macro parameter named `out`) is the input length and its
second (named `in`) the output length; the weights have length `(a + 1) * b` and the
errors length `a`.  The fixture `NN_DENSE(3, 1, NN_FLAG_SIGMOID)` of
`test_network_forward` is a layer with 3 inputs and 1 output: laid out by `nn_init`
in the test's buffer, `nn_predict` on the test's first input returns the single
output `sigmoid(x0*w0 + x1*w1 + x2*w2 + w3)`, within `0.001` of the value
`0.96313579` the test asserts. -/
theorem NN_DENSE_argument_order :
    (∀ a b flags : Nat,
      (NN_DENSE a b flags).flags = flags ∧
      (NN_DENSE a b flags).input.len = a ∧ (NN_DENSE a b flags).output.len = b ∧
      (NN_DENSE a b flags).weights.len = (a + 1) * b ∧
      (NN_DENSE a b flags).errors.len = a ∧ (NN_DENSE a b flags).cache.len = 0) ∧
    forward_decl = [NN_DENSE 3 1 NN_FLAG_SIGMOID] ∧
    nn_init 64 (forward_decl ++ NN_EMPTY :: []) 100 256 = some (forward_laid, 36) ∧
    ∃ m1, nn_predict 64 (⟨Real.exp, Real.log⟩ : libm ℝ) forward_laid 0 forward_mem
        = some ([forward_layer0, NN_EMPTY], some 100, m1) ∧
      m1 100 = 1 / (1 + Real.exp (-(1.62434536 * 1.74481176 + -0.52817175 * -0.7612069
          + 0.86540763 * 0.3190391 + -0.24937038))) ∧
      |m1 100 - 0.96313579| ≤ 0.001 := by
  refine ⟨fun a b flags => ⟨rfl, rfl, rfl, rfl, rfl, rfl⟩, rfl, by decide, ?_⟩
  obtain ⟨m1, hp, hv⟩ := forward_predict
  refine ⟨m1, hp, hv, ?_⟩
  rw [hv, abs_le]
  constructor <;> linarith [forward_value.1, forward_value.2]

/-- Counterexample to C14 as stated: the fixture `NN_DENSE(3, 1, NN_FLAG_SIGMOID)` has
input length 3 and output length 1, not 1 input and 3 outputs, and its weights have
length `(3 + 1) * 1`, not `(1 + 1) * 3`. -/
theorem NN_DENSE_fixture_three_inputs :
    (NN_DENSE 3 1 NN_FLAG_SIGMOID).input.len = 3 ∧
    (NN_DENSE 3 1 NN_FLAG_SIGMOID).output.len = 1 ∧
    (NN_DENSE 3 1 NN_FLAG_SIGMOID).weights.len = 4 ∧
    ¬ ((NN_DENSE 3 1 NN_FLAG_SIGMOID).output.len = 3 ∧
       (NN_DENSE 3 1 NN_FLAG_SIGMOID).input.len = 1) := by
  decide

/-- C15, as the code has it: a layer declared with `NN_DENSE` has
`(input_len + 1) * output_len` weights with or without `NN_FLAG_NO_BIAS`, and
`nn_dense_forward` on a layer with `NN_FLAG_NO_BIAS` reads row `i` of the weights at
stride `input_len + 1`: output `i` is the activation of the sum of
`input[j] * weights[i*(input_len+1)+j]` over `j < input_len`. -/
theorem NN_DENSE_no_bias_weights (L : libm α) (a b flags : Nat) (l : nn_layer) (m : Mem α)
    (pin pout pw : Nat)
    (hflag : l.flags &&& NN_FLAG_NO_BIAS ≠ 0)
    (hin : l.input.data = some pin) (hout : l.output.data = some pout)
    (hw : l.weights.data = some pw)
    (h1 : disj pout l.output.len pin l.input.len)
    (h2 : disj pout l.output.len pw (l.output.len * (l.input.len + 1))) :
    (NN_DENSE a b (flags ||| NN_FLAG_NO_BIAS)).weights.len =
      ((NN_DENSE a b (flags ||| NN_FLAG_NO_BIAS)).input.len + 1) *
        (NN_DENSE a b (flags ||| NN_FLAG_NO_BIAS)).output.len ∧
    (NN_DENSE a b flags).weights.len =
      ((NN_DENSE a b flags).input.len + 1) * (NN_DENSE a b flags).output.len ∧
    ∃ m', nn_dense_forward L l 0 m = some m' ∧
      ∀ i < l.output.len, m' (pout + i) =
        act L l.flags (∑ j in range l.input.len,
          m (pin + j) * m (pw + (i * (l.input.len + 1) + j))) := by
  refine ⟨rfl, rfl, _, dense_forward_eq L l 0 m pin pout pw hin hout hw h1 h2, ?_⟩
  intro i hi
  rw [overlay_in _ _ _ _ i hi]
  simp only [dense_output, dense_presum, vec, if_neg hflag, add_zero]

/-- Witness of C15 as amended: a linear layer without bias, two inputs and two
outputs, declared as `NN_DENSE(2, 2, NN_FLAG_NO_BIAS)`; its six weights are at cells
4 to 9, rows at stride 3. -/
theorem NN_DENSE_no_bias_weights_witness :
    NN_FLAG_NO_BIAS &&& NN_FLAG_NO_BIAS ≠ 0 ∧ disj 2 2 0 2 ∧ disj 2 2 4 (2 * (2 + 1)) ∧
    (NN_DENSE 2 2 (NN_FLAG_LINEAR ||| NN_FLAG_NO_BIAS)).weights.len =
      ((NN_DENSE 2 2 (NN_FLAG_LINEAR ||| NN_FLAG_NO_BIAS)).input.len + 1) *
        (NN_DENSE 2 2 (NN_FLAG_LINEAR ||| NN_FLAG_NO_BIAS)).output.len ∧
    (NN_DENSE 2 2 NN_FLAG_LINEAR).weights.len =
      ((NN_DENSE 2 2 NN_FLAG_LINEAR).input.len + 1) * (NN_DENSE 2 2 NN_FLAG_LINEAR).output.len ∧
    ∃ m', nn_dense_forward (⟨id, id⟩ : libm ℚ)
        { flags := NN_FLAG_NO_BIAS, input := ⟨2, some 0⟩, output := ⟨2, some 2⟩,
          weights := ⟨6, some 4⟩, errors := ⟨2, some 10⟩, cache := ⟨0, some 12⟩ }
        0 (fun a => (a : ℚ)) = some m' ∧
      ∀ i < 2, m' (2 + i) =
        act (⟨id, id⟩ : libm ℚ) NN_FLAG_NO_BIAS (∑ j in range 2,
          ((0 + j : Nat) : ℚ) * ((4 + (i * (2 + 1) + j) : Nat) : ℚ)) :=
  ⟨by decide, by decide, by decide,
    NN_DENSE_no_bias_weights (⟨id, id⟩ : libm ℚ) 2 2 NN_FLAG_LINEAR
      { flags := NN_FLAG_NO_BIAS, input := ⟨2, some 0⟩, output := ⟨2, some 2⟩,
        weights := ⟨6, some 4⟩, errors := ⟨2, some 10⟩, cache := ⟨0, some 12⟩ }
      (fun a => (a : ℚ)) 0 2 4 (by decide) rfl rfl rfl (by decide) (by decide)⟩

/-- Counterexample to C15 as stated: `NN_DENSE(2, 3, NN_FLAG_SIGMOID | NN_FLAG_NO_BIAS)`
declares `(2 + 1) * 3 = 9` weights, not `2 * 3 = 6`. -/
theorem NN_DENSE_no_bias_keeps_bias_column :
    (NN_FLAG_SIGMOID ||| NN_FLAG_NO_BIAS) &&& NN_FLAG_NO_BIAS ≠ 0 ∧
    (NN_DENSE 2 3 (NN_FLAG_SIGMOID ||| NN_FLAG_NO_BIAS)).weights.len = 9 ∧
    (NN_DENSE 2 3 (NN_FLAG_SIGMOID ||| NN_FLAG_NO_BIAS)).weights.len ≠
      (NN_DENSE 2 3 (NN_FLAG_SIGMOID ||| NN_FLAG_NO_BIAS)).input.len *
        (NN_DENSE 2 3 (NN_FLAG_SIGMOID ||| NN_FLAG_NO_BIAS)).output.len := by
  decide

theorem sigmoid_hasDerivAt (s : ℝ) :
    HasDerivAt (NN_ACT_SIGMOID (⟨Real.exp, Real.log⟩ : libm ℝ))
      (NN_DACT_SIGMOID (NN_ACT_SIGMOID (⟨Real.exp, Real.log⟩ : libm ℝ) s)) s := by
  have hfun : NN_ACT_SIGMOID (⟨Real.exp, Real.log⟩ : libm ℝ)
      = fun x => 1 / (1 + Real.exp (-x)) := by
    funext x
    simp only [NN_ACT_SIGMOID]
    norm_num
  have hpos : (1 + Real.exp (-s)) ≠ 0 := by
    have := Real.exp_pos (-s)
    linarith
  have h1 : HasDerivAt (fun x => Real.exp (-x)) (Real.exp (-s) * (-1)) s :=
    (Real.hasDerivAt_exp (-s)).comp s (hasDerivAt_neg s)
  have h2 : HasDerivAt (fun x => 1 + Real.exp (-x)) (Real.exp (-s) * (-1)) s :=
    h1.const_add 1
  have h3 := (hasDerivAt_const s (1 : ℝ)).div h2 hpos
  rw [hfun]
  convert h3 using 1
  simp only [NN_DACT_SIGMOID]
  field_simp
  ring

theorem relu_hasDerivAt (s : ℝ) (hs : s ≠ 0) :
    HasDerivAt (NN_ACT_RELU : ℝ → ℝ) (NN_DACT_RELU (NN_ACT_RELU s)) s := by
  rcases lt_or_gt_of_ne hs with h | h
  · have hev : (NN_ACT_RELU : ℝ → ℝ) =ᶠ[nhds s] fun _ => 0 :=
      (gt_mem_nhds h).mono (fun x hx => by
        have : ¬ x > 0 := not_lt.mpr (le_of_lt hx)
        simp [NN_ACT_RELU, this])
    have hval : NN_DACT_RELU (NN_ACT_RELU s) = (0 : ℝ) := by
      have : ¬ s > 0 := not_lt.mpr (le_of_lt h)
      simp [NN_DACT_RELU, NN_ACT_RELU, this]
    rw [hval]
    exact (hasDerivAt_const s (0 : ℝ)).congr_of_eventuallyEq hev
  · have hev : (NN_ACT_RELU : ℝ → ℝ) =ᶠ[nhds s] fun x => x :=
      (lt_mem_nhds h).mono (fun x hx => by
        have : x > 0 := hx
        simp [NN_ACT_RELU, this])
    have hval : NN_DACT_RELU (NN_ACT_RELU s) = (1 : ℝ) := by
      have h' : s > 0 := h
      simp only [NN_DACT_RELU, NN_ACT_RELU, if_pos h', mul_one]
      norm_num
    rw [hval]
    exact (hasDerivAt_id s).congr_of_eventuallyEq hev

theorem lrelu_hasDerivAt (s : ℝ) (hs : s ≠ 0) :
    HasDerivAt (NN_ACT_LRELU : ℝ → ℝ) (NN_DACT_LRELU (NN_ACT_LRELU s)) s := by
  rcases lt_or_gt_of_ne hs with h | h
  · have hev : (NN_ACT_LRELU : ℝ → ℝ) =ᶠ[nhds s] fun x => 0.01 * x :=
      (gt_mem_nhds h).mono (fun x hx => by
        have : ¬ x > 0 := not_lt.mpr (le_of_lt hx)
        simp [NN_ACT_LRELU, this])
    have hval : NN_DACT_LRELU (NN_ACT_LRELU s) = (0.01 : ℝ) := by
      have h1 : ¬ s > 0 := not_lt.mpr (le_of_lt h)
      have h2 : ¬ (0.01 * s > 0) := by
        have : 0.01 * s < 0 := by nlinarith
        exact not_lt.mpr (le_of_lt this)
      simp only [NN_DACT_LRELU, NN_ACT_LRELU, if_neg h1, if_neg h2]
    rw [hval]
    have hd : HasDerivAt (fun x : ℝ => 0.01 * x) (0.01 * 1) s :=
      (hasDerivAt_id s).const_mul (0.01 : ℝ)
    rw [mul_one] at hd
    exact hd.congr_of_eventuallyEq hev
  · have hev : (NN_ACT_LRELU : ℝ → ℝ) =ᶠ[nhds s] fun x => x :=
      (lt_mem_nhds h).mono (fun x hx => by
        have : x > 0 := hx
        simp [NN_ACT_LRELU, this])
    have hval : NN_DACT_LRELU (NN_ACT_LRELU s) = (1 : ℝ) := by
      have h' : s > 0 := h
      simp only [NN_DACT_LRELU, NN_ACT_LRELU, if_pos h']
      norm_num
    rw [hval]
    exact (hasDerivAt_id s).congr_of_eventuallyEq hev

/-- C19: over the reals, for a layer whose output cell `i` holds the activation
`a(s)` of the pre-activation sum `s`, the factor `dsigm` that `nn_dense_backward`
computes for neuron `i` is the derivative of the layer's activation `a` at `s`
(for relu and leaky relu when `s ≠ 0`): it is `a(s) * (1 - a(s))` for sigmoid,
`1` or `0` by the sign of `relu(s)`, `1` or `0.01` by the sign of `lrelu(s)`, and the
constant `1` for linear. -/
theorem nn_dense_backward_factor_is_derivative (l : nn_layer) (pout : Nat) (m : Mem ℝ)
    (i : Nat) (s : ℝ)
    (hout : l.output.data = some pout)
    (hm : m (pout + i) = act (⟨Real.exp, Real.log⟩ : libm ℝ) l.flags s)
    (hs : l.flags &&& NN_ACTFN = NN_FLAG_RELU ∨ l.flags &&& NN_ACTFN = NN_FLAG_LRELU → s ≠ 0) :
    ∃ d, nn_dense_backward_dsigm (⟨Real.exp, Real.log⟩ : libm ℝ) l m i = some d ∧
      HasDerivAt (act (⟨Real.exp, Real.log⟩ : libm ℝ) l.flags) d s ∧
      (l.flags &&& NN_ACTFN = NN_FLAG_SIGMOID →
        act (⟨Real.exp, Real.log⟩ : libm ℝ) l.flags = (fun x => 1 / (1 + Real.exp (-x))) ∧
        d = 1 / (1 + Real.exp (-s)) * (1 - 1 / (1 + Real.exp (-s)))) ∧
      (l.flags &&& NN_ACTFN = NN_FLAG_RELU →
        act (⟨Real.exp, Real.log⟩ : libm ℝ) l.flags = (fun x => max 0 x) ∧
        d = if max 0 s > 0 then 1 else 0) ∧
      (l.flags &&& NN_ACTFN = NN_FLAG_LRELU →
        act (⟨Real.exp, Real.log⟩ : libm ℝ) l.flags
          = (fun x => if x > 0 then x else 0.01 * x) ∧
        d = if (if s > 0 then s else 0.01 * s) > 0 then 1 else 0.01) ∧
      (l.flags &&& NN_ACTFN = NN_FLAG_LINEAR →
        act (⟨Real.exp, Real.log⟩ : libm ℝ) l.flags = (fun x => x) ∧ d = 1) := by
  have c0 : NN_FLAG_LINEAR = 0 := rfl
  have c1 : NN_FLAG_RELU = 2 := rfl
  have c2 : NN_FLAG_LRELU = 4 := rfl
  have c3 : NN_FLAG_SIGMOID = 6 := rfl
  have one : (1.0 : ℝ) = 1 := by norm_num
  refine ⟨_, backward_dact_eq _ l pout hout m i, ?_⟩
  rw [hm]
  rcases and_actfn_cases l.flags with h | h | h | h
  · have hf : act (⟨Real.exp, Real.log⟩ : libm ℝ) l.flags = fun x => x :=
      funext (act_linear _ l.flags h)
    have hd : dact l.flags (act (⟨Real.exp, Real.log⟩ : libm ℝ) l.flags s) = (1 : ℝ) := by
      simp only [dact, h, c0, if_true]
    rw [hd, hf]
    refine ⟨hasDerivAt_id s, ?_, ?_, ?_, ?_⟩
    · intro h'; rw [h, c3] at h'; omega
    · intro h'; rw [h, c1] at h'; omega
    · intro h'; rw [h, c2] at h'; omega
    · intro _; exact ⟨rfl, rfl⟩
  · have hf : act (⟨Real.exp, Real.log⟩ : libm ℝ) l.flags = NN_ACT_RELU :=
      funext (act_relu _ l.flags h)
    have hd : ∀ o : ℝ, dact l.flags o = NN_DACT_RELU o := by
      intro o
      simp only [dact, h, c0, c1, NN_DACT_RELU, one, one_mul]
      rfl
    have hmax : (NN_ACT_RELU : ℝ → ℝ) = fun x => max 0 x := funext relu_eq_max
    rw [hd, hf]
    refine ⟨relu_hasDerivAt s (hs (Or.inl h)), ?_, ?_, ?_, ?_⟩
    · intro h'; rw [h, c3] at h'; omega
    · intro _
      refine ⟨hmax, ?_⟩
      simp only [NN_DACT_RELU, one, one_mul, relu_eq_max]
    · intro h'; rw [h, c2] at h'; omega
    · intro h'; rw [h, c0] at h'; omega
  · have hf : act (⟨Real.exp, Real.log⟩ : libm ℝ) l.flags = NN_ACT_LRELU :=
      funext (act_lrelu _ l.flags h)
    have hd : ∀ o : ℝ, dact l.flags o = NN_DACT_LRELU o := by
      intro o
      simp only [dact, h, c0, c1, c2, NN_DACT_LRELU, one]
      rfl
    rw [hd, hf]
    refine ⟨lrelu_hasDerivAt s (hs (Or.inr h)), ?_, ?_, ?_, ?_⟩
    · intro h'; rw [h, c3] at h'; omega
    · intro h'; rw [h, c1] at h'; omega
    · intro _
      refine ⟨rfl, ?_⟩
      simp only [NN_DACT_LRELU, NN_ACT_LRELU, one]
    · intro h'; rw [h, c0] at h'; omega
  · have hf : act (⟨Real.exp, Real.log⟩ : libm ℝ) l.flags
        = NN_ACT_SIGMOID (⟨Real.exp, Real.log⟩ : libm ℝ) :=
      funext (act_sigmoid _ l.flags h)
    have hfun : NN_ACT_SIGMOID (⟨Real.exp, Real.log⟩ : libm ℝ)
        = fun x => 1 / (1 + Real.exp (-x)) := by
      funext x
      simp only [NN_ACT_SIGMOID, one]
    have hd : ∀ o : ℝ, dact l.flags o = NN_DACT_SIGMOID o := by
      intro o
      simp only [dact, h, c0, c1, c2, NN_DACT_SIGMOID]
      rfl
    rw [hd, hf]
    refine ⟨sigmoid_hasDerivAt s, ?_, ?_, ?_, ?_⟩
    · intro _
      refine ⟨hfun, ?_⟩
      simp only [NN_DACT_SIGMOID, NN_ACT_SIGMOID, one]
    · intro h'; rw [h, c1] at h'; omega
    · intro h'; rw [h, c2] at h'; omega
    · intro h'; rw [h, c0] at h'; omega

/-- Witness of C19: a relu layer whose output cell holds `relu(1)`. -/
theorem nn_dense_backward_factor_is_derivative_witness :
    (NN_FLAG_RELU &&& NN_ACTFN = NN_FLAG_RELU ∨ NN_FLAG_RELU &&& NN_ACTFN = NN_FLAG_LRELU →
      (1 : ℝ) ≠ 0) ∧
    ∃ d, nn_dense_backward_dsigm (⟨Real.exp, Real.log⟩ : libm ℝ)
        { flags := NN_FLAG_RELU, input := ⟨1, some 0⟩, output := ⟨1, some 3⟩,
          weights := ⟨2, some 1⟩, errors := ⟨1, some 4⟩, cache := ⟨0, some 5⟩ }
        (fun _ => act (⟨Real.exp, Real.log⟩ : libm ℝ) NN_FLAG_RELU 1) 0 = some d ∧
      HasDerivAt (act (⟨Real.exp, Real.log⟩ : libm ℝ) NN_FLAG_RELU) d 1 ∧
      (NN_FLAG_RELU &&& NN_ACTFN = NN_FLAG_SIGMOID →
        act (⟨Real.exp, Real.log⟩ : libm ℝ) NN_FLAG_RELU = (fun x => 1 / (1 + Real.exp (-x))) ∧
        d = 1 / (1 + Real.exp (-1)) * (1 - 1 / (1 + Real.exp (-1)))) ∧
      (NN_FLAG_RELU &&& NN_ACTFN = NN_FLAG_RELU →
        act (⟨Real.exp, Real.log⟩ : libm ℝ) NN_FLAG_RELU = (fun x => max 0 x) ∧
        d = if max 0 (1 : ℝ) > 0 then 1 else 0) ∧
      (NN_FLAG_RELU &&& NN_ACTFN = NN_FLAG_LRELU →
        act (⟨Real.exp, Real.log⟩ : libm ℝ) NN_FLAG_RELU
          = (fun x => if x > 0 then x else 0.01 * x) ∧
        d = if (if (1 : ℝ) > 0 then (1 : ℝ) else 0.01 * 1) > 0 then 1 else 0.01) ∧
      (NN_FLAG_RELU &&& NN_ACTFN = NN_FLAG_LINEAR →
        act (⟨Real.exp, Real.log⟩ : libm ℝ) NN_FLAG_RELU = (fun x => x) ∧ d = 1) :=
  ⟨fun _ => one_ne_zero,
    nn_dense_backward_factor_is_derivative
      { flags := NN_FLAG_RELU, input := ⟨1, some 0⟩, output := ⟨1, some 3⟩,
        weights := ⟨2, some 1⟩, errors := ⟨1, some 4⟩, cache := ⟨0, some 5⟩ } 3
      (fun _ => act (⟨Real.exp, Real.log⟩ : libm ℝ) NN_FLAG_RELU 1) 0 1 rfl rfl
      (fun _ => one_ne_zero)⟩

theorem softplus_hasDerivAt (s : ℝ) :
    HasDerivAt (NN_ACT_SOFTPLUS (⟨Real.exp, Real.log⟩ : libm ℝ)) (1 / (1 + Real.exp (-s))) s := by
  have hfun : NN_ACT_SOFTPLUS (⟨Real.exp, Real.log⟩ : libm ℝ)
      = fun x => Real.log (1 + Real.exp x) := by
    funext x
    simp only [NN_ACT_SOFTPLUS]
    norm_num
  have hpos : (1 + Real.exp s) ≠ 0 := by
    have := Real.exp_pos s
    linarith
  have h1 : HasDerivAt (fun x => 1 + Real.exp x) (Real.exp s) s :=
    (Real.hasDerivAt_exp s).const_add 1
  have h2 := h1.log hpos
  rw [hfun]
  convert h2 using 1
  rw [Real.exp_neg]
  have := Real.exp_pos s
  field_simp
  ring

theorem softplus_factor_ne (s : ℝ) :
    NN_DACT_SOFTPLUS (⟨Real.exp, Real.log⟩ : libm ℝ)
      (NN_ACT_SOFTPLUS (⟨Real.exp, Real.log⟩ : libm ℝ) s) ≠ 1 / (1 + Real.exp (-s)) := by
  have one : (1.0 : ℝ) = 1 := by norm_num
  have hE := Real.exp_pos s
  have h1 : Real.exp (-Real.log (1 + Real.exp s)) = (1 + Real.exp s)⁻¹ := by
    rw [Real.exp_neg, Real.exp_log (by linarith)]
  simp only [NN_DACT_SOFTPLUS, NN_ACT_SOFTPLUS, one, h1, Real.exp_neg]
  intro h
  rw [one_div, one_div, inv_inj] at h
  have h2 : (1 + Real.exp s)⁻¹ = (Real.exp s)⁻¹ := add_left_cancel h
  have h3 := inv_inj.mp h2
  linarith

theorem one_ne_sigmoid (s : ℝ) : (1 : ℝ) ≠ 1 / (1 + Real.exp (-s)) := by
  have hE := Real.exp_pos (-s)
  intro h
  have h2 : 1 / (1 + Real.exp (-s)) < 1 := by
    rw [div_lt_one (by linarith)]
    linarith
  linarith

theorem softplus_flag_update (m : Mem ℝ) :
    ∃ m', nn_dense_backward (⟨Real.exp, Real.log⟩ : libm ℝ)
        { flags := NN_FLAG_SOFTPLUS, input := ⟨1, some 0⟩, output := ⟨1, some 3⟩,
          weights := ⟨2, some 1⟩, errors := ⟨1, some 4⟩, cache := ⟨0, some 5⟩ }
        (some 6) 1 m = some m' ∧
      m' 1 = m 1 + 1 * m 6 * 1 * m 0 := by
  have hmask : NN_FLAG_SOFTPLUS &&& NN_ACTFN = NN_FLAG_LINEAR := by decide
  have hd : ∀ o : ℝ, dact NN_FLAG_SOFTPLUS o = 1 := by
    intro o
    simp only [dact, hmask, if_true]
  refine ⟨_, dense_backward_eq (⟨Real.exp, Real.log⟩ : libm ℝ)
    { flags := NN_FLAG_SOFTPLUS, input := ⟨1, some 0⟩, output := ⟨1, some 3⟩,
      weights := ⟨2, some 1⟩, errors := ⟨1, some 4⟩, cache := ⟨0, some 5⟩ }
    m 1 6 0 3 1 4 rfl rfl rfl rfl
    (by decide) (by decide) (by decide) (by decide) (by decide) (by decide) (by decide), ?_⟩
  have e := overlay_in
    (overlay m 4 1 (dense_errors NN_FLAG_SOFTPLUS 1 1 (vec m 1) (vec m 6) (vec m 3)))
    1 (1 * (1 + 1))
    (dense_weight NN_FLAG_SOFTPLUS 1 1 (vec m 1) (vec m 6) (vec m 3) (vec m 0)) 0 (by decide)
  have e' : overlay
      (overlay m 4 1 (dense_errors NN_FLAG_SOFTPLUS 1 1 (vec m 1) (vec m 6) (vec m 3)))
      1 (1 * (1 + 1))
      (dense_weight NN_FLAG_SOFTPLUS 1 1 (vec m 1) (vec m 6) (vec m 3) (vec m 0)) 1 = _ := e
  rw [e']
  simp only [dense_weight, hd, vec]
  norm_num

/-- C20 (the code departs from the claim): on a layer with flag word
`NN_FLAG_SOFTPLUS` the selector mask `NN_ACTFN` drops the softplus bit, so both
`switch` statements of `nn_dense_backward` take `case NN_FLAG_LINEAR` and the factor
is the constant `1`, which differs from the derivative `1 / (1 + e^(-s))` of softplus
at every real `s`; the unreachable macro `NN_DACT_SOFTPLUS`, applied to the output
`ln (1 + e^s)`, would not give that derivative either.  With input `1`, weight `2`,
output cell `ln (1 + e^5)`, `e = 1` and rate `1`, the weight becomes `2 + 1 = 3`. -/
theorem nn_dense_backward_softplus_flag_factor_one :
    NN_FLAG_SOFTPLUS &&& NN_ACTFN = NN_FLAG_LINEAR ∧
    (∀ s : ℝ,
      nn_dense_backward_dsigm (⟨Real.exp, Real.log⟩ : libm ℝ)
        { flags := NN_FLAG_SOFTPLUS, input := ⟨1, some 0⟩, output := ⟨1, some 3⟩,
          weights := ⟨2, some 1⟩, errors := ⟨1, some 4⟩, cache := ⟨0, some 5⟩ }
        (fun _ => Real.log (1 + Real.exp s)) 0 = some 1 ∧
      HasDerivAt (NN_ACT_SOFTPLUS (⟨Real.exp, Real.log⟩ : libm ℝ))
        (1 / (1 + Real.exp (-s))) s ∧
      (1 : ℝ) ≠ 1 / (1 + Real.exp (-s)) ∧
      NN_DACT_SOFTPLUS (⟨Real.exp, Real.log⟩ : libm ℝ)
        (NN_ACT_SOFTPLUS (⟨Real.exp, Real.log⟩ : libm ℝ) s) ≠ 1 / (1 + Real.exp (-s))) ∧
    ∃ m', nn_dense_backward (⟨Real.exp, Real.log⟩ : libm ℝ)
        { flags := NN_FLAG_SOFTPLUS, input := ⟨1, some 0⟩, output := ⟨1, some 3⟩,
          weights := ⟨2, some 1⟩, errors := ⟨1, some 4⟩, cache := ⟨0, some 5⟩ }
        (some 6) 1
        (fun a => if a = 3 then Real.log (1 + Real.exp 5) else if a = 1 then 2
          else if a = 2 then 3 else 1) = some m' ∧
      m' 1 = 3 ∧ m' 1 ≠ 2 + 1 * 1 * (1 / (1 + Real.exp (-5))) * 1 := by
  have hmask : NN_FLAG_SOFTPLUS &&& NN_ACTFN = NN_FLAG_LINEAR := by decide
  have hd : ∀ o : ℝ, dact NN_FLAG_SOFTPLUS o = 1 := by
    intro o
    simp only [dact, hmask, if_true]
  refine ⟨hmask, ?_, ?_⟩
  · intro s
    refine ⟨?_, softplus_hasDerivAt s, one_ne_sigmoid s, softplus_factor_ne s⟩
    rw [backward_dact_eq _ _ 3 rfl, hd]
  · obtain ⟨m', hm, hv⟩ := softplus_flag_update
      (fun a => if a = 3 then Real.log (1 + Real.exp 5) else if a = 1 then 2
        else if a = 2 then 3 else 1)
    have h3 : m' 1 = 3 := by
      rw [hv]
      norm_num
    refine ⟨m', hm, h3, ?_⟩
    rw [h3]
    have := one_ne_sigmoid 5
    intro h
    apply this
    linarith

end Proofs

end NanoNN
